import Mathlib

/-!
# Stuck-at fault collapsing: a verification development

Shallow embedding of `FEC.c` (fault-equivalence collapsing) and of
`fault_universe.c` (fault universe and fanout report): the net registry the
two share, the classifier, the fanout map, and both `main` functions.

Modelling conventions.

* A C array is a total function from indices to values together with its
  length. The classifier arrays and the marks are indexed by computed values:
  each such access checks the range, and an access outside `[0, length)`
  (undefined behaviour in C) makes the operation return `none`.
* `long`, `int` and `size_t` values are mathematical integers: the spec keeps
  net ids "in a moderate numeric range", where no C arithmetic wraps and every
  cast is the identity.
* A loop or recursion that need not terminate carries fuel; running out of
  fuel returns `none`. Each fuel bound is shown to be enough.
* Allocation always succeeds (the `die("oom")` paths are not modelled).
* Tokenising is outside the model: a netlist line is its classified first
  token together with the `parse_int` result of each further token.
-/

namespace FEC

/-! ## Arrays as functions -/

/-- Array write `a[i] = v`. -/
def upd {α : Type} (a : Int → α) (i : Int) (v : α) : Int → α :=
  fun j => if j = i then v else a j

/-! ## Node set (distinct nets) -/

/-- The `NodeSet` struct: `bits[id] = 1` if the net exists, `cap` slots. -/
structure NodeSet where
  bits : Int → Nat
  cap : Nat

/-- `ns_init`: capacity `max init 2`, all slots zeroed by `calloc`. -/
def ns_init (init : Nat) : NodeSet :=
  { cap := if init < 2 then 2 else init, bits := fun _ => 0 }

/-- The loop `while (nc <= need) nc *= 2` of `ns_ensure`. -/
def ns_double : Nat → Nat → Nat → Option Nat
  | 0, _, _ => none
  | fuel + 1, nc, need => if nc ≤ need then ns_double fuel (nc * 2) need else some nc

/-- `ns_ensure`: grow the array by doubling until `need < cap`; the new slots
are zeroed by `memset`. -/
def ns_ensure (s : NodeSet) (need : Nat) : Option NodeSet :=
  if need < s.cap then some s
  else
    match ns_double (need + 1) s.cap need with
    | none => none
    | some nc =>
      some { bits := fun j => if (s.cap : Int) ≤ j ∧ j < (nc : Int) then 0 else s.bits j,
             cap := nc }

/-- `ns_add`: ignore `id <= 0`, otherwise make room and set `bits[id] = 1`. -/
def ns_add (s : NodeSet) (id : Int) : Option NodeSet :=
  if id ≤ 0 then some s
  else
    match ns_ensure s (id.toNat + 1) with
    | none => none
    | some s1 => some { s1 with bits := upd s1.bits id 1 }

/-- A sequence of `ns_add` calls. -/
def ns_add_all : NodeSet → List Int → Option NodeSet
  | s, [] => some s
  | s, id :: ids =>
    match ns_add s id with
    | none => none
    | some s1 => ns_add_all s1 ids

/-- The value `max_id = (long)nodes.cap - 1` of `main`. -/
def max_id (s : NodeSet) : Int := (s.cap : Int) - 1

/-- The values `1, 2, ..., m` taken by a loop `for (i = 1; i <= m; ++i)`. -/
def loop_ids (m : Int) : List Int :=
  (List.range m.toNat).map (fun k : Nat => (k : Int) + 1)

/-- The scan `for (i = 1; i <= max_id; ++i) if (nodes.bits[i]) ++line_count`. -/
def line_count (s : NodeSet) : Int :=
  (loop_ids (max_id s)).foldl (fun c i => if s.bits i ≠ 0 then c + 1 else c) 0

/-- The value `initial_faults` / `total_faults`: `line_count * 2`. -/
def initial_faults (s : NodeSet) : Int := line_count s * 2

/-! ## Gate list -/

/-- The `GType` enum. -/
inductive GType
  | G_AND | G_OR | G_NAND | G_NOR | G_UNKNOWN
  deriving DecidableEq, Repr

/-- The `Gate` struct. -/
structure Gate where
  t : GType
  out : Int
  in1 : Int
  in2 : Int
  deriving DecidableEq, Repr

/-! ## Union-find over faults -/

/-- The `DSU` struct: parent array `p`, rank array `r`, size `n`. -/
structure DSU where
  p : Int → Int
  r : Int → Int
  n : Nat

/-- `dsu_init`: every element is its own parent, all ranks zero. -/
def dsu_init (n : Nat) : DSU :=
  { p := fun i => i, r := fun _ => 0, n := n }

/-- The recursion of `dsu_find`, with path compression:
`return d->p[x]==x ? x : (d->p[x] = dsu_find(d, d->p[x]))`. -/
def dsu_find_fuel : Nat → DSU → Int → Option (Int × DSU)
  | 0, _, _ => none
  | fuel + 1, d, x =>
    if 0 ≤ x ∧ x < (d.n : Int) then
      if d.p x = x then some (x, d)
      else
        match dsu_find_fuel fuel d (d.p x) with
        | none => none
        | some (root, d1) => some (root, { d1 with p := upd d1.p x root })
    else none

/-- `dsu_find`. A chain of more than `n` parent links only exists in a cyclic
parent array, on which the C recursion does not return. -/
def dsu_find (d : DSU) (x : Int) : Option (Int × DSU) :=
  dsu_find_fuel d.n d x

/-- `dsu_union`: union by rank of the classes of `a` and `b`. -/
def dsu_union (d : DSU) (a b : Int) : Option DSU :=
  match dsu_find d a with
  | none => none
  | some (ra, d1) =>
    match dsu_find d1 b with
    | none => none
    | some (rb, d2) =>
      if ra = rb then some d2
      else if d2.r ra < d2.r rb then some { d2 with p := upd d2.p ra rb }
      else if d2.r ra > d2.r rb then some { d2 with p := upd d2.p rb ra }
      else some { d2 with p := upd d2.p rb ra, r := upd d2.r ra (d2.r ra + 1) }

/-- The test `dsu_find(x) == dsu_find(y)`. -/
def dsu_same (d : DSU) (x y : Int) : Option Bool :=
  match dsu_find d x with
  | none => none
  | some (rx, d1) =>
    match dsu_find d1 y with
    | none => none
    | some (ry, _) => some (decide (rx = ry))

/-- `fault_idx`: index of fault `(node, sa)`, `(int)(2*(node-1) + (sa?1:0))`; the
cast is the identity on the values that fit an `int`. -/
def fault_idx (node : Int) (sa : Int) : Int :=
  2 * (node - 1) + (if sa ≠ 0 then 1 else 0)

/-- The value `dsu_size = 2 * (max_id > 0 ? max_id : 1)` of `main`. -/
def dsu_size (s : NodeSet) : Nat :=
  (2 * (if max_id s > 0 then max_id s else 1)).toNat

/-! ## Equivalence rules -/

/-- Body of the rule loop for one gate. -/
def apply_rules (d : DSU) (g : Gate) : Option DSU :=
  let sym : Option DSU :=
    if g.t = GType.G_AND ∨ g.t = GType.G_NAND then
      if g.in1 > 0 ∧ g.in2 > 0 then
        dsu_union d (fault_idx g.in1 0) (fault_idx g.in2 0)
      else some d
    else if g.t = GType.G_OR ∨ g.t = GType.G_NOR then
      if g.in1 > 0 ∧ g.in2 > 0 then
        dsu_union d (fault_idx g.in1 1) (fault_idx g.in2 1)
      else some d
    else some d
  match sym with
  | none => none
  | some d1 =>
    if g.t = GType.G_NAND ∧ g.in1 = g.in2 ∧ g.in1 > 0 then
      match dsu_union d1 (fault_idx g.in1 0) (fault_idx g.out 1) with
      | none => none
      | some d2 => dsu_union d2 (fault_idx g.in1 1) (fault_idx g.out 0)
    else some d1

/-- The rule loop `for (k = 0; k < ng; ++k)` over the gate list. -/
def rule_loop : List Gate → DSU → Option DSU
  | [], d => some d
  | g :: gs, d =>
    match apply_rules d g with
    | none => none
    | some d1 => rule_loop gs d1

/-! ## Specification vocabulary for the union-find -/

/-- Index `x` lies inside the arrays of `d`. -/
def InRange (d : DSU) (x : Int) : Prop := 0 ≤ x ∧ x < (d.n : Int)

instance (d : DSU) (x : Int) : Decidable (InRange d x) := by
  unfold InRange; infer_instance

/-- Forest invariant of the parent and rank arrays: parents stay in range and
the rank of a non-root is strictly below the rank of its parent. -/
structure WF (d : DSU) : Prop where
  parent_in : ∀ x, InRange d x → InRange d (d.p x)
  rank_lt : ∀ x, InRange d x → d.p x ≠ x → d.r x < d.r (d.p x)

/-- `RootOf d x ρ`: following parent links from `x` ends at the root `ρ`
(`p[ρ] = ρ`). -/
inductive RootOf (d : DSU) : Int → Int → Prop
  | root (x : Int) : InRange d x → d.p x = x → RootOf d x x
  | link (x ρ : Int) : InRange d x → d.p x ≠ x → RootOf d (d.p x) ρ → RootOf d x ρ

/-- `OnPath d x y`: `y` lies on the parent chain that starts at `x`. -/
inductive OnPath (d : DSU) : Int → Int → Prop
  | here (x : Int) : OnPath d x x
  | up (x y : Int) : d.p x ≠ x → OnPath d (d.p x) y → OnPath d x y

/-- Number of in-range elements of rank above that of `x`. -/
def above (d : DSU) (x : Int) : Nat :=
  ((Finset.range d.n).filter (fun i : Nat => d.r x < d.r (i : Int))).card

/-- Same class: both elements lead to the same root. -/
def Same (d : DSU) (x y : Int) : Prop := ∃ ρ, RootOf d x ρ ∧ RootOf d y ρ

/-- The classifier states reachable from `dsu_init(n)` by in-range `dsu_find`
and `dsu_union` calls that return. -/
inductive Reachable (n : Nat) : DSU → Prop
  | init : Reachable n (dsu_init n)
  | find (d d' : DSU) (x ρ : Int) : Reachable n d → InRange d x →
      dsu_find d x = some (ρ, d') → Reachable n d'
  | union (d d' : DSU) (a b : Int) : Reachable n d → InRange d a → InRange d b →
      dsu_union d a b = some d' → Reachable n d'

/-- Net `id` is registered: `id > 0`, inside the array, and `bits[id]` set. -/
def Registered (s : NodeSet) (id : Int) : Prop := 0 < id ∧ id < (s.cap : Int) ∧ s.bits id ≠ 0

instance (s : NodeSet) (id : Int) : Decidable (Registered s id) := by
  unfold Registered; infer_instance

/-- All three terminals of every gate are registered nets. -/
def GatesRegistered (s : NodeSet) (gs : List Gate) : Prop :=
  ∀ g ∈ gs, Registered s g.out ∧ Registered s g.in1 ∧ Registered s g.in2

instance (s : NodeSet) (gs : List Gate) : Decidable (GatesRegistered s gs) := by
  unfold GatesRegistered; infer_instance

/-- The `dsu_union` calls the rule loop makes for gate `g`, in order. -/
def gate_unions (g : Gate) : List (Int × Int) :=
  (if g.t = GType.G_AND ∨ g.t = GType.G_NAND then
      if g.in1 > 0 ∧ g.in2 > 0 then [(fault_idx g.in1 0, fault_idx g.in2 0)] else []
    else if g.t = GType.G_OR ∨ g.t = GType.G_NOR then
      if g.in1 > 0 ∧ g.in2 > 0 then [(fault_idx g.in1 1, fault_idx g.in2 1)] else []
    else []) ++
  (if g.t = GType.G_NAND ∧ g.in1 = g.in2 ∧ g.in1 > 0 then
      [(fault_idx g.in1 0, fault_idx g.out 1), (fault_idx g.in1 1, fault_idx g.out 0)]
    else [])

/-- A sequence of `dsu_union` calls. -/
def union_all : DSU → List (Int × Int) → Option DSU
  | d, [] => some d
  | d, ab :: us =>
    match dsu_union d ab.1 ab.2 with
    | none => none
    | some d1 => union_all d1 us

/-- All `dsu_union` calls of the rule loop over a gate list, in order. -/
def all_unions : List Gate → List (Int × Int)
  | [] => []
  | g :: gs => gate_unions g ++ all_unions gs

/-- The pairs named by the three enabled rules, in the words of the spec (to be
compared with what the rule loop does): `(idx(in1,0), idx(in2,0))` for
AND/NAND gates, `(idx(in1,1), idx(in2,1))` for OR/NOR gates, and
`(idx(a,0), idx(o,1))`, `(idx(a,1), idx(o,0))` for NAND gates with
`in1 = in2 = a` and output `o`. -/
def RulePair (gs : List Gate) (x y : Int) : Prop :=
  ∃ g ∈ gs,
    ((g.t = GType.G_AND ∨ g.t = GType.G_NAND) ∧
      x = fault_idx g.in1 0 ∧ y = fault_idx g.in2 0) ∨
    ((g.t = GType.G_OR ∨ g.t = GType.G_NOR) ∧
      x = fault_idx g.in1 1 ∧ y = fault_idx g.in2 1) ∨
    (g.t = GType.G_NAND ∧ g.in1 = g.in2 ∧
      ((x = fault_idx g.in1 0 ∧ y = fault_idx g.out 1) ∨
       (x = fault_idx g.in1 1 ∧ y = fault_idx g.out 0)))

/-- The gate list in which every gate appears twice in a row. -/
def twice : List Gate → List Gate
  | [] => []
  | g :: gs => g :: g :: twice gs

/-- The registry built by `ns_init(1024)` followed by `ns_add` of the given ids
(the start-up capacity of `FEC.c`); used for concrete examples. -/
def registry_of (ids : List Int) : NodeSet :=
  (ns_add_all (ns_init 1024) ids).getD (ns_init 1024)

/-- Registry invariant: the array is non-empty and every set slot is a
positive index inside the array. -/
def NsInv (s : NodeSet) : Prop :=
  0 < s.cap ∧ ∀ j, s.bits j ≠ 0 → 0 < j ∧ j < (s.cap : Int)

/-! ## Netlist lines and the parsing pass of `FEC.c` -/

/-- The declaration keywords recognised by `is_kw`. -/
inductive Kw
  | INPUT | OUTPUT | FANOUT
  deriving DecidableEq, Repr

/-- A netlist line after tokenising: a blank or `#` line; a line whose first
token is a keyword; or a line whose first token is any other word, carried as
its `gtype` value (`G_UNKNOWN` when it is no gate type). The further tokens
are carried as their `parse_int` results: `none` for a token that is not a
complete decimal integer. -/
inductive Line
  | blank
  | decl (k : Kw) (toks : List (Option Int))
  | word (t : GType) (toks : List (Option Int))
  deriving Repr

/-- State of the parsing loop of `FEC.c`: registry, gate list, the line numbers
of the `malformed gate` diagnostics, and `lineno`. -/
structure ParseState where
  nodes : NodeSet
  gates : List Gate
  diag : List Nat
  lineno : Nat

/-- Body of the `fgets` loop of `FEC.c` for one line. -/
def fec_line (st : ParseState) (ln : Line) : Option ParseState :=
  let n := st.lineno + 1
  match ln with
  | Line.blank => some { st with lineno := n }
  | Line.decl _ toks =>
    match ns_add_all st.nodes (toks.filterMap id) with
    | none => none
    | some ns => some { st with nodes := ns, lineno := n }
  | Line.word t toks =>
    if t ≠ GType.G_UNKNOWN then
      match toks with
      | some o :: some i1 :: some i2 :: _ =>
        match ns_add_all st.nodes [o, i1, i2] with
        | none => none
        | some ns =>
          some { nodes := ns, gates := st.gates ++ [⟨t, o, i1, i2⟩], diag := st.diag,
                 lineno := n }
      | _ => some { st with diag := st.diag ++ [n], lineno := n }
    else some { st with lineno := n }

/-- The whole parsing loop, from a given state. -/
def fec_lines : List Line → ParseState → Option ParseState
  | [], st => some st
  | ln :: lns, st =>
    match fec_line st ln with
    | none => none
    | some st1 => fec_lines lns st1

/-- The parsing pass of `FEC.c`: `ns_init(&nodes, 1024)`, no gates, then the
loop over the lines. -/
def fec_parse (lns : List Line) : Option ParseState :=
  fec_lines lns { nodes := ns_init 1024, gates := [], diag := [], lineno := 0 }

/-! ## Representative scans of `FEC.c` -/

/-- The code shared by both scans for one fault:
`idx = fault_idx(id, sa); root = dsu_find(&dsu, idx); if (!mark[root]) mark[root] = 1;`
returning the new classifier, the new marks and whether the root was new. -/
def visit_fault (size : Nat) (d : DSU) (mark : Int → Int) (id sa : Int) :
    Option (DSU × (Int → Int) × Bool) :=
  match dsu_find d (fault_idx id sa) with
  | none => none
  | some (root, d1) =>
    if 0 ≤ root ∧ root < (size : Int) then
      if mark root = 0 then some (d1, upd mark root 1, true)
      else some (d1, mark, false)
    else none

/-- First scan over the ids `1..max_id`: count the class roots met for the
first time (`kept`). -/
def count_loop (s : NodeSet) (size : Nat) :
    List Int → DSU × (Int → Int) × Int → Option (DSU × (Int → Int) × Int)
  | [], st => some st
  | id :: ids, (d, mark, kept) =>
    if s.bits id = 0 then count_loop s size ids (d, mark, kept)
    else
      match visit_fault size d mark id 0 with
      | none => none
      | some (d1, mark1, new0) =>
        match visit_fault size d1 mark1 id 1 with
        | none => none
        | some (d2, mark2, new1) =>
          count_loop s size ids
            (d2, mark2, kept + (if new0 then 1 else 0) + (if new1 then 1 else 0))

/-- Second scan: print `sa0_id` / `sa1_id` for each class root met for the
first time. A printed line is carried as the pair `(id, sa)`. -/
def print_loop (s : NodeSet) (size : Nat) :
    List Int → DSU × (Int → Int) × List (Int × Int) →
      Option (DSU × (Int → Int) × List (Int × Int))
  | [], st => some st
  | id :: ids, (d, mark, out) =>
    if s.bits id = 0 then print_loop s size ids (d, mark, out)
    else
      match visit_fault size d mark id 0 with
      | none => none
      | some (d1, mark1, new0) =>
        match visit_fault size d1 mark1 id 1 with
        | none => none
        | some (d2, mark2, new1) =>
          print_loop s size ids
            (d2, mark2, out ++ (if new0 then [(id, 0)] else []) ++
              (if new1 then [(id, 1)] else []))

/-- What `main` of `FEC.c` computes. -/
structure Report where
  nodes : NodeSet
  gates : List Gate
  diag : List Nat
  dsu : DSU
  initial_faults : Int
  kept : Int
  printed : List (Int × Int)

/-- The part of `main` after parsing: size the classifier, run the rule loop,
count the representatives with zeroed marks, then print them with the marks
zeroed again. -/
def fec_report (st : ParseState) : Option Report :=
  let size := dsu_size st.nodes
  match rule_loop st.gates (dsu_init size) with
  | none => none
  | some d =>
    match count_loop st.nodes size (loop_ids (max_id st.nodes)) (d, fun _ => 0, 0) with
    | none => none
    | some (d1, _, kept) =>
      match print_loop st.nodes size (loop_ids (max_id st.nodes)) (d1, fun _ => 0, []) with
      | none => none
      | some (_, _, out) =>
        some { nodes := st.nodes, gates := st.gates, diag := st.diag, dsu := d,
               initial_faults := initial_faults st.nodes, kept := kept, printed := out }

/-- `main` of `FEC.c` on a tokenised netlist. -/
def fec_main (lns : List Line) : Option Report :=
  match fec_parse lns with
  | none => none
  | some st => fec_report st

/-- The netlist `INPUT 1 2` / `AND 3 1 2` / `OUTPUT 3`. -/
def netlist_and : List Line :=
  [Line.decl Kw.INPUT [some 1, some 2],
   Line.word GType.G_AND [some 3, some 1, some 2],
   Line.decl Kw.OUTPUT [some 3]]

/-! ## Specification vocabulary for the representative scans -/

/-- The faults `(id, 0)`, `(id, 1)` of the given ids, in scan order. -/
def faults_of : List Int → List (Int × Int)
  | [] => []
  | id :: ids => (id, 0) :: (id, 1) :: faults_of ids

/-- The faults of the registered nets in scan order: ascending net id, and
stuck-at-0 before stuck-at-1. -/
def reg_faults (s : NodeSet) : List (Int × Int) :=
  faults_of ((loop_ids (max_id s)).filter (fun i => decide (s.bits i ≠ 0)))

/-- The root `dsu_find(x)` returns (and `x` itself if the call fails). -/
def root_of (d : DSU) (x : Int) : Int :=
  match dsu_find d x with
  | some (root, _) => root
  | none => x

/-- The class root of fault `f = (id, sa)`. -/
def fault_root (d : DSU) (f : Int × Int) : Int := root_of d (fault_idx f.1 f.2)

/-- The scan order on faults: ascending net id, then stuck-at-0 before
stuck-at-1. -/
def fault_lt (f g : Int × Int) : Prop := f.1 < g.1 ∨ (f.1 = g.1 ∧ f.2 < g.2)

/-- The elements of a list whose key is met for the first time, given the keys
already seen. -/
def firsts (key : Int × Int → Int) : List (Int × Int) → List Int → List (Int × Int)
  | [], _ => []
  | f :: fs, seen =>
    if key f ∈ seen then firsts key fs seen else f :: firsts key fs (key f :: seen)

/-- `visit_fault` over a list of faults, collecting the faults whose root was
new. -/
def visit_all (size : Nat) :
    List (Int × Int) → DSU × (Int → Int) × List (Int × Int) →
      Option (DSU × (Int → Int) × List (Int × Int))
  | [], st => some st
  | f :: fs, (d, mark, news) =>
    match visit_fault size d mark f.1 f.2 with
    | none => none
    | some (d1, mark1, new) => visit_all size fs (d1, mark1, if new then news ++ [f] else news)

/-- Every positive terminal of every gate is a registered net (what the parsing
pass guarantees for the gate list it builds). -/
def GatesOk (s : NodeSet) (gs : List Gate) : Prop :=
  ∀ g ∈ gs, (0 < g.out → Registered s g.out) ∧ (0 < g.in1 → Registered s g.in1) ∧
    (0 < g.in2 → Registered s g.in2)

/-- No NAND gate with tied positive inputs has an output id `≤ 0`. -/
def NoBadInverter (gs : List Gate) : Prop :=
  ∀ g ∈ gs, g.t = GType.G_NAND → g.in1 = g.in2 → 0 < g.in1 → 0 < g.out

instance (gs : List Gate) : Decidable (NoBadInverter gs) := by
  unfold NoBadInverter; infer_instance

/-- The netlist with the single line `NAND 0 5 5`. -/
def netlist_bad_inverter : List Line :=
  [Line.word GType.G_NAND [some 0, some 5, some 5]]

/-! ## Specification vocabulary for the parsing passes -/

/-- The three `parse_int` calls of a gate line: the operands `(out, in1, in2)`,
or `none` when one of the first three tokens is missing or is not a complete
decimal integer. -/
def gate_operands : List (Option Int) → Option (Int × Int × Int)
  | some o :: some i1 :: some i2 :: _ => some (o, i1, i2)
  | _ => none

/-- A gate line (first token a gate type) with a malformed operand list. -/
def malformed_gate : Line → Prop
  | Line.word t toks => t ≠ GType.G_UNKNOWN ∧ gate_operands toks = none
  | _ => False

instance (ln : Line) : Decidable (malformed_gate ln) := by
  cases ln <;> unfold malformed_gate <;> infer_instance

/-- The ids `FEC.c` passes to `ns_add` for one line, in call order. -/
def fec_line_ids : Line → List Int
  | Line.blank => []
  | Line.decl _ toks => toks.filterMap id
  | Line.word t toks =>
    if t ≠ GType.G_UNKNOWN then
      match gate_operands toks with
      | some (o, i1, i2) => [o, i1, i2]
      | none => []
    else []

/-- The gates `FEC.c` appends for one line. -/
def fec_line_gates : Line → List Gate
  | Line.word t toks =>
    if t ≠ GType.G_UNKNOWN then
      match gate_operands toks with
      | some (o, i1, i2) => [⟨t, o, i1, i2⟩]
      | none => []
    else []
  | _ => []

/-- All ids passed to `ns_add` by `FEC.c` over a netlist. -/
def fec_ids : List Line → List Int
  | [] => []
  | ln :: lns => fec_line_ids ln ++ fec_ids lns

/-- All gates appended by `FEC.c` over a netlist. -/
def fec_gates : List Line → List Gate
  | [] => []
  | ln :: lns => fec_line_gates ln ++ fec_gates lns

/-- The line numbers of the malformed gate lines, counting from `n + 1`. -/
def malformed_lines : Nat → List Line → List Nat
  | _, [] => []
  | n, ln :: lns =>
    (if malformed_gate ln then [n + 1] else []) ++ malformed_lines (n + 1) lns

/-- Capacity shape of a registry started with 1024 slots: 1024 doubled some
number of times, and still 1024 unless a set slot `j` forced the growth. -/
def CapInv (s : NodeSet) : Prop :=
  (∃ k, s.cap = 1024 * 2 ^ k) ∧
    (s.cap = 1024 ∨ ∃ j, s.bits j ≠ 0 ∧ (s.cap : Int) ≤ 2 * (j + 1))

/-! ## Fanout map and parsing pass of `fault_universe.c` -/

/-- The globals `fan_map` and `fan_map_cap`. A `FanList` is carried as the list
of its stored branches `v[0], ..., v[n-1]`; a slot never written to (`v` null,
`n = 0`) is the empty list. -/
structure FanMap where
  lists : Int → List Int
  cap : Nat

/-- The start-up value `fan_map = NULL`, `fan_map_cap = 0`. -/
def fan_init : FanMap := { lists := fun _ => [], cap := 0 }

/-- `fan_ensure`: grow the map by doubling (from 1024 if empty) until
`need < fan_map_cap`; the new slots are initialised to empty lists. -/
def fan_ensure (m : FanMap) (need : Nat) : Option FanMap :=
  if need < m.cap then some m
  else
    match ns_double (need + 1) (if m.cap ≠ 0 then m.cap else 1024) need with
    | none => none
    | some nc =>
      some { lists := fun i => if (m.cap : Int) ≤ i ∧ i < (nc : Int) then [] else m.lists i,
             cap := nc }

/-- `fan_contains`: linear search of a branch list. -/
def fan_contains : List Int → Int → Bool
  | [], _ => false
  | b :: bs, val => if b = val then true else fan_contains bs val

/-- `fan_add_edge`: ignore ids `<= 0`, make room for `stem`, and append
`branch` to the list of `stem` unless it is already there. -/
def fan_add_edge (m : FanMap) (stem branch : Int) : Option FanMap :=
  if stem ≤ 0 ∨ branch ≤ 0 then some m
  else
    match fan_ensure m (stem.toNat + 1) with
    | none => none
    | some m1 =>
      if fan_contains (m1.lists stem) branch = true then some m1
      else some { m1 with lists := upd m1.lists stem (m1.lists stem ++ [branch]) }

/-- A sequence of `fan_add_edge(stem, branch)` calls. -/
def fan_add_all : FanMap → List (Int × Int) → Option FanMap
  | m, [] => some m
  | m, e :: es =>
    match fan_add_edge m e.1 e.2 with
    | none => none
    | some m1 => fan_add_all m1 es

/-- State of the parsing loop of `fault_universe.c`. -/
structure FuState where
  nodes : NodeSet
  fan : FanMap
  diag : List Nat
  lineno : Nat

/-- The branch loop of a `FANOUT` line: for each token that parses,
`ns_add(&nodes, br); fan_add_edge(stem, br);`. -/
def fanout_branches (stem : Int) :
    List (Option Int) → NodeSet × FanMap → Option (NodeSet × FanMap)
  | [], st => some st
  | none :: ts, st => fanout_branches stem ts st
  | some br :: ts, (ns, fm) =>
    match ns_add ns br with
    | none => none
    | some ns1 =>
      match fan_add_edge fm stem br with
      | none => none
      | some fm1 => fanout_branches stem ts (ns1, fm1)

/-- Body of the `fgets` loop of `fault_universe.c` for one line. -/
def fu_line (st : FuState) (ln : Line) : Option FuState :=
  let n := st.lineno + 1
  match ln with
  | Line.blank => some { st with lineno := n }
  | Line.word t toks =>
    if t ≠ GType.G_UNKNOWN then
      match toks with
      | some o :: some i1 :: some i2 :: _ =>
        match ns_add_all st.nodes [o, i1, i2] with
        | none => none
        | some ns =>
          match fan_add_edge st.fan i1 o with
          | none => none
          | some fm1 =>
            match fan_add_edge fm1 i2 o with
            | none => none
            | some fm2 => some { nodes := ns, fan := fm2, diag := st.diag, lineno := n }
      | _ => some { st with diag := st.diag ++ [n], lineno := n }
    else some { st with lineno := n }
  | Line.decl Kw.FANOUT toks =>
    match toks with
    | some stem :: rest =>
      match ns_add st.nodes stem with
      | none => none
      | some ns =>
        match fanout_branches stem rest (ns, st.fan) with
        | none => none
        | some (ns1, fm1) => some { nodes := ns1, fan := fm1, diag := st.diag, lineno := n }
    | _ => some { st with lineno := n }
  | Line.decl _ toks =>
    match ns_add_all st.nodes (toks.filterMap id) with
    | none => none
    | some ns => some { st with nodes := ns, lineno := n }

/-- The whole parsing loop, from a given state. -/
def fu_lines : List Line → FuState → Option FuState
  | [], st => some st
  | ln :: lns, st =>
    match fu_line st ln with
    | none => none
    | some st1 => fu_lines lns st1

/-- The parsing pass of `fault_universe.c`: `ns_init(&nodes, 4096)`, the empty
fanout map, then the loop over the lines. -/
def fu_parse (lns : List Line) : Option FuState :=
  fu_lines lns { nodes := ns_init 4096, fan := fan_init, diag := [], lineno := 0 }

/-- The fault listing loop: `sa0_i`, `sa1_i` for every registered `i`, carried
as the pairs `(i, 0)`, `(i, 1)`. -/
def label_loop (s : NodeSet) : List Int → List (Int × Int)
  | [] => []
  | i :: is =>
    if s.bits i = 0 then label_loop s is else (i, 0) :: (i, 1) :: label_loop s is

/-- The fanout report loop over the stems `1..fan_map_cap-1`: one line
`stem -> branches` for every stem whose list is non-empty. -/
def report_loop (m : FanMap) : List Int → List (Int × List Int)
  | [] => []
  | stem :: rest =>
    if m.lists stem = [] then report_loop m rest
    else (stem, m.lists stem) :: report_loop m rest

/-- What `main` of `fault_universe.c` prints. -/
structure FuReport where
  nodes : NodeSet
  fan : FanMap
  diag : List Nat
  labels : List (Int × Int)
  line_count : Int
  total_faults : Int
  fanout : List (Int × List Int)

/-- `main` of `fault_universe.c` on a tokenised netlist (`quiet` is the
`--quiet` flag). -/
def fu_main (quiet : Bool) (lns : List Line) : Option FuReport :=
  match fu_parse lns with
  | none => none
  | some st =>
    some { nodes := st.nodes, fan := st.fan, diag := st.diag,
           labels := if quiet then [] else label_loop st.nodes (loop_ids (max_id st.nodes)),
           line_count := line_count st.nodes,
           total_faults := line_count st.nodes * 2,
           fanout := report_loop st.fan (loop_ids ((st.fan.cap : Int) - 1)) }

/-- The netlist `INPUT 1` / `AND 2 1 1` / `OR 3 2 1`. -/
def netlist_fanout : List Line :=
  [Line.decl Kw.INPUT [some 1],
   Line.word GType.G_AND [some 2, some 1, some 1],
   Line.word GType.G_OR [some 3, some 2, some 1]]

/-! ## Specification vocabulary for the fanout map -/

/-- A list with its duplicates removed, keeping first occurrences in order. -/
def keep_first : List Int → List Int
  | [] => []
  | b :: bs => b :: (keep_first bs).filter (fun c => decide (c ≠ b))

/-- The branches given for stem `s` by the calls with both ids positive, in
call order. -/
def stem_calls (calls : List (Int × Int)) (s : Int) : List Int :=
  (calls.filter (fun e => decide (e.1 = s ∧ 0 < e.1 ∧ 0 < e.2))).map Prod.snd

/-- The branch list a sequence of `fan_add_edge` calls should leave for stem
`s`: its positive branches, de-duplicated keeping first occurrences. -/
def stem_branches (calls : List (Int × Int)) (s : Int) : List Int :=
  keep_first (stem_calls calls s)

/-- Appending the elements of a list one by one, skipping those already
present. -/
def absorb : List Int → List Int → List Int
  | acc, [] => acc
  | acc, b :: bs => absorb (if b ∈ acc then acc else acc ++ [b]) bs

/-- Fanout-map invariant: a non-empty list sits at a positive stem for which
room has been made, and holds positive branches only. -/
def FanInv (m : FanMap) : Prop :=
  ∀ i, m.lists i ≠ [] → (0 < i ∧ i + 1 < (m.cap : Int)) ∧ ∀ b ∈ m.lists i, 0 < b

/-- The ids `fault_universe.c` passes to `ns_add` for one line, in call order. -/
def fu_line_ids : Line → List Int
  | Line.blank => []
  | Line.word t toks =>
    if t ≠ GType.G_UNKNOWN then
      match gate_operands toks with
      | some (o, i1, i2) => [o, i1, i2]
      | none => []
    else []
  | Line.decl Kw.FANOUT toks =>
    match toks with
    | some stem :: rest => stem :: rest.filterMap id
    | _ => []
  | Line.decl _ toks => toks.filterMap id

/-- The `fan_add_edge(stem, branch)` calls `fault_universe.c` makes for one
line, in call order: `in1 → out`, `in2 → out` for a well-formed gate line, and
`stem → branch` for each branch of a `FANOUT` line. -/
def fu_line_edges : Line → List (Int × Int)
  | Line.word t toks =>
    if t ≠ GType.G_UNKNOWN then
      match gate_operands toks with
      | some (o, i1, i2) => [(i1, o), (i2, o)]
      | none => []
    else []
  | Line.decl Kw.FANOUT toks =>
    match toks with
    | some stem :: rest => (rest.filterMap id).map (fun br => (stem, br))
    | _ => []
  | _ => []

/-- All ids passed to `ns_add` by `fault_universe.c` over a netlist. -/
def fu_ids : List Line → List Int
  | [] => []
  | ln :: lns => fu_line_ids ln ++ fu_ids lns

/-- All `fan_add_edge` calls of `fault_universe.c` over a netlist. -/
def fu_edges : List Line → List (Int × Int)
  | [] => []
  | ln :: lns => fu_line_edges ln ++ fu_edges lns

/-- Id `v` is an operand of the line: a token of a declaration line that parses
to `v`, or one of `out`, `in1`, `in2` of a well-formed gate line. -/
def line_operand : Line → Int → Prop
  | Line.blank, _ => False
  | Line.decl _ toks, v => some v ∈ toks
  | Line.word t toks, v =>
    t ≠ GType.G_UNKNOWN ∧
      ∃ o i1 i2, gate_operands toks = some (o, i1, i2) ∧ (v = o ∨ v = i1 ∨ v = i2)

/-- A `FANOUT` line whose first operand token (the stem) is missing or is not a
complete decimal integer. -/
def fanout_without_stem : Line → Prop
  | Line.decl Kw.FANOUT (some _ :: _) => False
  | Line.decl Kw.FANOUT _ => True
  | _ => False

/-- The netlist `AND 3 1` (malformed) / `INPUT 7`. -/
def netlist_malformed : List Line :=
  [Line.word GType.G_AND [some 3, some 1], Line.decl Kw.INPUT [some 7]]

/-! # Theorems -/

/-! ## Union-find -/

theorem upd_same {α : Type} (a : Int → α) (i : Int) (v : α) : upd a i v i = v := by
  simp [upd]

theorem upd_other {α : Type} (a : Int → α) (i j : Int) (v : α) (h : j ≠ i) :
    upd a i v j = a j := by
  simp [upd, h]

theorem RootOf.inRange_left {d : DSU} {x ρ : Int} (h : RootOf d x ρ) : InRange d x := by
  cases h <;> assumption

theorem RootOf.is_root {d : DSU} {x ρ : Int} (h : RootOf d x ρ) : d.p ρ = ρ := by
  induction h with
  | root x _ hp => exact hp
  | link x ρ _ _ _ ih => exact ih

theorem RootOf.inRange_right {d : DSU} {x ρ : Int} (h : RootOf d x ρ) : InRange d ρ := by
  induction h with
  | root x hx _ => exact hx
  | link x ρ _ _ _ ih => exact ih

theorem RootOf.self {d : DSU} {x ρ : Int} (h : RootOf d x ρ) : RootOf d ρ ρ :=
  RootOf.root ρ h.inRange_right h.is_root

theorem RootOf.unique {d : DSU} {x ρ σ : Int} (h : RootOf d x ρ) (h2 : RootOf d x σ) :
    ρ = σ := by
  induction h with
  | root x _ hp =>
    cases h2 with
    | root _ _ _ => rfl
    | link _ _ _ hne _ => exact absurd hp hne
  | link x ρ _ hne _ ih =>
    cases h2 with
    | root _ _ hp => exact absurd hp hne
    | link _ _ _ _ h3 => exact ih h3

theorem RootOf.eq_of_root {d : DSU} {x ρ : Int} (h : RootOf d x ρ) (hp : d.p x = x) :
    ρ = x :=
  h.unique (RootOf.root x h.inRange_left hp)

theorem RootOf.rank_le {d : DSU} (hd : WF d) {x ρ : Int} (h : RootOf d x ρ) :
    x = ρ ∨ d.r x < d.r ρ := by
  induction h with
  | root x _ _ => exact Or.inl rfl
  | link x ρ hx hne _ ih =>
    have h1 := hd.rank_lt x hx hne
    rcases ih with ih | ih
    · right; rw [← ih]; exact h1
    · right; omega

theorem RootOf.of_onPath {d : DSU} {x y ρ : Int} (hp : OnPath d x y) (h : RootOf d x ρ) :
    RootOf d y ρ := by
  induction hp with
  | here x => exact h
  | up x y hne _ ih =>
    cases h with
    | root _ _ hp => exact absurd hp hne
    | link _ _ _ _ h3 => exact ih h3

/-- Partial correctness of the recursion. -/
theorem dsu_find_fuel_spec : ∀ (k : Nat) (d : DSU) (x ρ : Int) (d' : DSU),
    dsu_find_fuel k d x = some (ρ, d') →
    RootOf d x ρ ∧ d'.n = d.n ∧ d'.r = d.r ∧
    (∀ y, OnPath d x y → d'.p y = ρ) ∧ (∀ y, ¬ OnPath d x y → d'.p y = d.p y) := by
  intro k
  induction k with
  | zero => intro d x ρ d' h; simp [dsu_find_fuel] at h
  | succ k ih =>
    intro d x ρ d' h
    unfold dsu_find_fuel at h
    split at h
    · rename_i hx
      split at h
      · rename_i hp
        simp only [Option.some.injEq, Prod.mk.injEq] at h
        obtain ⟨rfl, rfl⟩ := h
        refine ⟨RootOf.root x hx hp, rfl, rfl, ?_, fun _ _ => rfl⟩
        intro y hy
        cases hy with
        | here _ => exact hp
        | up _ _ hne _ => exact absurd hp hne
      · rename_i hp
        split at h
        · simp at h
        · rename_i root d1 hrec
          simp only [Option.some.injEq, Prod.mk.injEq] at h
          obtain ⟨rfl, rfl⟩ := h
          obtain ⟨h1, h2, h3, h4, h5⟩ := ih d (d.p x) root d1 hrec
          refine ⟨RootOf.link x root hx hp h1, h2, h3, ?_, ?_⟩
          · intro y hy
            by_cases hyx : y = x
            · subst hyx; exact upd_same _ _ _
            · show upd d1.p x root y = root
              rw [upd_other _ _ _ _ hyx]
              cases hy with
              | here _ => exact absurd rfl hyx
              | up _ _ _ h6 => exact h4 y h6
          · intro y hy
            have hyx : y ≠ x := by rintro rfl; exact hy (OnPath.here _)
            show upd d1.p x root y = d.p y
            rw [upd_other _ _ _ _ hyx]
            exact h5 y (fun h6 => hy (OnPath.up x y hp h6))
    · simp at h

theorem above_lt_n (d : DSU) (x : Int) (hx : InRange d x) : above d x < d.n := by
  have h : (Finset.range d.n).filter (fun i : Nat => d.r x < d.r (i : Int)) ⊂
      Finset.range d.n := by
    rw [Finset.filter_ssubset]
    refine ⟨x.toNat, ?_, ?_⟩
    · rw [Finset.mem_range]; unfold InRange at hx; omega
    · have : ((x.toNat : Nat) : Int) = x := by unfold InRange at hx; omega
      rw [this]; omega
  simpa [above] using Finset.card_lt_card h

theorem above_parent_lt (d : DSU) (hd : WF d) (x : Int) (hx : InRange d x) (hp : d.p x ≠ x) :
    above d (d.p x) < above d x := by
  have hr := hd.rank_lt x hx hp
  have hin := hd.parent_in x hx
  apply Finset.card_lt_card
  rw [Finset.ssubset_iff_of_subset]
  · refine ⟨(d.p x).toNat, ?_, ?_⟩
    · have : (((d.p x).toNat : Nat) : Int) = d.p x := by unfold InRange at hin; omega
      rw [Finset.mem_filter, Finset.mem_range, this]
      unfold InRange at hin
      exact ⟨by omega, hr⟩
    · have : (((d.p x).toNat : Nat) : Int) = d.p x := by unfold InRange at hin; omega
      rw [Finset.mem_filter, this]
      omega
  · intro i hi
    rw [Finset.mem_filter] at hi ⊢
    exact ⟨hi.1, by omega⟩

theorem dsu_find_fuel_total (d : DSU) (hd : WF d) : ∀ (m : Nat) (x : Int), InRange d x →
    above d x ≤ m → ∃ res, dsu_find_fuel (m + 1) d x = some res := by
  intro m
  induction m with
  | zero =>
    intro x hx hm
    by_cases hp : d.p x = x
    · exact ⟨(x, d), by simp [dsu_find_fuel, hp, hx.1, hx.2]⟩
    · have := above_parent_lt d hd x hx hp
      omega
  | succ m ih =>
    intro x hx hm
    by_cases hp : d.p x = x
    · exact ⟨(x, d), by simp [dsu_find_fuel, hp, hx.1, hx.2]⟩
    · have h1 := above_parent_lt d hd x hx hp
      obtain ⟨⟨ρ, d1⟩, hres⟩ := ih (d.p x) (hd.parent_in x hx) (by omega)
      refine ⟨(ρ, { d1 with p := upd d1.p x ρ }), ?_⟩
      rw [dsu_find_fuel]
      simp [hp, hx.1, hx.2, hres]

theorem dsu_find_total (d : DSU) (hd : WF d) (x : Int) (hx : InRange d x) :
    ∃ ρ d', dsu_find d x = some (ρ, d') := by
  have h1 := above_lt_n d x hx
  obtain ⟨⟨ρ, d'⟩, h⟩ := dsu_find_fuel_total d hd (d.n - 1) x hx (by omega)
  refine ⟨ρ, d', ?_⟩
  unfold dsu_find
  have : d.n - 1 + 1 = d.n := by omega
  rw [this] at h
  exact h

theorem RootOf.exists_of_wf {d : DSU} (hd : WF d) {x : Int} (hx : InRange d x) :
    ∃ ρ, RootOf d x ρ := by
  obtain ⟨ρ, d', h⟩ := dsu_find_total d hd x hx
  exact ⟨ρ, (dsu_find_fuel_spec _ d x ρ d' h).1⟩

/-- Redirecting some parents to the root of their own tree keeps the forest and
every root. -/
theorem compress_keeps {d d' : DSU} (hd : WF d) (hn : d'.n = d.n) (hr : d'.r = d.r)
    (hp : ∀ y, d'.p y = d.p y ∨ ∃ ρ, RootOf d y ρ ∧ d'.p y = ρ) :
    WF d' ∧ ∀ y σ, RootOf d y σ → RootOf d' y σ := by
  have hin : ∀ y, InRange d' y ↔ InRange d y := by
    intro y; unfold InRange; rw [hn]
  have hroot : ∀ σ, InRange d σ → d.p σ = σ → d'.p σ = σ := by
    intro σ hσ hpσ
    rcases hp σ with h | ⟨ρ, h1, h2⟩
    · rw [h, hpσ]
    · rw [h2]; exact h1.eq_of_root hpσ
  constructor
  · constructor
    · intro y hy
      rw [hin] at hy ⊢
      rcases hp y with h | ⟨ρ, h1, h2⟩
      · rw [h]; exact hd.parent_in y hy
      · rw [h2]; exact h1.inRange_right
    · intro y hy hne
      rw [hin] at hy
      rw [hr]
      rcases hp y with h | ⟨ρ, h1, h2⟩
      · rw [h] at hne ⊢; exact hd.rank_lt y hy hne
      · rw [h2] at hne ⊢
        rcases h1.rank_le hd with h3 | h3
        · exact absurd h3.symm hne
        · exact h3
  · intro y σ h
    induction h with
    | root x hx hpx => exact RootOf.root x ((hin x).2 hx) (hroot x hx hpx)
    | link x σ hx hne h1 ih =>
      have hxσ : x ≠ σ := by
        intro e
        rw [← e] at h1
        exact hne h1.is_root
      rcases hp x with h | ⟨ρ, h2, h3⟩
      · refine RootOf.link x σ ((hin x).2 hx) (by rw [h]; exact hne) ?_
        rw [h]; exact ih
      · have e : ρ = σ := h2.unique (RootOf.link x σ hx hne h1)
        subst e
        refine RootOf.link x ρ ((hin x).2 hx) (by rw [h3]; exact fun e => hxσ e.symm) ?_
        rw [h3]
        exact RootOf.root ρ ((hin ρ).2 h1.inRange_right) (hroot ρ h1.inRange_right h1.is_root)

/-- Full specification of `dsu_find` on a forest. -/
theorem dsu_find_spec {d : DSU} (hd : WF d) {x : Int} (hx : InRange d x) :
    ∃ ρ d', dsu_find d x = some (ρ, d') ∧ RootOf d x ρ ∧ WF d' ∧ d'.n = d.n ∧
      d'.r = d.r ∧
      (∀ y, OnPath d x y → d'.p y = ρ) ∧ (∀ y, ¬ OnPath d x y → d'.p y = d.p y) ∧
      (∀ y σ, RootOf d' y σ ↔ RootOf d y σ) := by
  obtain ⟨ρ, d', h⟩ := dsu_find_total d hd x hx
  obtain ⟨h1, h2, h3, h4, h5⟩ := dsu_find_fuel_spec _ d x ρ d' h
  have hp : ∀ y, d'.p y = d.p y ∨ ∃ ρ, RootOf d y ρ ∧ d'.p y = ρ := by
    intro y
    by_cases hy : OnPath d x y
    · exact Or.inr ⟨ρ, RootOf.of_onPath hy h1, h4 y hy⟩
    · exact Or.inl (h5 y hy)
  obtain ⟨hw, hk⟩ := compress_keeps hd h2 h3 hp
  refine ⟨ρ, d', h, h1, hw, h2, h3, h4, h5, ?_⟩
  intro y σ
  constructor
  · intro hy
    have hyin : InRange d y := by
      have := hy.inRange_left
      unfold InRange at this ⊢
      rw [h2] at this
      exact this
    obtain ⟨τ, hτ⟩ := RootOf.exists_of_wf hd hyin
    have := (hk y τ hτ).unique hy
    rw [← this]; exact hτ
  · exact hk y σ

/-- Attaching root `u` below a different root `v`. -/
theorem link_roots (d d' : DSU) (hn : d'.n = d.n) {u v : Int}
    (hu : RootOf d u u) (hv : RootOf d v v) (huv : u ≠ v)
    (hp : ∀ y, d'.p y = if y = u then v else d.p y) :
    ∀ y σ, RootOf d y σ → RootOf d' y (if σ = u then v else σ) := by
  have hin : ∀ y, InRange d' y ↔ InRange d y := by
    intro y; unfold InRange; rw [hn]
  have hv' : RootOf d' v v := by
    refine RootOf.root v ((hin v).2 hv.inRange_left) ?_
    rw [hp, if_neg (fun e => huv e.symm)]
    exact hv.is_root
  intro y σ h
  induction h with
  | root x hx hpx =>
    by_cases hxu : x = u
    · subst hxu
      rw [if_pos rfl]
      refine RootOf.link x v ((hin x).2 hx) ?_ ?_
      · rw [hp, if_pos rfl]; exact fun e => huv e.symm
      · rw [hp, if_pos rfl]; exact hv'
    · rw [if_neg hxu]
      refine RootOf.root x ((hin x).2 hx) ?_
      rw [hp, if_neg hxu]; exact hpx
  | link x σ hx hne _ ih =>
    have hxu : x ≠ u := by
      intro e
      rw [e] at hne
      exact hne hu.is_root
    refine RootOf.link x _ ((hin x).2 hx) ?_ ?_
    · rw [hp, if_neg hxu]; exact hne
    · rw [hp, if_neg hxu]; exact ih

theorem link_wf (d d' : DSU) (hd : WF d) (hn : d'.n = d.n) {u v : Int}
    (hv : RootOf d v v) (huv : u ≠ v)
    (hp : ∀ y, d'.p y = if y = u then v else d.p y)
    (hr : ∀ y, y ≠ v → d'.r y = d.r y) (hrv : d.r v ≤ d'.r v) (huv_rank : d.r u < d'.r v) :
    WF d' := by
  have hin : ∀ y, InRange d' y ↔ InRange d y := by
    intro y; unfold InRange; rw [hn]
  constructor
  · intro y hy
    rw [hin] at hy ⊢
    rw [hp]
    split
    · exact hv.inRange_left
    · exact hd.parent_in y hy
  · intro y hy hne
    rw [hin] at hy
    rw [hp] at hne ⊢
    by_cases hyu : y = u
    · rw [if_pos hyu, hyu, hr u huv]
      exact huv_rank
    · rw [if_neg hyu] at hne ⊢
      have h1 := hd.rank_lt y hy hne
      have hyv : y ≠ v := by
        intro e
        rw [e] at hne
        exact hne hv.is_root
      rw [hr y hyv]
      by_cases hpv : d.p y = v
      · rw [hpv] at h1 ⊢; omega
      · rw [hr _ hpv]; exact h1

theorem same_of_link {d d' : DSU} (hd : WF d) (hn : d'.n = d.n) {u v : Int}
    (hk : ∀ y σ, RootOf d y σ → RootOf d' y (if σ = u then v else σ)) (x y : Int) :
    Same d' x y ↔
      Same d x y ∨ (RootOf d x u ∧ RootOf d y v) ∨ (RootOf d x v ∧ RootOf d y u) := by
  have hin : ∀ y, InRange d' y → InRange d y := by
    intro y; unfold InRange; rw [hn]; exact id
  constructor
  · rintro ⟨ρ, hx, hy⟩
    obtain ⟨σx, hσx⟩ := RootOf.exists_of_wf hd (hin x hx.inRange_left)
    obtain ⟨σy, hσy⟩ := RootOf.exists_of_wf hd (hin y hy.inRange_left)
    have e1 := (hk x σx hσx).unique hx
    have e2 := (hk y σy hσy).unique hy
    by_cases h1 : σx = u <;> by_cases h2 : σy = u
    · subst h1; subst h2
      exact Or.inl ⟨_, hσx, hσy⟩
    · rw [if_pos h1] at e1
      rw [if_neg h2] at e2
      subst h1
      have : σy = v := by rw [e2, e1]
      subst this
      exact Or.inr (Or.inl ⟨hσx, hσy⟩)
    · rw [if_neg h1] at e1
      rw [if_pos h2] at e2
      subst h2
      have : σx = v := by rw [e1, e2]
      subst this
      exact Or.inr (Or.inr ⟨hσx, hσy⟩)
    · rw [if_neg h1] at e1
      rw [if_neg h2] at e2
      have : σx = σy := by rw [e1, e2]
      subst this
      exact Or.inl ⟨_, hσx, hσy⟩
  · rintro (⟨ρ, hx, hy⟩ | ⟨hx, hy⟩ | ⟨hx, hy⟩)
    · exact ⟨_, hk x ρ hx, hk y ρ hy⟩
    · have h1 := hk x u hx
      have h2 := hk y v hy
      rw [if_pos rfl] at h1
      by_cases hvu : v = u
      · rw [if_pos hvu] at h2; exact ⟨_, h1, h2⟩
      · rw [if_neg hvu] at h2; exact ⟨_, h1, h2⟩
    · have h1 := hk x v hx
      have h2 := hk y u hy
      rw [if_pos rfl] at h2
      by_cases hvu : v = u
      · rw [if_pos hvu] at h1; exact ⟨_, h1, h2⟩
      · rw [if_neg hvu] at h1; exact ⟨_, h1, h2⟩

theorem Same.of_roots {d : DSU} {x y ρ : Int} (hx : RootOf d x ρ) (hy : RootOf d y ρ) :
    Same d x y := ⟨ρ, hx, hy⟩

theorem Same.symm {d : DSU} {x y : Int} (h : Same d x y) : Same d y x := by
  obtain ⟨ρ, h1, h2⟩ := h
  exact ⟨ρ, h2, h1⟩

theorem Same.trans {d : DSU} {x y z : Int} (h : Same d x y) (h2 : Same d y z) :
    Same d x z := by
  obtain ⟨ρ, h1, h3⟩ := h
  obtain ⟨σ, h4, h5⟩ := h2
  have := h3.unique h4
  subst this
  exact ⟨ρ, h1, h5⟩

theorem Same.refl_of_wf {d : DSU} (hd : WF d) {x : Int} (hx : InRange d x) : Same d x x := by
  obtain ⟨ρ, h⟩ := RootOf.exists_of_wf hd hx
  exact ⟨ρ, h, h⟩

theorem same_iff_root {d : DSU} {a ra x : Int} (ha : RootOf d a ra) :
    RootOf d x ra ↔ Same d x a := by
  constructor
  · intro h; exact ⟨ra, h, ha⟩
  · rintro ⟨ρ, h1, h2⟩
    have := h2.unique ha
    subst this
    exact h1

/-- Specification of `dsu_union` on a forest. -/
theorem dsu_union_spec {d : DSU} (hd : WF d) {a b : Int} (ha : InRange d a)
    (hb : InRange d b) :
    ∃ d' ra rb, dsu_union d a b = some d' ∧ RootOf d a ra ∧ RootOf d b rb ∧ WF d' ∧
      d'.n = d.n ∧
      (∀ x y, Same d' x y ↔
        Same d x y ∨ (Same d x a ∧ Same d y b) ∨ (Same d x b ∧ Same d y a)) ∧
      (ra = rb → d'.r = d.r ∧ ∀ y σ, RootOf d' y σ ↔ RootOf d y σ) ∧
      (ra ≠ rb → d.r ra < d.r rb → d'.p ra = rb ∧ d'.r = d.r) ∧
      (ra ≠ rb → d.r rb < d.r ra → d'.p rb = ra ∧ d'.r = d.r) ∧
      (ra ≠ rb → d.r ra = d.r rb → d'.p rb = ra ∧ d'.r = upd d.r ra (d.r ra + 1)) := by
  obtain ⟨ra, d1, hf1, hra, hw1, hn1, hr1, -, -, hk1⟩ := dsu_find_spec hd ha
  have hb1 : InRange d1 b := by unfold InRange at hb ⊢; rw [hn1]; exact hb
  obtain ⟨rb, d2, hf2, hrb, hw2, hn2, hr2, -, -, hk2⟩ := dsu_find_spec hw1 hb1
  have hk : ∀ y σ, RootOf d2 y σ ↔ RootOf d y σ := fun y σ => (hk2 y σ).trans (hk1 y σ)
  have hrb0 : RootOf d b rb := (hk1 b rb).1 hrb
  have hsame2 : ∀ x y, Same d2 x y ↔ Same d x y := by
    intro x y
    constructor
    · rintro ⟨ρ, h1, h2⟩; exact ⟨ρ, (hk x ρ).1 h1, (hk y ρ).1 h2⟩
    · rintro ⟨ρ, h1, h2⟩; exact ⟨ρ, (hk x ρ).2 h1, (hk y ρ).2 h2⟩
  have hr : d2.r = d.r := hr2.trans hr1
  have hn : d2.n = d.n := hn2.trans hn1
  have hra2 : RootOf d2 ra ra := (hk ra ra).2 hra.self
  have hrb2 : RootOf d2 rb rb := (hk rb rb).2 hrb0.self
  -- the partition after attaching root `u` below root `v`
  have key : ∀ (d' : DSU) (u v : Int), d'.n = d2.n →
      (∀ y σ, RootOf d2 y σ → RootOf d' y (if σ = u then v else σ)) →
      ((u = ra ∧ v = rb) ∨ (u = rb ∧ v = ra)) →
      ∀ x y, Same d' x y ↔
        Same d x y ∨ (Same d x a ∧ Same d y b) ∨ (Same d x b ∧ Same d y a) := by
    intro d' u v hn' hk' huv x y
    rw [same_of_link hw2 hn' hk' x y, hsame2]
    simp only [hk]
    rcases huv with ⟨rfl, rfl⟩ | ⟨rfl, rfl⟩
    · rw [same_iff_root hra, same_iff_root hra, same_iff_root hrb0, same_iff_root hrb0]
    · rw [same_iff_root hra, same_iff_root hra, same_iff_root hrb0, same_iff_root hrb0]
      tauto
  by_cases hab : ra = rb
  · refine ⟨d2, ra, rb, ?_, hra, hrb0, hw2, hn, ?_, fun _ => ⟨hr, hk⟩, ?_, ?_, ?_⟩
    · simp [dsu_union, hf1, hf2, hab]
    · intro x y
      rw [hsame2]
      have hab' : Same d a b := ⟨ra, hra, hab ▸ hrb0⟩
      constructor
      · exact Or.inl
      · rintro (h | ⟨h1, h2⟩ | ⟨h1, h2⟩)
        · exact h
        · exact (h1.trans hab').trans h2.symm
        · exact (h1.trans hab'.symm).trans h2.symm
    · exact fun h => absurd hab h
    · exact fun h => absurd hab h
    · exact fun h => absurd hab h
  · have hba : rb ≠ ra := fun e => hab e.symm
    by_cases hlt : d2.r ra < d2.r rb
    · obtain ⟨d3, hu, hn3, hp3, hr3⟩ : ∃ d3, dsu_union d a b = some d3 ∧ d3.n = d2.n ∧
          (∀ y, d3.p y = if y = ra then rb else d2.p y) ∧ d3.r = d2.r :=
        ⟨DSU.mk (upd d2.p ra rb) d2.r d2.n, by simp [dsu_union, hf1, hf2, hab, hlt], rfl,
          fun _ => rfl, rfl⟩
      refine ⟨d3, ra, rb, hu, hra, hrb0, ?_, hn3.trans hn, ?_, fun h => absurd h hab,
        ?_, ?_, ?_⟩
      · exact link_wf d2 d3 hw2 hn3 hrb2 hab hp3 (fun _ _ => by rw [hr3])
          (by rw [hr3]) (by rw [hr3]; exact hlt)
      · exact key d3 ra rb hn3 (link_roots d2 d3 hn3 hra2 hrb2 hab hp3) (Or.inl ⟨rfl, rfl⟩)
      · intro _ _; exact ⟨by rw [hp3, if_pos rfl], hr3.trans hr⟩
      · intro _ h; rw [hr] at hlt; omega
      · intro _ h; rw [hr] at hlt; omega
    · by_cases hgt : d2.r ra > d2.r rb
      · obtain ⟨d3, hu, hn3, hp3, hr3⟩ : ∃ d3, dsu_union d a b = some d3 ∧ d3.n = d2.n ∧
            (∀ y, d3.p y = if y = rb then ra else d2.p y) ∧ d3.r = d2.r :=
          ⟨DSU.mk (upd d2.p rb ra) d2.r d2.n, by simp [dsu_union, hf1, hf2, hab, hlt, hgt],
            rfl, fun _ => rfl, rfl⟩
        refine ⟨d3, ra, rb, hu, hra, hrb0, ?_, hn3.trans hn, ?_, fun h => absurd h hab,
          ?_, ?_, ?_⟩
        · exact link_wf d2 d3 hw2 hn3 hra2 hba hp3 (fun _ _ => by rw [hr3])
            (by rw [hr3]) (by rw [hr3]; exact hgt)
        · exact key d3 rb ra hn3 (link_roots d2 d3 hn3 hrb2 hra2 hba hp3) (Or.inr ⟨rfl, rfl⟩)
        · intro _ h; rw [hr] at hgt; omega
        · intro _ _; exact ⟨by rw [hp3, if_pos rfl], hr3.trans hr⟩
        · intro _ h; rw [hr] at hgt; omega
      · obtain ⟨d3, hu, hn3, hp3, hr3⟩ : ∃ d3, dsu_union d a b = some d3 ∧ d3.n = d2.n ∧
            (∀ y, d3.p y = if y = rb then ra else d2.p y) ∧
            d3.r = upd d2.r ra (d2.r ra + 1) :=
          ⟨DSU.mk (upd d2.p rb ra) (upd d2.r ra (d2.r ra + 1)) d2.n,
            by simp [dsu_union, hf1, hf2, hab, hlt, hgt], rfl, fun _ => rfl, rfl⟩
        refine ⟨d3, ra, rb, hu, hra, hrb0, ?_, hn3.trans hn, ?_, fun h => absurd h hab,
          ?_, ?_, ?_⟩
        · refine link_wf d2 d3 hw2 hn3 hra2 hba hp3 ?_ ?_ ?_
          · intro y hy; rw [hr3]; exact upd_other _ _ _ _ hy
          · rw [hr3, upd_same]; omega
          · rw [hr3, upd_same]; omega
        · exact key d3 rb ra hn3 (link_roots d2 d3 hn3 hrb2 hra2 hba hp3) (Or.inr ⟨rfl, rfl⟩)
        · intro _ h; rw [hr] at hlt; omega
        · intro _ h; rw [hr] at hgt; omega
        · intro _ _
          refine ⟨by rw [hp3, if_pos rfl], ?_⟩
          rw [hr3, hr]

theorem dsu_init_wf (n : Nat) : WF (dsu_init n) :=
  ⟨fun _ hx => hx, fun _ _ h => absurd rfl h⟩

theorem dsu_init_root {n : Nat} {x ρ : Int} (h : RootOf (dsu_init n) x ρ) : ρ = x := by
  cases h with
  | root _ _ _ => rfl
  | link _ _ _ hne _ => exact absurd rfl hne

theorem dsu_init_same {n : Nat} {x y : Int} (h : Same (dsu_init n) x y) : x = y := by
  obtain ⟨ρ, h1, h2⟩ := h
  rw [← dsu_init_root h1, ← dsu_init_root h2]

theorem dsu_find_inRange {d : DSU} {x : Int} {res : Int × DSU} (h : dsu_find d x = some res) :
    InRange d x :=
  (dsu_find_fuel_spec _ d x res.1 res.2 h).1.inRange_left

theorem dsu_find_n {d : DSU} {x : Int} {res : Int × DSU} (h : dsu_find d x = some res) :
    res.2.n = d.n :=
  (dsu_find_fuel_spec _ d x res.1 res.2 h).2.1

theorem dsu_union_inRange {d d' : DSU} {a b : Int} (h : dsu_union d a b = some d') :
    InRange d a ∧ InRange d b := by
  unfold dsu_union at h
  split at h
  · simp at h
  · rename_i ra d1 h1
    split at h
    · simp at h
    · rename_i rb d2 h2
      refine ⟨dsu_find_inRange h1, ?_⟩
      have := dsu_find_inRange h2
      have hn := dsu_find_n h1
      unfold InRange at this ⊢
      simp only at hn
      rw [← hn]; exact this

theorem reachable_wf {n : Nat} {d : DSU} (h : Reachable n d) : WF d ∧ d.n = n := by
  induction h with
  | init => exact ⟨dsu_init_wf n, rfl⟩
  | find d d' x ρ _ hx hf ih =>
    obtain ⟨ρ', d'', h1, _, h3, h4, _⟩ := dsu_find_spec ih.1 hx
    rw [hf] at h1
    simp only [Option.some.injEq, Prod.mk.injEq] at h1
    obtain ⟨_, rfl⟩ := h1
    exact ⟨h3, h4.trans ih.2⟩
  | union d d' a b _ ha hb hu ih =>
    obtain ⟨d'', _, _, h1, _, _, h3, h4, _⟩ := dsu_union_spec ih.1 ha hb
    rw [hu] at h1
    simp only [Option.some.injEq] at h1
    subst h1
    exact ⟨h3, h4.trans ih.2⟩

/-- On a forest the test `dsu_find(x) == dsu_find(y)` decides `Same`. -/
theorem dsu_same_spec {d : DSU} (hd : WF d) {x y : Int} (hx : InRange d x)
    (hy : InRange d y) : ∃ b, dsu_same d x y = some b ∧ (b = true ↔ Same d x y) := by
  obtain ⟨rx, d1, hf1, hrx, hw1, hn1, -, -, -, hk1⟩ := dsu_find_spec hd hx
  have hy1 : InRange d1 y := by unfold InRange at hy ⊢; rw [hn1]; exact hy
  obtain ⟨ry, d2, hf2, hry, -⟩ := dsu_find_spec hw1 hy1
  refine ⟨decide (rx = ry), by simp [dsu_same, hf1, hf2], ?_⟩
  have hry0 := (hk1 y ry).1 hry
  rw [decide_eq_true_iff]
  constructor
  · intro e; exact ⟨rx, hrx, e ▸ hry0⟩
  · rintro ⟨ρ, h1, h2⟩
    rw [hrx.unique h1, hry0.unique h2]

theorem dsu_same_true_iff {d : DSU} (hd : WF d) {x y : Int} (hx : InRange d x)
    (hy : InRange d y) : dsu_same d x y = some true ↔ Same d x y := by
  obtain ⟨b, h1, h2⟩ := dsu_same_spec hd hx hy
  rw [h1, ← h2]; simp

theorem dsu_same_false_iff {d : DSU} (hd : WF d) {x y : Int} (hx : InRange d x)
    (hy : InRange d y) : dsu_same d x y = some false ↔ ¬ Same d x y := by
  obtain ⟨b, h1, h2⟩ := dsu_same_spec hd hx hy
  rw [h1, ← h2]; cases b <;> simp

/-! ## Sequences of unions and the generated equivalence -/

theorem eqvGen_of_le {r q : Int → Int → Prop}
    (h : ∀ u v, r u v → Relation.EqvGen q u v) {x y : Int} (hxy : Relation.EqvGen r x y) :
    Relation.EqvGen q x y := by
  induction hxy with
  | rel u v huv => exact h u v huv
  | refl u => exact Relation.EqvGen.refl u
  | symm u v _ ih => exact Relation.EqvGen.symm _ _ ih
  | trans u v w _ _ ih1 ih2 => exact Relation.EqvGen.trans _ _ _ ih1 ih2

theorem eqvGen_sub_same (d : DSU) {r : Int → Int → Prop} (h : ∀ u v, r u v → Same d u v)
    {x y : Int} (hxy : Relation.EqvGen r x y) : x = y ∨ Same d x y := by
  induction hxy with
  | rel u v huv => exact Or.inr (h u v huv)
  | refl u => exact Or.inl rfl
  | symm u v _ ih =>
    rcases ih with ih | ih
    · exact Or.inl ih.symm
    · exact Or.inr ih.symm
  | trans u v w _ _ ih1 ih2 =>
    rcases ih1 with ih1 | ih1
    · rw [ih1]; exact ih2
    · rcases ih2 with ih2 | ih2
      · rw [← ih2]; exact Or.inr ih1
      · exact Or.inr (ih1.trans ih2)

theorem Same.inRange {d : DSU} {x y : Int} (h : Same d x y) : InRange d x ∧ InRange d y := by
  obtain ⟨ρ, h1, h2⟩ := h
  exact ⟨h1.inRange_left, h2.inRange_left⟩

theorem union_all_spec : ∀ (us : List (Int × Int)) (d : DSU), WF d →
    (∀ ab ∈ us, InRange d ab.1 ∧ InRange d ab.2) →
    ∃ d', union_all d us = some d' ∧ WF d' ∧ d'.n = d.n ∧
      ∀ x y, Same d' x y ↔ (InRange d x ∧ InRange d y ∧
        Relation.EqvGen (fun u v => Same d u v ∨ (u, v) ∈ us) x y) := by
  intro us
  induction us with
  | nil =>
    intro d hd _
    refine ⟨d, rfl, hd, rfl, ?_⟩
    intro x y
    constructor
    · intro h; exact ⟨h.inRange.1, h.inRange.2, Relation.EqvGen.rel _ _ (Or.inl h)⟩
    · rintro ⟨hx, _, h⟩
      have := eqvGen_sub_same d (fun u v huv => by simpa using huv) h
      rcases this with rfl | this
      · exact Same.refl_of_wf hd hx
      · exact this
  | cons ab us ih =>
    intro d hd hin
    obtain ⟨ha, hb⟩ := hin ab (List.mem_cons_self _ _)
    obtain ⟨d1, ra, rb, hu, -, -, hw1, hn1, hs1, -⟩ := dsu_union_spec hd ha hb
    have hin1 : ∀ cd ∈ us, InRange d1 cd.1 ∧ InRange d1 cd.2 := by
      intro cd hcd
      have := hin cd (List.mem_cons_of_mem _ hcd)
      unfold InRange at this ⊢
      rw [hn1]; exact this
    obtain ⟨d', hu', hw', hn', hs'⟩ := ih d1 hw1 hin1
    refine ⟨d', by simp [union_all, hu, hu'], hw', hn'.trans hn1, ?_⟩
    intro x y
    rw [hs']
    have hr : ∀ z, InRange d1 z ↔ InRange d z := by
      intro z; unfold InRange; rw [hn1]
    rw [hr, hr]
    have haa := Same.refl_of_wf hd ha
    have hbb := Same.refl_of_wf hd hb
    constructor
    · rintro ⟨hx, hy, h⟩
      refine ⟨hx, hy, eqvGen_of_le ?_ h⟩
      rintro u v (huv | huv)
      · rcases (hs1 u v).1 huv with h1 | ⟨h1, h2⟩ | ⟨h1, h2⟩
        · exact Relation.EqvGen.rel _ _ (Or.inl h1)
        · refine Relation.EqvGen.trans _ ab.1 _ (Relation.EqvGen.rel _ _ (Or.inl h1)) ?_
          refine Relation.EqvGen.trans _ ab.2 _
            (Relation.EqvGen.rel _ _ (Or.inr (List.mem_cons_self _ _))) ?_
          exact Relation.EqvGen.rel _ _ (Or.inl h2.symm)
        · refine Relation.EqvGen.trans _ ab.2 _ (Relation.EqvGen.rel _ _ (Or.inl h1)) ?_
          refine Relation.EqvGen.trans _ ab.1 _
            (Relation.EqvGen.symm _ _
              (Relation.EqvGen.rel _ _ (Or.inr (List.mem_cons_self _ _)))) ?_
          exact Relation.EqvGen.rel _ _ (Or.inl h2.symm)
      · exact Relation.EqvGen.rel _ _ (Or.inr (List.mem_cons_of_mem _ huv))
    · rintro ⟨hx, hy, h⟩
      refine ⟨hx, hy, eqvGen_of_le ?_ h⟩
      rintro u v (huv | huv)
      · exact Relation.EqvGen.rel _ _ (Or.inl ((hs1 u v).2 (Or.inl huv)))
      · rcases List.mem_cons.1 huv with e | e
        · have e1 : u = ab.1 := by rw [← e]
          have e2 : v = ab.2 := by rw [← e]
          rw [e1, e2]
          exact Relation.EqvGen.rel _ _ (Or.inl ((hs1 _ _).2 (Or.inr (Or.inl ⟨haa, hbb⟩))))
        · exact Relation.EqvGen.rel _ _ (Or.inr e)

theorem union_all_inRange : ∀ (us : List (Int × Int)) (d d' : DSU), WF d →
    union_all d us = some d' → ∀ ab ∈ us, InRange d ab.1 ∧ InRange d ab.2 := by
  intro us
  induction us with
  | nil => intro d d' _ _ ab hab; simp at hab
  | cons cd us ih =>
    intro d d' hd h ab hab
    unfold union_all at h
    split at h
    · simp at h
    · rename_i d1 hu
      have hcd := dsu_union_inRange hu
      obtain ⟨d1', _, _, hu', _, _, hw1, hn1, _⟩ := dsu_union_spec hd hcd.1 hcd.2
      rw [hu] at hu'
      simp only [Option.some.injEq] at hu'
      subst hu'
      rcases List.mem_cons.1 hab with e | e
      · rw [e]; exact hcd
      · have := ih d1 d' hw1 h ab e
        unfold InRange at this ⊢
        rw [← hn1]; exact this

/-- From a fresh classifier, a completed sequence of unions yields exactly the
equivalence generated by the united pairs. -/
theorem union_all_init {n : Nat} {us : List (Int × Int)} {d' : DSU}
    (h : union_all (dsu_init n) us = some d') :
    WF d' ∧ d'.n = n ∧ (∀ ab ∈ us, InRange d' ab.1 ∧ InRange d' ab.2) ∧
      ∀ x y, InRange d' x → InRange d' y →
        (Same d' x y ↔ Relation.EqvGen (fun u v => (u, v) ∈ us) x y) := by
  have hin := union_all_inRange us _ _ (dsu_init_wf n) h
  obtain ⟨d'', h1, hw, hn, hs⟩ := union_all_spec us _ (dsu_init_wf n) hin
  rw [h] at h1
  simp only [Option.some.injEq] at h1
  subst h1
  have hr : ∀ z, InRange d' z ↔ InRange (dsu_init n) z := by
    intro z; unfold InRange; rw [hn]
  refine ⟨hw, hn, ?_, ?_⟩
  · intro ab hab; rw [hr, hr]; exact hin ab hab
  · intro x y hx hy
    rw [hs]
    constructor
    · rintro ⟨_, _, h2⟩
      refine eqvGen_of_le ?_ h2
      rintro u v (huv | huv)
      · rw [dsu_init_same huv]; exact Relation.EqvGen.refl _
      · exact Relation.EqvGen.rel _ _ huv
    · intro h2
      refine ⟨(hr x).1 hx, (hr y).1 hy, eqvGen_of_le ?_ h2⟩
      intro u v huv
      exact Relation.EqvGen.rel _ _ (Or.inr huv)

/-! ## The rule loop -/

theorem union_all_append : ∀ (us vs : List (Int × Int)) (d : DSU),
    union_all d (us ++ vs) =
      match union_all d us with
      | none => none
      | some d1 => union_all d1 vs := by
  intro us
  induction us with
  | nil => intro vs d; rfl
  | cons ab us ih =>
    intro vs d
    simp only [List.cons_append, union_all]
    cases dsu_union d ab.1 ab.2 with
    | none => rfl
    | some d1 => exact ih vs d1

theorem union_all_one (c : Prop) [Decidable c] (d : DSU) (a b : Int) :
    (if c then dsu_union d a b else some d) = union_all d (if c then [(a, b)] else []) := by
  by_cases h : c
  · simp only [h, if_true, union_all]
    cases dsu_union d a b <;> rfl
  · simp only [h, if_false, union_all]

theorem union_all_two (c : Prop) [Decidable c] (d : DSU) (a b a2 b2 : Int) :
    (if c then
        match dsu_union d a b with
        | none => none
        | some d2 => dsu_union d2 a2 b2
      else some d) = union_all d (if c then [(a, b), (a2, b2)] else []) := by
  by_cases h : c
  · simp only [h, if_true, union_all]
    cases dsu_union d a b with
    | none => rfl
    | some d2 =>
      simp only
      cases dsu_union d2 a2 b2 <;> rfl
  · simp only [h, if_false, union_all]

theorem apply_rules_eq (d : DSU) (g : Gate) : apply_rules d g = union_all d (gate_unions g) := by
  unfold apply_rules gate_unions
  rw [union_all_append]
  simp only [union_all_two, union_all_one]
  by_cases h1 : g.t = GType.G_AND ∨ g.t = GType.G_NAND
  · simp only [h1, if_true]
  · by_cases h4 : g.t = GType.G_OR ∨ g.t = GType.G_NOR
    · simp only [h1, h4, if_true, if_false]
    · simp only [h1, h4, if_false, union_all]

theorem rule_loop_eq : ∀ (gs : List Gate) (d : DSU),
    rule_loop gs d = union_all d (all_unions gs) := by
  intro gs
  induction gs with
  | nil => intro d; rfl
  | cons g gs ih =>
    intro d
    simp only [rule_loop, all_unions]
    rw [union_all_append, apply_rules_eq]
    cases union_all d (gate_unions g) with
    | none => rfl
    | some d1 => exact ih d1

theorem mem_all_unions {gs : List Gate} {ab : Int × Int} :
    ab ∈ all_unions gs ↔ ∃ g ∈ gs, ab ∈ gate_unions g := by
  induction gs with
  | nil => simp [all_unions]
  | cons g gs ih => simp [all_unions, ih]

theorem fault_idx_zero (t : Int) : fault_idx t 0 = 2 * (t - 1) := by
  simp [fault_idx]

theorem fault_idx_one (t : Int) : fault_idx t 1 = 2 * (t - 1) + 1 := by
  simp [fault_idx]

theorem fault_idx_bounds (t sa : Int) : 2 * (t - 1) ≤ fault_idx t sa ∧
    fault_idx t sa ≤ 2 * (t - 1) + 1 := by
  unfold fault_idx; split <;> omega

theorem registered_idx {s : NodeSet} {t : Int} (h : Registered s t) (sa : Int) :
    0 ≤ fault_idx t sa ∧ fault_idx t sa < (dsu_size s : Int) := by
  obtain ⟨h1, h2, _⟩ := h
  have hb := fault_idx_bounds t sa
  unfold dsu_size max_id
  split <;> omega

theorem mem_gate_unions {g : Gate} {x y : Int} (h : (x, y) ∈ gate_unions g) :
    (x = fault_idx g.in1 0 ∨ x = fault_idx g.in1 1) ∧
    (y = fault_idx g.in2 0 ∨ y = fault_idx g.in2 1 ∨ y = fault_idx g.out 0 ∨
      y = fault_idx g.out 1) := by
  unfold gate_unions at h
  rw [List.mem_append] at h
  rcases h with h | h
  · split at h
    · split at h
      · simp at h; simp [h.1, h.2]
      · simp at h
    · split at h
      · split at h
        · simp at h; simp [h.1, h.2]
        · simp at h
      · simp at h
  · split at h
    · simp at h
      rcases h with ⟨h1, h2⟩ | ⟨h1, h2⟩ <;> simp [h1, h2]
    · simp at h

theorem all_unions_inRange {s : NodeSet} {gs : List Gate} (h : GatesRegistered s gs) :
    ∀ ab ∈ all_unions gs,
      InRange (dsu_init (dsu_size s)) ab.1 ∧ InRange (dsu_init (dsu_size s)) ab.2 := by
  rintro ⟨x, y⟩ hab
  obtain ⟨g, hg, hxy⟩ := mem_all_unions.1 hab
  obtain ⟨ho, h1, h2⟩ := h g hg
  obtain ⟨hx, hy⟩ := mem_gate_unions hxy
  constructor
  · rcases hx with rfl | rfl <;> exact registered_idx h1 _
  · rcases hy with rfl | rfl | rfl | rfl
    · exact registered_idx h2 _
    · exact registered_idx h2 _
    · exact registered_idx ho _
    · exact registered_idx ho _

/-- The rule loop completes on every gate list whose terminals are registered. -/
theorem rule_loop_total {s : NodeSet} {gs : List Gate} (h : GatesRegistered s gs) :
    ∃ d, rule_loop gs (dsu_init (dsu_size s)) = some d := by
  obtain ⟨d, hd, _⟩ := union_all_spec (all_unions gs) _ (dsu_init_wf _) (all_unions_inRange h)
  exact ⟨d, by rw [rule_loop_eq]; exact hd⟩

/-- A completed rule loop from a fresh classifier: the result is a forest whose
classes are generated by the unions performed. -/
theorem rule_loop_init {n : Nat} {gs : List Gate} {d : DSU}
    (h : rule_loop gs (dsu_init n) = some d) :
    WF d ∧ d.n = n ∧ (∀ ab ∈ all_unions gs, InRange d ab.1 ∧ InRange d ab.2) ∧
      ∀ x y, InRange d x → InRange d y →
        (Same d x y ↔ Relation.EqvGen (fun u v => (u, v) ∈ all_unions gs) x y) := by
  rw [rule_loop_eq] at h
  exact union_all_init h

theorem rule_loop_same_of_mem {n : Nat} {gs : List Gate} {d : DSU}
    (h : rule_loop gs (dsu_init n) = some d) {g : Gate} (hg : g ∈ gs) {x y : Int}
    (hxy : (x, y) ∈ gate_unions g) : dsu_same d x y = some true := by
  obtain ⟨hw, _, hin, hs⟩ := rule_loop_init h
  have hmem : (x, y) ∈ all_unions gs := mem_all_unions.2 ⟨g, hg, hxy⟩
  obtain ⟨hx, hy⟩ := hin _ hmem
  rw [dsu_same_true_iff hw hx hy, hs x y hx hy]
  exact Relation.EqvGen.rel _ _ hmem

theorem rulePair_iff_mem {gs : List Gate}
    (hpos : ∀ g ∈ gs, 0 < g.in1 ∧ 0 < g.in2) (x y : Int) :
    RulePair gs x y ↔ (x, y) ∈ all_unions gs := by
  rw [mem_all_unions]
  unfold RulePair
  refine exists_congr (fun g => and_congr_right (fun hg => ?_))
  obtain ⟨h1, h2⟩ := hpos g hg
  unfold gate_unions
  have hp : g.in1 > 0 ∧ g.in2 > 0 := ⟨h1, h2⟩
  have hp1 : g.in1 > 0 := h1
  cases ht : g.t <;> simp [hp, hp1, ht]

theorem inRange_iff {d : DSU} {n : Nat} (hn : d.n = n) (x : Int) :
    InRange d x ↔ (0 ≤ x ∧ x < (n : Int)) := by
  unfold InRange; rw [hn]

theorem dsu_find_init (n : Nat) (x : Int) (hx : 0 ≤ x ∧ x < (n : Int)) :
    dsu_find (dsu_init n) x = some (x, dsu_init n) := by
  unfold dsu_find
  have hn : (dsu_init n).n = n := rfl
  rw [hn]
  cases n with
  | zero => exact absurd hx (by simp)
  | succ k =>
    unfold dsu_find_fuel
    rw [hn, if_pos hx]
    have : (dsu_init (k + 1)).p x = x := rfl
    rw [if_pos this]

theorem dsu_find_none {d : DSU} {x : Int} (hx : ¬ InRange d x) : dsu_find d x = none := by
  unfold dsu_find
  cases d.n with
  | zero => rfl
  | succ k =>
    unfold dsu_find_fuel
    rw [if_neg]
    exact hx

theorem dsu_same_none {d : DSU} (hd : WF d) {y z : Int} (h : ¬ (InRange d y ∧ InRange d z)) :
    dsu_same d y z = none := by
  unfold dsu_same
  by_cases hy : InRange d y
  · obtain ⟨ρ, d1, h1, -, -, hn, -⟩ := dsu_find_spec hd hy
    have hz : ¬ InRange d1 z := by
      intro hz
      apply h
      refine ⟨hy, ?_⟩
      unfold InRange at hz ⊢
      rw [← hn]; exact hz
    rw [h1]
    simp only
    rw [dsu_find_none hz]
  · rw [dsu_find_none hy]

/-- Two forests of the same size with the same classes answer every class test
alike. -/
theorem dsu_same_congr {d d' : DSU} (hd : WF d) (hd' : WF d') (hn : d'.n = d.n)
    (hk : ∀ y z, Same d' y z ↔ Same d y z) (y z : Int) :
    dsu_same d' y z = dsu_same d y z := by
  have hr : ∀ w, InRange d' w ↔ InRange d w := by
    intro w; unfold InRange; rw [hn]
  by_cases h : InRange d y ∧ InRange d z
  · obtain ⟨hy, hz⟩ := h
    obtain ⟨b, h1, h2⟩ := dsu_same_spec hd hy hz
    obtain ⟨b', h1', h2'⟩ := dsu_same_spec hd' ((hr y).2 hy) ((hr z).2 hz)
    rw [h1, h1']
    have : b' = true ↔ b = true := by rw [h2, h2', hk]
    cases b <;> cases b' <;> simp_all
  · rw [dsu_same_none hd h, dsu_same_none hd' (by rw [hr, hr]; exact h)]

theorem same_congr_of_roots {d d' : DSU} (hk : ∀ y σ, RootOf d' y σ ↔ RootOf d y σ)
    (y z : Int) : Same d' y z ↔ Same d y z := by
  unfold Same
  simp only [hk]

/-- C9 (`dsu_find` contract): right after `dsu_init(n)` every in-range `x` is its
own root; in every reachable state `dsu_find(x)` returns the root `ρ`
(`p[ρ] = ρ`) reached by following parent links from `x`, sets the parent of
every node on that path to `ρ`, touches no other parent, and leaves every
element's root (hence every class test), all ranks and the size unchanged. -/
theorem dsu_find_contract (n : Nat) (d : DSU) (hd : Reachable n d) (x : Int)
    (hx : 0 ≤ x ∧ x < (n : Int)) :
    dsu_find (dsu_init n) x = some (x, dsu_init n) ∧
    ∃ ρ d', dsu_find d x = some (ρ, d') ∧ RootOf d x ρ ∧ d.p ρ = ρ ∧
      (∀ y, OnPath d x y → d'.p y = ρ) ∧ (∀ y, ¬ OnPath d x y → d'.p y = d.p y) ∧
      (∀ y σ, RootOf d' y σ ↔ RootOf d y σ) ∧
      (∀ y z, dsu_same d' y z = dsu_same d y z) ∧ d'.r = d.r ∧ d'.n = d.n := by
  refine ⟨dsu_find_init n x hx, ?_⟩
  obtain ⟨hw, hn⟩ := reachable_wf hd
  obtain ⟨ρ, d', h1, h2, h3, h4, h5, h6, h7, h8⟩ :=
    dsu_find_spec hw ((inRange_iff hn x).2 hx)
  exact ⟨ρ, d', h1, h2, h2.is_root, h6, h7, h8,
    dsu_same_congr hw h3 h4 (same_congr_of_roots h8), h5, h4⟩

/-- After `dsu_union(0, 1)` on a fresh classifier of size 4, `dsu_find(1)`
returns root `0` and keeps the ranks. -/
theorem dsu_find_contract_witness :
    ∃ d, dsu_union (dsu_init 4) 0 1 = some d ∧
      ∃ d', dsu_find d 1 = some (0, d') ∧ d'.r = d.r ∧ d'.p 1 = 0 := by
  refine ⟨_, rfl, ?_⟩
  obtain ⟨-, ρ, d', h1, -, -, h4, -, -, -, h8, -⟩ :=
    dsu_find_contract 4 _ (Reachable.union (dsu_init 4) _ 0 1 Reachable.init
      (by decide) (by decide) rfl) 1 (by decide)
  have e : ρ = 0 := by
    have h := congrArg (Option.map Prod.fst) h1
    exact (Option.some.inj h).symm
  subst e
  exact ⟨d', h1, h8, h4 1 (OnPath.here 1)⟩

/-- C8 (`dsu_union` contract): in every reachable state and for in-range `a`,
`b`, `dsu_union(a, b)` returns; afterwards `a` and `b` are in one class; two
in-range elements are in one class afterwards iff they were before or one was
in `a`'s class and the other in `b`'s; if `a` and `b` already shared a class,
no class test and no rank changes; otherwise the root of lower rank is
attached under the root of higher rank, and on a tie `b`'s root is attached
under `a`'s root, whose rank grows by one. -/
theorem dsu_union_contract (n : Nat) (d : DSU) (hd : Reachable n d) (a b : Int)
    (ha : 0 ≤ a ∧ a < (n : Int)) (hb : 0 ≤ b ∧ b < (n : Int)) :
    ∃ d' ra rb, dsu_union d a b = some d' ∧ RootOf d a ra ∧ RootOf d b rb ∧
      dsu_same d' a b = some true ∧
      (∀ x y, (0 ≤ x ∧ x < (n : Int)) → (0 ≤ y ∧ y < (n : Int)) →
        (dsu_same d' x y = some true ↔
          dsu_same d x y = some true ∨
          (dsu_same d x a = some true ∧ dsu_same d y b = some true) ∨
          (dsu_same d x b = some true ∧ dsu_same d y a = some true))) ∧
      (dsu_same d a b = some true →
        (∀ x y, dsu_same d' x y = dsu_same d x y) ∧ d'.r = d.r) ∧
      (ra ≠ rb → d.r ra < d.r rb → d'.p ra = rb ∧ d'.r = d.r) ∧
      (ra ≠ rb → d.r rb < d.r ra → d'.p rb = ra ∧ d'.r = d.r) ∧
      (ra ≠ rb → d.r ra = d.r rb → d'.p rb = ra ∧ d'.r = upd d.r ra (d.r ra + 1)) := by
  obtain ⟨hw, hn⟩ := reachable_wf hd
  have ha' := (inRange_iff hn a).2 ha
  have hb' := (inRange_iff hn b).2 hb
  obtain ⟨d', ra, rb, h1, h2, h3, hw', hn', hs, he, hlt, hgt, htie⟩ :=
    dsu_union_spec hw ha' hb'
  have hr : ∀ w, InRange d' w ↔ InRange d w := by
    intro w; unfold InRange; rw [hn']
  have haa := Same.refl_of_wf hw ha'
  have hbb := Same.refl_of_wf hw hb'
  refine ⟨d', ra, rb, h1, h2, h3, ?_, ?_, ?_, hlt, hgt, htie⟩
  · rw [dsu_same_true_iff hw' ((hr a).2 ha') ((hr b).2 hb'), hs]
    exact Or.inr (Or.inl ⟨haa, hbb⟩)
  · intro x y hx hy
    have hx' := (inRange_iff hn x).2 hx
    have hy' := (inRange_iff hn y).2 hy
    rw [dsu_same_true_iff hw' ((hr x).2 hx') ((hr y).2 hy'), hs,
      dsu_same_true_iff hw hx' hy', dsu_same_true_iff hw hx' ha',
      dsu_same_true_iff hw hy' hb', dsu_same_true_iff hw hx' hb',
      dsu_same_true_iff hw hy' ha']
  · intro hab
    have hab' : Same d a b := (dsu_same_true_iff hw ha' hb').1 hab
    have e : ra = rb := by
      obtain ⟨ρ, h4, h5⟩ := hab'
      rw [h2.unique h4, h3.unique h5]
    obtain ⟨h6, h7⟩ := he e
    exact ⟨dsu_same_congr hw hw' hn' (same_congr_of_roots h7), h6⟩

/-- On a fresh classifier of size 2, `dsu_union(0, 1)` is a rank tie: `1` is
attached under `0` and the rank of `0` becomes `1`. -/
theorem dsu_union_contract_witness :
    ∃ d', dsu_union (dsu_init 2) 0 1 = some d' ∧ dsu_same d' 0 1 = some true ∧
      d'.p 1 = 0 ∧ d'.r 0 = 1 := by
  obtain ⟨d', ra, rb, h1, h2, h3, h4, -, -, -, -, h9⟩ :=
    dsu_union_contract 2 (dsu_init 2) Reachable.init 0 1 (by decide) (by decide)
  have ea := dsu_init_root h2
  have eb := dsu_init_root h3
  subst ea; subst eb
  obtain ⟨h10, h11⟩ := h9 (by decide) rfl
  refine ⟨d', h1, h4, h10, ?_⟩
  rw [h11]
  rfl

/-! ## Claims on the rule loop -/

/-- C1 (symmetric-input rule): for every gate list whose terminals are
registered nets the rule loop completes, and for every gate `g` of the list
with `g.in1 > 0` and `g.in2 > 0`: if `g` is AND or NAND then stuck-at-0 on
`in1` and stuck-at-0 on `in2` have the same `dsu_find` root, and if `g` is OR
or NOR then stuck-at-1 on `in1` and stuck-at-1 on `in2` have the same root. -/
theorem symmetric_input_rule (s : NodeSet) (gs : List Gate) (hreg : GatesRegistered s gs) :
    ∃ d, rule_loop gs (dsu_init (dsu_size s)) = some d ∧
      ∀ g ∈ gs, 0 < g.in1 → 0 < g.in2 →
        ((g.t = GType.G_AND ∨ g.t = GType.G_NAND) →
          dsu_same d (fault_idx g.in1 0) (fault_idx g.in2 0) = some true) ∧
        ((g.t = GType.G_OR ∨ g.t = GType.G_NOR) →
          dsu_same d (fault_idx g.in1 1) (fault_idx g.in2 1) = some true) := by
  obtain ⟨d, hd⟩ := rule_loop_total hreg
  refine ⟨d, hd, ?_⟩
  intro g hg h1 h2
  have hp : g.in1 > 0 ∧ g.in2 > 0 := ⟨h1, h2⟩
  constructor
  · intro ht
    apply rule_loop_same_of_mem hd hg
    unfold gate_unions
    simp [ht, hp]
  · intro ht
    apply rule_loop_same_of_mem hd hg
    unfold gate_unions
    rcases ht with ht | ht <;> simp [ht, hp]

/-- The single gate `AND 3 1 2` over the registry of nets 1, 2, 3 puts `sa0_1`
(index 0) and `sa0_2` (index 2) in the same class. -/
theorem symmetric_input_rule_witness :
    ns_add_all (ns_init 1024) [3, 1, 2] = some (registry_of [3, 1, 2]) ∧
    GatesRegistered (registry_of [3, 1, 2]) [⟨GType.G_AND, 3, 1, 2⟩] ∧
    ∃ d, rule_loop [⟨GType.G_AND, 3, 1, 2⟩] (dsu_init (dsu_size (registry_of [3, 1, 2]))) =
        some d ∧ dsu_same d 0 2 = some true := by
  refine ⟨rfl, by decide, ?_⟩
  obtain ⟨d, h1, h2⟩ :=
    symmetric_input_rule (registry_of [3, 1, 2]) [⟨GType.G_AND, 3, 1, 2⟩] (by decide)
  exact ⟨d, h1, (h2 _ (List.mem_singleton.2 rfl) (by decide) (by decide)).1 (Or.inl rfl)⟩

/-- C2 (inverter rule): for every gate list containing a NAND gate whose two
inputs are the same net `a > 0` and whose output is a net `o > 0`, once the
rule loop has run over the whole list, stuck-at-0 on `a` shares a class with
stuck-at-1 on `o` and stuck-at-1 on `a` shares a class with stuck-at-0 on `o`;
and the loop does run to completion when all terminals are registered nets. -/
theorem inverter_rule (s : NodeSet) (gs : List Gate) (g : Gate) (hg : g ∈ gs)
    (ht : g.t = GType.G_NAND) (h12 : g.in1 = g.in2) (ha : 0 < g.in1) (_ho : 0 < g.out) :
    (GatesRegistered s gs → ∃ d, rule_loop gs (dsu_init (dsu_size s)) = some d) ∧
    ∀ d, rule_loop gs (dsu_init (dsu_size s)) = some d →
      dsu_same d (fault_idx g.in1 0) (fault_idx g.out 1) = some true ∧
      dsu_same d (fault_idx g.in1 1) (fault_idx g.out 0) = some true := by
  refine ⟨fun hreg => rule_loop_total hreg, ?_⟩
  intro d hd
  have hc : g.t = GType.G_NAND ∧ g.in1 = g.in2 ∧ g.in1 > 0 := ⟨ht, h12, ha⟩
  constructor
  · apply rule_loop_same_of_mem hd hg
    unfold gate_unions
    rw [if_pos hc]
    simp
  · apply rule_loop_same_of_mem hd hg
    unfold gate_unions
    rw [if_pos hc]
    simp

/-- The single gate `NAND 10 5 5` puts `sa0_5` with `sa1_10` and `sa1_5` with
`sa0_10`. -/
theorem inverter_rule_witness :
    ns_add_all (ns_init 1024) [10, 5, 5] = some (registry_of [10, 5, 5]) ∧
    ∃ d, rule_loop [⟨GType.G_NAND, 10, 5, 5⟩]
        (dsu_init (dsu_size (registry_of [10, 5, 5]))) = some d ∧
      dsu_same d (fault_idx 5 0) (fault_idx 10 1) = some true ∧
      dsu_same d (fault_idx 5 1) (fault_idx 10 0) = some true := by
  refine ⟨rfl, ?_⟩
  have h := inverter_rule (registry_of [10, 5, 5]) [⟨GType.G_NAND, 10, 5, 5⟩]
    ⟨GType.G_NAND, 10, 5, 5⟩
    (List.mem_singleton.2 rfl) rfl rfl (by decide) (by decide)
  obtain ⟨d, hd⟩ := h.1 (by decide)
  exact ⟨d, hd, h.2 d hd⟩

theorem eqvGen_lift {α : Type} {r : Int → Int → Prop} (f : Int → α)
    (h : ∀ u v, r u v → f u = f v) {x y : Int} (hxy : Relation.EqvGen r x y) : f x = f y := by
  induction hxy with
  | rel u v huv => exact h u v huv
  | refl u => rfl
  | symm u v _ ih => exact ih.symm
  | trans u v w _ _ ih1 ih2 => exact ih1.trans ih2

/-- Two completed runs of the rule loop from fresh classifiers of one size that
perform the same set of unions answer every class test alike. -/
theorem rule_loop_same_classes {n : Nat} {gs gs' : List Gate} {d d' : DSU}
    (h : rule_loop gs (dsu_init n) = some d) (h' : rule_loop gs' (dsu_init n) = some d')
    (hm : ∀ ab, ab ∈ all_unions gs' ↔ ab ∈ all_unions gs) (x y : Int) :
    dsu_same d' x y = dsu_same d x y := by
  obtain ⟨hw, hn, -, hs⟩ := rule_loop_init h
  obtain ⟨hw', hn', -, hs'⟩ := rule_loop_init h'
  have hnn : d'.n = d.n := hn'.trans hn.symm
  have hr : ∀ w, InRange d' w ↔ InRange d w := by
    intro w; unfold InRange; rw [hnn]
  apply dsu_same_congr hw hw' hnn
  intro u v
  constructor
  · intro huv
    obtain ⟨hu, hv⟩ := huv.inRange
    rw [hs u v ((hr u).1 hu) ((hr v).1 hv)]
    have := (hs' u v hu hv).1 huv
    simpa only [hm] using this
  · intro huv
    obtain ⟨hu, hv⟩ := huv.inRange
    rw [hs' u v ((hr u).2 hu) ((hr v).2 hv)]
    have := (hs u v hu hv).1 huv
    simpa only [hm] using this

theorem all_unions_append (gs hs : List Gate) :
    all_unions (gs ++ hs) = all_unions gs ++ all_unions hs := by
  induction gs with
  | nil => rfl
  | cons g gs ih => simp [all_unions, ih]

theorem mem_twice {gs : List Gate} {g : Gate} : g ∈ twice gs ↔ g ∈ gs := by
  induction gs with
  | nil => simp [twice]
  | cons h gs ih => simp [twice, ih]

/-- C3 (the partition is exactly the one the enabled rules generate): for every
gate list whose terminals are registered (hence positive) nets the rule loop
completes, and two in-range fault indices have the same `dsu_find` root iff
they are related by the reflexive-symmetric-transitive closure of the rule
pairs. In particular `AND 3 1 2` keeps `sa1_1` and `sa1_2` apart, and a lone
`NOR o a a` with `o ≠ a` joins no fault on `o` with a fault on `a`. -/
theorem partition_generated_by_rules (s : NodeSet) (gs : List Gate)
    (hreg : GatesRegistered s gs) :
    ∃ d, rule_loop gs (dsu_init (dsu_size s)) = some d ∧
      (∀ x y, (0 ≤ x ∧ x < (dsu_size s : Int)) → (0 ≤ y ∧ y < (dsu_size s : Int)) →
        (dsu_same d x y = some true ↔ Relation.EqvGen (RulePair gs) x y)) ∧
      (gs = [⟨GType.G_AND, 3, 1, 2⟩] →
        dsu_same d (fault_idx 1 1) (fault_idx 2 1) = some false) ∧
      (∀ o a, gs = [⟨GType.G_NOR, o, a, a⟩] → o ≠ a → ∀ sa sb,
        dsu_same d (fault_idx o sa) (fault_idx a sb) = some false) := by
  obtain ⟨d, hd⟩ := rule_loop_total hreg
  obtain ⟨hw, hn, -, hs⟩ := rule_loop_init hd
  have hpos : ∀ g ∈ gs, 0 < g.in1 ∧ 0 < g.in2 := fun g hg =>
    ⟨(hreg g hg).2.1.1, (hreg g hg).2.2.1⟩
  have hrel : (fun u v => (u, v) ∈ all_unions gs) = RulePair gs := by
    funext u v
    exact propext (rulePair_iff_mem hpos u v).symm
  have main : ∀ x y, (0 ≤ x ∧ x < (dsu_size s : Int)) →
      (0 ≤ y ∧ y < (dsu_size s : Int)) →
      (dsu_same d x y = some true ↔ Relation.EqvGen (RulePair gs) x y) := by
    intro x y hx hy
    have hx' := (inRange_iff hn x).2 hx
    have hy' := (inRange_iff hn y).2 hy
    rw [dsu_same_true_iff hw hx' hy', hs x y hx' hy', hrel]
  have apart : ∀ x y, (0 ≤ x ∧ x < (dsu_size s : Int)) →
      (0 ≤ y ∧ y < (dsu_size s : Int)) →
      ¬ Relation.EqvGen (RulePair gs) x y → dsu_same d x y = some false := by
    intro x y hx hy hne
    have hx' := (inRange_iff hn x).2 hx
    have hy' := (inRange_iff hn y).2 hy
    rw [dsu_same_false_iff hw hx' hy', hs x y hx' hy', hrel]
    exact hne
  refine ⟨d, hd, main, ?_, ?_⟩
  · intro hgs
    have hg := hreg ⟨GType.G_AND, 3, 1, 2⟩ (by rw [hgs]; exact List.mem_singleton.2 rfl)
    apply apart _ _ (registered_idx hg.2.1 1) (registered_idx hg.2.2 1)
    intro h
    have := eqvGen_lift (fun z : Int => if z = 2 then 0 else z) (by
      rintro u v ⟨g, hg, hr⟩
      rw [hgs, List.mem_singleton] at hg
      subst hg
      simp [fault_idx] at hr
      obtain ⟨rfl, rfl⟩ := hr
      simp) h
    simp [fault_idx] at this
  · intro o a hgs hoa sa sb
    have hg := hreg ⟨GType.G_NOR, o, a, a⟩ (by rw [hgs]; exact List.mem_singleton.2 rfl)
    apply apart _ _ (registered_idx hg.1 sa) (registered_idx hg.2.1 sb)
    intro h
    have := eqvGen_lift (fun z : Int => z) (by
      rintro u v ⟨g, hg, hr⟩
      rw [hgs, List.mem_singleton] at hg
      subst hg
      simp at hr
      rw [hr.1, hr.2]) h
    have h1 := fault_idx_bounds o sa
    have h2 := fault_idx_bounds a sb
    simp only at this
    omega

/-- For `AND 3 1 2` over nets 1, 2, 3: `sa0_1` and `sa0_2` share a class, while
`sa1_1` and `sa1_2` do not. -/
theorem partition_generated_by_rules_witness :
    GatesRegistered (registry_of [3, 1, 2]) [⟨GType.G_AND, 3, 1, 2⟩] ∧
    ∃ d, rule_loop [⟨GType.G_AND, 3, 1, 2⟩] (dsu_init (dsu_size (registry_of [3, 1, 2]))) =
        some d ∧
      dsu_same d 0 2 = some true ∧ dsu_same d 1 3 = some false := by
  refine ⟨by decide, ?_⟩
  obtain ⟨d, h1, h2, h3, -⟩ :=
    partition_generated_by_rules (registry_of [3, 1, 2]) [⟨GType.G_AND, 3, 1, 2⟩] (by decide)
  refine ⟨d, h1, ?_, h3 rfl⟩
  rw [h2 0 2 (by decide) (by decide)]
  exact Relation.EqvGen.rel _ _
    ⟨_, List.mem_singleton.2 rfl, Or.inl ⟨Or.inl rfl, by decide, by decide⟩⟩

/-- C10 (idempotence of collapsing): for every gate list `L` with registered
terminals, the rule loop over `L ++ L`, and over the list in which every gate
of `L` appears twice, completes and gives the same answer to every class test
`dsu_find(x) == dsu_find(y)` as the rule loop over `L`. -/
theorem collapsing_idempotent (s : NodeSet) (gs : List Gate) (hreg : GatesRegistered s gs) :
    ∃ d1 d2 d3, rule_loop gs (dsu_init (dsu_size s)) = some d1 ∧
      rule_loop (gs ++ gs) (dsu_init (dsu_size s)) = some d2 ∧
      rule_loop (twice gs) (dsu_init (dsu_size s)) = some d3 ∧
      ∀ x y, dsu_same d2 x y = dsu_same d1 x y ∧ dsu_same d3 x y = dsu_same d1 x y := by
  have hreg2 : GatesRegistered s (gs ++ gs) := by
    intro g hg
    rcases List.mem_append.1 hg with h | h <;> exact hreg g h
  have hreg3 : GatesRegistered s (twice gs) := fun g hg => hreg g (mem_twice.1 hg)
  obtain ⟨d1, h1⟩ := rule_loop_total hreg
  obtain ⟨d2, h2⟩ := rule_loop_total hreg2
  obtain ⟨d3, h3⟩ := rule_loop_total hreg3
  refine ⟨d1, d2, d3, h1, h2, h3, fun x y => ⟨?_, ?_⟩⟩
  · apply rule_loop_same_classes h1 h2
    intro ab
    rw [all_unions_append, List.mem_append, or_self]
  · apply rule_loop_same_classes h1 h3
    intro ab
    rw [mem_all_unions, mem_all_unions]
    simp only [mem_twice]

/-- Running the rules twice over `NAND 10 5 5`, `AND 3 1 2` answers the class
test of `sa0_1`, `sa0_2` as one run does. -/
theorem collapsing_idempotent_witness :
    GatesRegistered (registry_of [10, 5, 3, 1, 2])
      [⟨GType.G_NAND, 10, 5, 5⟩, ⟨GType.G_AND, 3, 1, 2⟩] ∧
    ∃ d1 d2, rule_loop [⟨GType.G_NAND, 10, 5, 5⟩, ⟨GType.G_AND, 3, 1, 2⟩]
        (dsu_init (dsu_size (registry_of [10, 5, 3, 1, 2]))) = some d1 ∧
      rule_loop ([⟨GType.G_NAND, 10, 5, 5⟩, ⟨GType.G_AND, 3, 1, 2⟩] ++
          [⟨GType.G_NAND, 10, 5, 5⟩, ⟨GType.G_AND, 3, 1, 2⟩])
        (dsu_init (dsu_size (registry_of [10, 5, 3, 1, 2]))) = some d2 ∧
      dsu_same d2 0 2 = dsu_same d1 0 2 := by
  refine ⟨by decide, ?_⟩
  obtain ⟨d1, d2, _, h1, h2, -, h4⟩ := collapsing_idempotent (registry_of [10, 5, 3, 1, 2])
    [⟨GType.G_NAND, 10, 5, 5⟩, ⟨GType.G_AND, 3, 1, 2⟩] (by decide)
  exact ⟨d1, d2, h1, h2, (h4 0 2).1⟩

/-! ## Net registry -/

theorem ns_double_spec (need : Nat) : ∀ (fuel nc : Nat), 0 < nc → need + 2 ≤ nc + fuel →
    1 ≤ fuel → ∃ nc', ns_double fuel nc need = some nc' ∧ need < nc' ∧ nc ≤ nc' := by
  intro fuel
  induction fuel with
  | zero => intro nc _ _ h; omega
  | succ k ih =>
    intro nc h0 h1 _
    unfold ns_double
    by_cases h : nc ≤ need
    · rw [if_pos h]
      obtain ⟨nc', h2, h3, h4⟩ := ih (nc * 2) (by omega) (by omega) (by omega)
      exact ⟨nc', h2, h3, by omega⟩
    · rw [if_neg h]
      exact ⟨nc, rfl, by omega, le_refl _⟩

theorem ns_ensure_spec {s : NodeSet} (hs : 0 < s.cap) (need : Nat) :
    ∃ s', ns_ensure s need = some s' ∧ need < s'.cap ∧ s.cap ≤ s'.cap ∧
      ∀ j, s'.bits j = if (s.cap : Int) ≤ j ∧ j < (s'.cap : Int) then 0 else s.bits j := by
  unfold ns_ensure
  by_cases h : need < s.cap
  · rw [if_pos h]
    refine ⟨s, rfl, h, le_refl _, ?_⟩
    intro j
    rw [if_neg]
    omega
  · rw [if_neg h]
    obtain ⟨nc, h1, h2, h3⟩ := ns_double_spec need (need + 1) s.cap hs (by omega) (by omega)
    rw [h1]
    exact ⟨_, rfl, h2, h3, fun j => rfl⟩

theorem ns_add_spec {s : NodeSet} (hs : NsInv s) (id : Int) :
    ∃ s', ns_add s id = some s' ∧ NsInv s' ∧ s.cap ≤ s'.cap ∧
      ∀ j, s'.bits j ≠ 0 ↔ (s.bits j ≠ 0 ∨ (0 < id ∧ j = id)) := by
  unfold ns_add
  by_cases h : id ≤ 0
  · rw [if_pos h]
    refine ⟨s, rfl, hs, le_refl _, ?_⟩
    intro j
    constructor
    · exact Or.inl
    · rintro (h1 | ⟨h1, _⟩)
      · exact h1
      · omega
  · rw [if_neg h]
    obtain ⟨s1, h1, h2, h3, h4⟩ := ns_ensure_spec hs.1 (id.toNat + 1)
    rw [h1]
    have hb : ∀ j, s1.bits j = s.bits j := by
      intro j
      rw [h4]
      split
      · rename_i hj
        by_contra hne
        have := hs.2 j (fun e => hne e.symm)
        omega
      · rfl
    refine ⟨_, rfl, ⟨by show 0 < s1.cap; omega, ?_⟩, h3, ?_⟩
    · intro j hj
      show 0 < j ∧ j < (s1.cap : Int)
      by_cases hji : j = id
      · subst hji; omega
      · have : upd s1.bits id 1 j = s.bits j := by rw [upd_other _ _ _ _ hji, hb]
        have h5 := hs.2 j (by rw [← this]; exact hj)
        omega
    · intro j
      show upd s1.bits id 1 j ≠ 0 ↔ _
      by_cases hji : j = id
      · subst hji
        rw [upd_same]
        constructor
        · intro _; exact Or.inr ⟨by omega, rfl⟩
        · intro _; decide
      · rw [upd_other _ _ _ _ hji, hb]
        constructor
        · exact Or.inl
        · rintro (h5 | ⟨_, h6⟩)
          · exact h5
          · exact absurd h6 hji

theorem ns_init_inv (init : Nat) : NsInv (ns_init init) := by
  refine ⟨?_, fun j hj => absurd rfl hj⟩
  show 0 < (if init < 2 then 2 else init)
  split <;> omega

theorem ns_add_all_spec : ∀ (ids : List Int) (s : NodeSet), NsInv s →
    ∃ s', ns_add_all s ids = some s' ∧ NsInv s' ∧ s.cap ≤ s'.cap ∧
      ∀ j, s'.bits j ≠ 0 ↔ (s.bits j ≠ 0 ∨ (0 < j ∧ j ∈ ids)) := by
  intro ids
  induction ids with
  | nil =>
    intro s hs
    exact ⟨s, rfl, hs, le_refl _, fun j => by simp⟩
  | cons id ids ih =>
    intro s hs
    obtain ⟨s1, h1, h2, h3, h4⟩ := ns_add_spec hs id
    obtain ⟨s', h5, h6, h7, h8⟩ := ih s1 h2
    refine ⟨s', by simp [ns_add_all, h1, h5], h6, by omega, ?_⟩
    intro j
    rw [h8, h4, List.mem_cons]
    constructor
    · rintro ((h | ⟨h, rfl⟩) | ⟨h, h'⟩)
      · exact Or.inl h
      · exact Or.inr ⟨h, Or.inl rfl⟩
      · exact Or.inr ⟨h, Or.inr h'⟩
    · rintro (h | ⟨h, rfl | h'⟩)
      · exact Or.inl (Or.inl h)
      · exact Or.inl (Or.inr ⟨h, rfl⟩)
      · exact Or.inr ⟨h, h'⟩

theorem count_foldl {α : Type} (P : α → Prop) [DecidablePred P] : ∀ (l : List α) (c : Int),
    l.foldl (fun c i => if P i then c + 1 else c) c =
      c + ((l.filter (fun i => decide (P i))).length : Int) := by
  intro l
  induction l with
  | nil => intro c; simp
  | cons a l ih =>
    intro c
    simp only [List.foldl_cons, List.filter_cons]
    rw [ih]
    by_cases h : P a
    · simp [h]; omega
    · simp [h]

theorem mem_loop_ids {m i : Int} : i ∈ loop_ids m ↔ 1 ≤ i ∧ i ≤ m := by
  unfold loop_ids
  rw [List.mem_map]
  constructor
  · rintro ⟨k, hk, rfl⟩
    rw [List.mem_range] at hk
    omega
  · intro h
    refine ⟨(i - 1).toNat, ?_, ?_⟩
    · rw [List.mem_range]; omega
    · omega

theorem loop_ids_nodup (m : Int) : (loop_ids m).Nodup := by
  unfold loop_ids
  apply List.Nodup.map
  · intro a b h; simpa using h
  · exact List.nodup_range _

theorem line_count_eq (s : NodeSet) :
    line_count s =
      (((loop_ids (max_id s)).filter (fun i => decide (s.bits i ≠ 0))).length : Int) := by
  unfold line_count
  rw [count_foldl (fun i => s.bits i ≠ 0)]
  simp

/-- C7 (fault-universe size): after `ns_init` and any sequence of `ns_add`
calls (in either program, whatever the start-up capacity), a slot is set iff
its index is a positive id that was added, every such id lies in
`1..cap-1`, the scan `for i in 1..cap-1: if bits[i] then ++line_count` counts
exactly the distinct positive ids added, and the reported total is
`2 × line_count`. -/
theorem fault_universe_size (init : Nat) (ids : List Int) :
    ∃ s, ns_add_all (ns_init init) ids = some s ∧
      (∀ j, s.bits j ≠ 0 ↔ (0 < j ∧ j ∈ ids)) ∧
      (∀ j ∈ ids, 0 < j → 1 ≤ j ∧ j ≤ max_id s) ∧
      line_count s = (((ids.filter (fun i => decide (0 < i))).dedup.length : Nat) : Int) ∧
      initial_faults s = 2 * line_count s := by
  obtain ⟨s, h1, h2, -, h4⟩ := ns_add_all_spec ids _ (ns_init_inv init)
  have hb : ∀ j, s.bits j ≠ 0 ↔ (0 < j ∧ j ∈ ids) := by
    intro j
    rw [h4]
    constructor
    · rintro (h | h)
      · exact absurd rfl h
      · exact h
    · exact Or.inr
  have hr : ∀ j ∈ ids, 0 < j → 1 ≤ j ∧ j ≤ max_id s := by
    intro j hj hpos
    have := h2.2 j ((hb j).2 ⟨hpos, hj⟩)
    unfold max_id
    omega
  refine ⟨s, h1, hb, hr, ?_, by unfold initial_faults; omega⟩
  rw [line_count_eq]
  congr 1
  apply List.Perm.length_eq
  rw [List.perm_ext_iff_of_nodup ((loop_ids_nodup _).filter _) (List.nodup_dedup _)]
  intro j
  rw [List.mem_filter, List.mem_dedup, List.mem_filter, mem_loop_ids]
  simp only [decide_eq_true_eq]
  rw [hb]
  constructor
  · rintro ⟨_, h5, h6⟩; exact ⟨h6, h5⟩
  · rintro ⟨h5, h6⟩; exact ⟨hr j h5 h6, h6, h5⟩

/-- Nets 1, 2, 3 (even when added more than once) give 6 faults. -/
theorem fault_universe_size_witness :
    ∃ s, ns_add_all (ns_init 4096) [1, 2, 3, 3, 1] = some s ∧ line_count s = 3 ∧
      initial_faults s = 6 := by
  obtain ⟨s, h1, -, -, h4, h5⟩ := fault_universe_size 4096 [1, 2, 3, 3, 1]
  have h6 : line_count s = 3 := by rw [h4]; decide
  exact ⟨s, h1, h6, by rw [h5, h6]; rfl⟩

/-! ## Representative scans -/

theorem root_of_spec {d : DSU} (hd : WF d) {x : Int} (hx : InRange d x) :
    RootOf d x (root_of d x) := by
  obtain ⟨ρ, d', h1, h2, -⟩ := dsu_find_spec hd hx
  unfold root_of
  rw [h1]
  exact h2

theorem visit_fault_spec {size : Nat} {d0 d : DSU} (hd0 : WF d0) (hd : WF d)
    (hn0 : d0.n = size) (hn : d.n = size) (hk : ∀ y σ, RootOf d y σ ↔ RootOf d0 y σ)
    (mark : Int → Int) {id sa : Int} (hx : InRange d0 (fault_idx id sa)) :
    ∃ d1, visit_fault size d mark id sa =
        some (d1, if mark (fault_root d0 (id, sa)) = 0 then
          upd mark (fault_root d0 (id, sa)) 1 else mark,
          decide (mark (fault_root d0 (id, sa)) = 0)) ∧
      WF d1 ∧ d1.n = size ∧ ∀ y σ, RootOf d1 y σ ↔ RootOf d0 y σ := by
  have hx' : InRange d (fault_idx id sa) := by
    unfold InRange at hx ⊢; rw [hn, ← hn0]; exact hx
  obtain ⟨ρ, d1, h1, h2, h3, h4, -, -, -, h8⟩ := dsu_find_spec hd hx'
  have hρ : fault_root d0 (id, sa) = ρ :=
    (root_of_spec hd0 hx).unique ((hk _ _).1 h2)
  have hr := h2.inRange_right
  unfold InRange at hr
  rw [hn] at hr
  refine ⟨d1, ?_, h3, h4.trans hn, fun y σ => (h8 y σ).trans (hk y σ)⟩
  unfold visit_fault
  rw [h1, hρ]
  simp only [hr, and_self, if_true]
  by_cases hm : mark ρ = 0
  · simp [hm]
  · simp [hm]

theorem visit_all_spec {size : Nat} {d0 : DSU} (hd0 : WF d0) (hn0 : d0.n = size) :
    ∀ (fs : List (Int × Int)) (d : DSU) (mark : Int → Int) (news : List (Int × Int))
      (seen : List Int), WF d → d.n = size → (∀ y σ, RootOf d y σ ↔ RootOf d0 y σ) →
      (∀ f ∈ fs, InRange d0 (fault_idx f.1 f.2)) → (∀ ρ, mark ρ ≠ 0 ↔ ρ ∈ seen) →
      ∃ d' mark', visit_all size fs (d, mark, news) =
          some (d', mark', news ++ firsts (fault_root d0) fs seen) ∧
        WF d' ∧ d'.n = size ∧ ∀ y σ, RootOf d' y σ ↔ RootOf d0 y σ := by
  intro fs
  induction fs with
  | nil =>
    intro d mark news seen hd hn hk _ _
    exact ⟨d, mark, by simp [visit_all, firsts], hd, hn, hk⟩
  | cons f fs ih =>
    intro d mark news seen hd hn hk hin hm
    obtain ⟨d1, h1, h2, h3, h4⟩ :=
      visit_fault_spec hd0 hd hn0 hn hk mark (hin f (List.mem_cons_self _ _))
    have hin' : ∀ g ∈ fs, InRange d0 (fault_idx g.1 g.2) :=
      fun g hg => hin g (List.mem_cons_of_mem _ hg)
    unfold visit_all
    rw [h1]
    simp only
    by_cases hs : fault_root d0 f ∈ seen
    · have hz : ¬ mark (fault_root d0 f) = 0 := (hm _).2 hs
      obtain ⟨d', mark', h5, h6⟩ := ih d1 mark news seen h2 h3 h4 hin' hm
      refine ⟨d', mark', ?_, h6⟩
      simp only [hz, if_false, decide_False, firsts, hs, if_true]
      exact h5
    · have hz : mark (fault_root d0 f) = 0 := by
        by_contra hne
        exact hs ((hm _).1 hne)
      have hm' : ∀ ρ, upd mark (fault_root d0 f) 1 ρ ≠ 0 ↔
          ρ ∈ fault_root d0 f :: seen := by
        intro ρ
        by_cases hρ : ρ = fault_root d0 f
        · subst hρ; rw [upd_same]; simp
        · rw [upd_other _ _ _ _ hρ, hm, List.mem_cons]
          simp [hρ]
      obtain ⟨d', mark', h5, h6⟩ :=
        ih d1 (upd mark (fault_root d0 f) 1) (news ++ [f]) (fault_root d0 f :: seen)
          h2 h3 h4 hin' hm'
      refine ⟨d', mark', ?_, h6⟩
      simp only [hz, if_true, decide_True, firsts, hs, if_false]
      rw [h5]
      simp

theorem count_loop_eq (s : NodeSet) (size : Nat) : ∀ (ids : List Int) (d : DSU)
    (mark : Int → Int) (kept : Int) (news : List (Int × Int)),
    count_loop s size ids (d, mark, kept + news.length) =
      (visit_all size (faults_of (ids.filter (fun i => decide (s.bits i ≠ 0))))
        (d, mark, news)).map (fun r => (r.1, r.2.1, kept + (r.2.2.length : Int))) := by
  intro ids
  induction ids with
  | nil => intro d mark kept news; rfl
  | cons id ids ih =>
    intro d mark kept news
    unfold count_loop
    by_cases hb : s.bits id = 0
    · rw [if_pos hb]
      have hf : (id :: ids).filter (fun i => decide (s.bits i ≠ 0)) =
          ids.filter (fun i => decide (s.bits i ≠ 0)) := by simp [List.filter_cons, hb]
      rw [hf]
      exact ih d mark kept news
    · rw [if_neg hb]
      have hf : (id :: ids).filter (fun i => decide (s.bits i ≠ 0)) =
          id :: ids.filter (fun i => decide (s.bits i ≠ 0)) := by simp [List.filter_cons, hb]
      rw [hf]
      simp only [faults_of, visit_all]
      cases visit_fault size d mark id 0 with
      | none => rfl
      | some r0 =>
        obtain ⟨d1, mark1, new0⟩ := r0
        simp only
        cases visit_fault size d1 mark1 id 1 with
        | none => rfl
        | some r1 =>
          obtain ⟨d2, mark2, new1⟩ := r1
          simp only
          rw [← ih]
          congr 3
          cases new0 <;> cases new1 <;> simp <;> omega

theorem print_loop_eq (s : NodeSet) (size : Nat) : ∀ (ids : List Int) (d : DSU)
    (mark : Int → Int) (out : List (Int × Int)),
    print_loop s size ids (d, mark, out) =
      visit_all size (faults_of (ids.filter (fun i => decide (s.bits i ≠ 0))))
        (d, mark, out) := by
  intro ids
  induction ids with
  | nil => intro d mark out; rfl
  | cons id ids ih =>
    intro d mark out
    unfold print_loop
    by_cases hb : s.bits id = 0
    · rw [if_pos hb]
      have hf : (id :: ids).filter (fun i => decide (s.bits i ≠ 0)) =
          ids.filter (fun i => decide (s.bits i ≠ 0)) := by simp [List.filter_cons, hb]
      rw [hf]
      exact ih d mark out
    · rw [if_neg hb]
      have hf : (id :: ids).filter (fun i => decide (s.bits i ≠ 0)) =
          id :: ids.filter (fun i => decide (s.bits i ≠ 0)) := by simp [List.filter_cons, hb]
      rw [hf]
      simp only [faults_of, visit_all]
      cases visit_fault size d mark id 0 with
      | none => rfl
      | some r0 =>
        obtain ⟨d1, mark1, new0⟩ := r0
        simp only
        cases visit_fault size d1 mark1 id 1 with
        | none => rfl
        | some r1 =>
          obtain ⟨d2, mark2, new1⟩ := r1
          simp only
          rw [ih]
          cases new0 <;> cases new1 <;> simp

theorem firsts_sublist (key : Int × Int → Int) : ∀ (fs : List (Int × Int)) (seen : List Int),
    (firsts key fs seen).Sublist fs := by
  intro fs
  induction fs with
  | nil => intro seen; exact List.Sublist.slnil
  | cons f fs ih =>
    intro seen
    unfold firsts
    split
    · exact List.Sublist.cons _ (ih seen)
    · exact List.Sublist.cons₂ _ (ih _)

theorem firsts_not_seen (key : Int × Int → Int) : ∀ (fs : List (Int × Int)) (seen : List Int),
    ∀ f ∈ firsts key fs seen, key f ∉ seen := by
  intro fs
  induction fs with
  | nil => intro seen f hf; simp [firsts] at hf
  | cons g fs ih =>
    intro seen f hf
    unfold firsts at hf
    split at hf
    · exact ih seen f hf
    · rename_i hg
      rcases List.mem_cons.1 hf with rfl | hf
      · exact hg
      · intro hs
        exact ih _ f hf (List.mem_cons_of_mem _ hs)

theorem firsts_keys_nodup (key : Int × Int → Int) : ∀ (fs : List (Int × Int))
    (seen : List Int), ((firsts key fs seen).map key).Nodup := by
  intro fs
  induction fs with
  | nil => intro seen; simp [firsts]
  | cons g fs ih =>
    intro seen
    unfold firsts
    split
    · exact ih seen
    · rw [List.map_cons, List.nodup_cons]
      refine ⟨?_, ih _⟩
      intro hmem
      obtain ⟨f, hf, hk⟩ := List.mem_map.1 hmem
      exact firsts_not_seen key fs _ f hf (by rw [hk]; exact List.mem_cons_self _ _)

theorem firsts_cover (key : Int × Int → Int) : ∀ (fs : List (Int × Int)) (seen : List Int),
    ∀ f ∈ fs, key f ∈ seen ∨ ∃ g ∈ firsts key fs seen, key g = key f := by
  intro fs
  induction fs with
  | nil => intro seen f hf; simp at hf
  | cons g fs ih =>
    intro seen f hf
    unfold firsts
    by_cases hg : key g ∈ seen
    · rw [if_pos hg]
      rcases List.mem_cons.1 hf with rfl | hf
      · exact Or.inl hg
      · exact ih seen f hf
    · rw [if_neg hg]
      rcases List.mem_cons.1 hf with rfl | hf
      · exact Or.inr ⟨f, List.mem_cons_self _ _, rfl⟩
      · rcases ih (key g :: seen) f hf with h | ⟨h, h1, h2⟩
        · rcases List.mem_cons.1 h with h | h
          · exact Or.inr ⟨g, List.mem_cons_self _ _, h.symm⟩
          · exact Or.inl h
        · exact Or.inr ⟨h, List.mem_cons_of_mem _ h1, h2⟩

theorem firsts_least (key : Int × Int → Int) (lt : Int × Int → Int × Int → Prop) :
    ∀ (fs : List (Int × Int)) (seen : List Int), fs.Pairwise lt →
    ∀ g ∈ firsts key fs seen, ∀ f ∈ fs, key f = key g → g = f ∨ lt g f := by
  intro fs
  induction fs with
  | nil => intro seen _ g hg; simp [firsts] at hg
  | cons a fs ih =>
    intro seen hp g hg f hf hk
    rw [List.pairwise_cons] at hp
    unfold firsts at hg
    by_cases ha : key a ∈ seen
    · rw [if_pos ha] at hg
      rcases List.mem_cons.1 hf with rfl | hf
      · exact absurd (hk ▸ ha) (firsts_not_seen key fs seen g hg)
      · exact ih seen hp.2 g hg f hf hk
    · rw [if_neg ha] at hg
      rcases List.mem_cons.1 hg with rfl | hg
      · rcases List.mem_cons.1 hf with rfl | hf
        · exact Or.inl rfl
        · exact Or.inr (hp.1 f hf)
      · rcases List.mem_cons.1 hf with rfl | hf
        · exact absurd (hk ▸ List.mem_cons_self _ _) (firsts_not_seen key fs _ g hg)
        · exact ih _ hp.2 g hg f hf hk

theorem firsts_congr {key key' : Int × Int → Int} : ∀ (fs : List (Int × Int))
    (seen : List Int), (∀ f ∈ fs, key f = key' f) →
    firsts key fs seen = firsts key' fs seen := by
  intro fs
  induction fs with
  | nil => intro seen _; rfl
  | cons a fs ih =>
    intro seen h
    have ha := h a (List.mem_cons_self _ _)
    have hfs : ∀ f ∈ fs, key f = key' f := fun f hf => h f (List.mem_cons_of_mem _ hf)
    unfold firsts
    rw [ha, ih seen hfs, ih (key' a :: seen) hfs]

theorem firsts_length (key : Int × Int → Int) (fs : List (Int × Int)) :
    (firsts key fs []).length = ((fs.map key).dedup).length := by
  rw [← List.length_map (firsts key fs []) key]
  apply List.Perm.length_eq
  rw [List.perm_ext_iff_of_nodup (firsts_keys_nodup key fs []) (List.nodup_dedup _)]
  intro k
  rw [List.mem_dedup, List.mem_map, List.mem_map]
  constructor
  · rintro ⟨f, hf, rfl⟩
    exact ⟨f, (firsts_sublist key fs []).subset hf, rfl⟩
  · rintro ⟨f, hf, rfl⟩
    rcases firsts_cover key fs [] f hf with h | ⟨g, hg, hk⟩
    · simp at h
    · exact ⟨g, hg, hk⟩

theorem mem_faults_of {ids : List Int} {f : Int × Int} :
    f ∈ faults_of ids ↔ f.1 ∈ ids ∧ (f.2 = 0 ∨ f.2 = 1) := by
  induction ids with
  | nil => simp [faults_of]
  | cons id ids ih =>
    obtain ⟨a, b⟩ := f
    simp only [faults_of, List.mem_cons, ih, Prod.mk.injEq]
    constructor
    · rintro (⟨rfl, rfl⟩ | ⟨rfl, rfl⟩ | ⟨h1, h2⟩)
      · exact ⟨Or.inl rfl, Or.inl rfl⟩
      · exact ⟨Or.inl rfl, Or.inr rfl⟩
      · exact ⟨Or.inr h1, h2⟩
    · rintro ⟨rfl | h1, h2⟩
      · rcases h2 with h2 | h2
        · exact Or.inl ⟨rfl, h2⟩
        · exact Or.inr (Or.inl ⟨rfl, h2⟩)
      · exact Or.inr (Or.inr ⟨h1, h2⟩)

theorem faults_of_length (ids : List Int) : (faults_of ids).length = 2 * ids.length := by
  induction ids with
  | nil => rfl
  | cons id ids ih => simp only [faults_of, List.length_cons, ih]; omega

theorem faults_of_sorted {ids : List Int} (h : ids.Pairwise (fun a b => a < b)) :
    (faults_of ids).Pairwise fault_lt := by
  induction ids with
  | nil => exact List.Pairwise.nil
  | cons id ids ih =>
    rw [List.pairwise_cons] at h
    simp only [faults_of, List.pairwise_cons, List.mem_cons]
    refine ⟨?_, ?_, ih h.2⟩
    · rintro f (rfl | hf)
      · exact Or.inr ⟨rfl, show (0 : Int) < 1 by decide⟩
      · exact Or.inl (h.1 _ (mem_faults_of.1 hf).1)
    · intro f hf
      exact Or.inl (h.1 _ (mem_faults_of.1 hf).1)

theorem loop_ids_sorted (m : Int) : (loop_ids m).Pairwise (fun a b => a < b) := by
  unfold loop_ids
  rw [List.pairwise_map]
  exact (List.pairwise_lt_range _).imp (fun h => by omega)

theorem reg_faults_sorted (s : NodeSet) : (reg_faults s).Pairwise fault_lt :=
  faults_of_sorted ((loop_ids_sorted _).sublist (List.filter_sublist _))

theorem mem_reg_faults {s : NodeSet} {f : Int × Int} :
    f ∈ reg_faults s ↔ Registered s f.1 ∧ (f.2 = 0 ∨ f.2 = 1) := by
  unfold reg_faults
  rw [mem_faults_of, List.mem_filter, mem_loop_ids]
  unfold Registered max_id
  simp only [decide_eq_true_eq]
  constructor
  · rintro ⟨⟨⟨h1, h2⟩, h3⟩, h4⟩; exact ⟨⟨by omega, by omega, h3⟩, h4⟩
  · rintro ⟨⟨h1, h2, h3⟩, h4⟩; exact ⟨⟨⟨by omega, by omega⟩, h3⟩, h4⟩

theorem reg_faults_length (s : NodeSet) :
    ((reg_faults s).length : Int) = initial_faults s := by
  unfold reg_faults initial_faults
  rw [faults_of_length, line_count_eq]
  push_cast
  omega

theorem fault_lt_irrefl (f : Int × Int) : ¬ fault_lt f f := by
  unfold fault_lt; omega

theorem reg_faults_nodup (s : NodeSet) : (reg_faults s).Nodup := by
  have h := reg_faults_sorted s
  unfold List.Nodup
  refine h.imp ?_
  intro a b hab e
  rw [e] at hab
  exact fault_lt_irrefl _ hab

theorem reg_faults_inRange {s : NodeSet} {d : DSU} (hn : d.n = dsu_size s) :
    ∀ f ∈ reg_faults s, InRange d (fault_idx f.1 f.2) := by
  intro f hf
  rw [inRange_iff hn]
  exact registered_idx (mem_reg_faults.1 hf).1 _

theorem dsu_same_iff_root_of {d : DSU} (hd : WF d) {x y : Int} (hx : InRange d x)
    (hy : InRange d y) : dsu_same d x y = some true ↔ root_of d x = root_of d y := by
  rw [dsu_same_true_iff hd hx hy]
  have h1 := root_of_spec hd hx
  have h2 := root_of_spec hd hy
  constructor
  · rintro ⟨ρ, h3, h4⟩
    rw [h1.unique h3, h2.unique h4]
  · intro e
    exact ⟨_, h1, e ▸ h2⟩

theorem root_of_congr {d d' : DSU} (hd : WF d) (hd' : WF d') (hn : d'.n = d.n)
    (hk : ∀ y σ, RootOf d' y σ ↔ RootOf d y σ) {x : Int} (hx : InRange d x) :
    root_of d' x = root_of d x := by
  have hx' : InRange d' x := by unfold InRange at hx ⊢; rw [hn]; exact hx
  exact ((hk _ _).1 (root_of_spec hd' hx')).unique (root_of_spec hd hx)

theorem print_loop_spec {s : NodeSet} {d : DSU} (hd : WF d) (hn : d.n = dsu_size s) :
    ∃ d' mark', print_loop s (dsu_size s) (loop_ids (max_id s)) (d, fun _ => 0, []) =
        some (d', mark', firsts (fault_root d) (reg_faults s) []) ∧
      WF d' ∧ d'.n = dsu_size s ∧ ∀ y σ, RootOf d' y σ ↔ RootOf d y σ := by
  obtain ⟨d', mark', h1, h2⟩ := visit_all_spec hd hn (reg_faults s) d (fun _ => 0) [] []
    hd hn (fun _ _ => Iff.rfl) (reg_faults_inRange hn) (fun ρ => by simp)
  refine ⟨d', mark', ?_, h2⟩
  rw [print_loop_eq]
  simpa [reg_faults] using h1

theorem count_loop_spec {s : NodeSet} {d : DSU} (hd : WF d) (hn : d.n = dsu_size s) :
    ∃ d' mark', count_loop s (dsu_size s) (loop_ids (max_id s)) (d, fun _ => 0, 0) =
        some (d', mark', ((firsts (fault_root d) (reg_faults s) []).length : Int)) ∧
      WF d' ∧ d'.n = dsu_size s ∧ ∀ y σ, RootOf d' y σ ↔ RootOf d y σ := by
  obtain ⟨d', mark', h1, h2⟩ := visit_all_spec hd hn (reg_faults s) d (fun _ => 0) [] []
    hd hn (fun _ _ => Iff.rfl) (reg_faults_inRange hn) (fun ρ => by simp)
  refine ⟨d', mark', ?_, h2⟩
  have h3 : count_loop s (dsu_size s) (loop_ids (max_id s)) (d, fun _ => 0, 0) =
      (visit_all (dsu_size s) (reg_faults s) (d, fun _ => 0, [])).map
        (fun r => (r.1, r.2.1, 0 + (r.2.2.length : Int))) :=
    count_loop_eq s (dsu_size s) (loop_ids (max_id s)) d (fun _ => 0) 0 []
  rw [h3, h1]
  simp

/-- C4 (representative selection): for every registry and every classifier
reachable for its size, the second scan (started with zeroed marks) returns
and prints only faults of registered nets; every fault of a registered net has
a printed fault in its class, and that printed fault is the fault itself or
precedes it in the order "ascending net id, stuck-at-0 before stuck-at-1"; no
two printed faults share a class; and the printed list is in that ascending
order. -/
theorem representative_selection (s : NodeSet) (d : DSU) (hd : Reachable (dsu_size s) d) :
    ∃ d' mark' out,
      print_loop s (dsu_size s) (loop_ids (max_id s)) (d, fun _ => 0, []) =
        some (d', mark', out) ∧
      (∀ f ∈ out, Registered s f.1 ∧ (f.2 = 0 ∨ f.2 = 1)) ∧
      (∀ id sa, Registered s id → (sa = 0 ∨ sa = 1) →
        ∃ f ∈ out, dsu_same d (fault_idx f.1 f.2) (fault_idx id sa) = some true ∧
          (f = (id, sa) ∨ fault_lt f (id, sa))) ∧
      (∀ f ∈ out, ∀ g ∈ out,
        dsu_same d (fault_idx f.1 f.2) (fault_idx g.1 g.2) = some true → f = g) ∧
      out.Pairwise fault_lt := by
  obtain ⟨hw, hn⟩ := reachable_wf hd
  obtain ⟨d', mark', h1, -⟩ := print_loop_spec hw hn
  have hsub := firsts_sublist (fault_root d) (reg_faults s) []
  have hin := reg_faults_inRange hn
  refine ⟨d', mark', _, h1, ?_, ?_, ?_, (reg_faults_sorted s).sublist hsub⟩
  · intro f hf
    exact mem_reg_faults.1 (hsub.subset hf)
  · intro id sa hid hsa
    have hmem : (id, sa) ∈ reg_faults s := mem_reg_faults.2 ⟨hid, hsa⟩
    rcases firsts_cover (fault_root d) (reg_faults s) [] (id, sa) hmem with h | ⟨g, hg, hk⟩
    · simp at h
    · refine ⟨g, hg, ?_, ?_⟩
      · rw [dsu_same_iff_root_of hw (hin g (hsub.subset hg)) (hin _ hmem)]
        exact hk
      · exact firsts_least (fault_root d) fault_lt (reg_faults s) [] (reg_faults_sorted s)
          g hg (id, sa) hmem hk.symm
  · intro f hf g hg hsame
    rw [dsu_same_iff_root_of hw (hin f (hsub.subset hf)) (hin g (hsub.subset hg))] at hsame
    exact List.inj_on_of_nodup_map (firsts_keys_nodup (fault_root d) (reg_faults s) [])
      hf hg hsame

theorem rule_loop_reachable (gs : List Gate) (n : Nat) (d : DSU)
    (h : rule_loop gs (dsu_init n) = some d) : Reachable n d := by
  rw [rule_loop_eq] at h
  have key : ∀ (us : List (Int × Int)) (d0 d1 : DSU), Reachable n d0 →
      union_all d0 us = some d1 → Reachable n d1 := by
    intro us
    induction us with
    | nil =>
      intro d0 d1 h0 h1
      simp only [union_all, Option.some.injEq] at h1
      rw [← h1]; exact h0
    | cons ab us ih =>
      intro d0 d1 h0 h1
      unfold union_all at h1
      split at h1
      · simp at h1
      · rename_i d2 hu
        have hr := dsu_union_inRange hu
        exact ih d2 d1 (Reachable.union d0 d2 ab.1 ab.2 h0 hr.1 hr.2 hu) h1
  exact key _ _ _ Reachable.init h

set_option maxRecDepth 1000000 in
/-- For `INPUT 1 2` / `AND 3 1 2` / `OUTPUT 3` the printed list is
`sa0_1, sa1_1, sa1_2, sa0_3, sa1_3`: exactly one of `sa0_1`, `sa0_2`. -/
theorem representative_selection_witness :
    ∃ d, rule_loop [⟨GType.G_AND, 3, 1, 2⟩] (dsu_init (dsu_size (registry_of [1, 2, 3]))) =
        some d ∧
      ∃ d' mark', print_loop (registry_of [1, 2, 3]) (dsu_size (registry_of [1, 2, 3]))
          (loop_ids (max_id (registry_of [1, 2, 3]))) (d, fun _ => 0, []) =
        some (d', mark', [(1, 0), (1, 1), (2, 1), (3, 0), (3, 1)]) := by
  refine ⟨_, rfl, ?_⟩
  obtain ⟨d', mark', out, h1, -⟩ := representative_selection (registry_of [1, 2, 3]) _
    (rule_loop_reachable [⟨GType.G_AND, 3, 1, 2⟩] _ _ rfl)
  refine ⟨d', mark', ?_⟩
  have h2 := congrArg (Option.map (fun r => r.2.2)) h1
  have h3 : out = [(1, 0), (1, 1), (2, 1), (3, 0), (3, 1)] :=
    (Option.some.inj h2).symm.trans (by decide)
  rw [← h3]
  exact h1

/-! ## The parsing pass and `main` of `FEC.c` -/

theorem registered_mono {s s' : NodeSet} (hc : s.cap ≤ s'.cap)
    (hb : ∀ j, s.bits j ≠ 0 → s'.bits j ≠ 0) {t : Int} (h : Registered s t) :
    Registered s' t := by
  obtain ⟨h1, h2, h3⟩ := h
  exact ⟨h1, by omega, hb t h3⟩

theorem gatesOk_mono {s s' : NodeSet} (hc : s.cap ≤ s'.cap)
    (hb : ∀ j, s.bits j ≠ 0 → s'.bits j ≠ 0) {gs : List Gate} (h : GatesOk s gs) :
    GatesOk s' gs := by
  intro g hg
  obtain ⟨h1, h2, h3⟩ := h g hg
  exact ⟨fun hp => registered_mono hc hb (h1 hp), fun hp => registered_mono hc hb (h2 hp),
    fun hp => registered_mono hc hb (h3 hp)⟩

theorem fec_line_spec {st : ParseState} (hn : NsInv st.nodes) (hg : GatesOk st.nodes st.gates)
    (ln : Line) :
    ∃ st', fec_line st ln = some st' ∧ NsInv st'.nodes ∧ GatesOk st'.nodes st'.gates := by
  cases ln with
  | blank => exact ⟨_, rfl, hn, hg⟩
  | decl k toks =>
    obtain ⟨ns, h1, h2, h3, h4⟩ := ns_add_all_spec (toks.filterMap id) st.nodes hn
    refine ⟨{ st with nodes := ns, lineno := st.lineno + 1 }, ?_, h2, ?_⟩
    · simp [fec_line, h1]
    · exact gatesOk_mono h3 (fun j hj => (h4 j).2 (Or.inl hj)) hg
  | word t toks =>
    by_cases ht : t ≠ GType.G_UNKNOWN
    · have malformed : ∀ st' : ParseState, st'.nodes = st.nodes → st'.gates = st.gates →
          NsInv st'.nodes ∧ GatesOk st'.nodes st'.gates := by
        intro st' e1 e2; rw [e1, e2]; exact ⟨hn, hg⟩
      unfold fec_line
      simp only [ht, if_true, ne_eq, not_false_eq_true]
      split
      · rename_i o i1 i2 rest
        obtain ⟨ns, h1, h2, h3, h4⟩ := ns_add_all_spec [o, i1, i2] st.nodes hn
        rw [h1]
        refine ⟨_, rfl, h2, ?_⟩
        intro g hgm
        rcases List.mem_append.1 hgm with hgm | hgm
        · exact gatesOk_mono h3 (fun j hj => (h4 j).2 (Or.inl hj)) hg g hgm
        · rw [List.mem_singleton] at hgm
          subst hgm
          have hreg : ∀ j, j ∈ [o, i1, i2] → 0 < j → Registered ns j := by
            intro j hj hp
            have hb := (h4 j).2 (Or.inr ⟨hp, hj⟩)
            have := h2.2 j hb
            exact ⟨hp, this.2, hb⟩
          exact ⟨hreg o (by simp), hreg i1 (by simp), hreg i2 (by simp)⟩
      · exact ⟨_, rfl, malformed _ rfl rfl⟩
    · refine ⟨{ st with lineno := st.lineno + 1 }, ?_, hn, hg⟩
      simp [fec_line, ht]

theorem fec_lines_spec : ∀ (lns : List Line) (st : ParseState), NsInv st.nodes →
    GatesOk st.nodes st.gates →
    ∃ st', fec_lines lns st = some st' ∧ NsInv st'.nodes ∧ GatesOk st'.nodes st'.gates := by
  intro lns
  induction lns with
  | nil => intro st hn hg; exact ⟨st, rfl, hn, hg⟩
  | cons ln lns ih =>
    intro st hn hg
    obtain ⟨st1, h1, h2, h3⟩ := fec_line_spec hn hg ln
    obtain ⟨st', h4, h5⟩ := ih st1 h2 h3
    exact ⟨st', by simp [fec_lines, h1, h4], h5⟩

/-- The parsing pass always completes; every positive gate terminal it stored
is registered. -/
theorem fec_parse_spec (lns : List Line) :
    ∃ st, fec_parse lns = some st ∧ NsInv st.nodes ∧ GatesOk st.nodes st.gates :=
  fec_lines_spec lns _ (ns_init_inv 1024) (fun _ h => absurd h (List.not_mem_nil _))

theorem all_unions_inRange_ok {s : NodeSet} {gs : List Gate} (h : GatesOk s gs)
    (hb : NoBadInverter gs) : ∀ ab ∈ all_unions gs,
      InRange (dsu_init (dsu_size s)) ab.1 ∧ InRange (dsu_init (dsu_size s)) ab.2 := by
  rintro ⟨x, y⟩ hab
  obtain ⟨g, hg, hxy⟩ := mem_all_unions.1 hab
  obtain ⟨ho, h1, h2⟩ := h g hg
  have hbg := hb g hg
  unfold gate_unions at hxy
  rw [List.mem_append] at hxy
  rcases hxy with hxy | hxy
  · split at hxy
    · split at hxy
      · rename_i hp
        simp only [List.mem_singleton, Prod.mk.injEq] at hxy
        rw [hxy.1, hxy.2]
        exact ⟨registered_idx (h1 hp.1) _, registered_idx (h2 hp.2) _⟩
      · simp at hxy
    · split at hxy
      · split at hxy
        · rename_i hp
          simp only [List.mem_singleton, Prod.mk.injEq] at hxy
          rw [hxy.1, hxy.2]
          exact ⟨registered_idx (h1 hp.1) _, registered_idx (h2 hp.2) _⟩
        · simp at hxy
      · simp at hxy
  · split at hxy
    · rename_i hc
      have hout := ho (hbg hc.1 hc.2.1 hc.2.2)
      simp only [List.mem_cons, Prod.mk.injEq, List.mem_singleton, List.not_mem_nil,
        or_false] at hxy
      rcases hxy with ⟨e1, e2⟩ | ⟨e1, e2⟩
      · rw [e1, e2]
        exact ⟨registered_idx (h1 hc.2.2) _, registered_idx hout _⟩
      · rw [e1, e2]
        exact ⟨registered_idx (h1 hc.2.2) _, registered_idx hout _⟩
    · simp at hxy

theorem rule_loop_total_ok {s : NodeSet} {gs : List Gate} (h : GatesOk s gs)
    (hb : NoBadInverter gs) : ∃ d, rule_loop gs (dsu_init (dsu_size s)) = some d := by
  obtain ⟨d, hd, _⟩ :=
    union_all_spec (all_unions gs) _ (dsu_init_wf _) (all_unions_inRange_ok h hb)
  exact ⟨d, by rw [rule_loop_eq]; exact hd⟩

theorem fault_root_congr {s : NodeSet} {d d' : DSU} (hd : WF d) (hd' : WF d')
    (hn : d.n = dsu_size s) (hn' : d'.n = dsu_size s)
    (hk : ∀ y σ, RootOf d' y σ ↔ RootOf d y σ) :
    ∀ f ∈ reg_faults s, fault_root d' f = fault_root d f := by
  intro f hf
  exact root_of_congr hd hd' (hn'.trans hn.symm) hk (reg_faults_inRange hn f hf)

/-- What `fec_report` returns, given the classifier left by the rule loop. -/
theorem fec_report_of_rules {st : ParseState} {d : DSU}
    (hd : rule_loop st.gates (dsu_init (dsu_size st.nodes)) = some d) :
    fec_report st = some
      { nodes := st.nodes, gates := st.gates, diag := st.diag, dsu := d,
        initial_faults := initial_faults st.nodes,
        kept := ((firsts (fault_root d) (reg_faults st.nodes) []).length : Int),
        printed := firsts (fault_root d) (reg_faults st.nodes) [] } := by
  obtain ⟨hw, hn, -⟩ := rule_loop_init hd
  obtain ⟨d1, mark1, h1, hw1, hn1, hk1⟩ := count_loop_spec hw hn
  obtain ⟨d2, mark2, h2, -⟩ := print_loop_spec hw1 hn1
  rw [firsts_congr _ _ (fault_root_congr hw hw1 hn hn1 hk1)] at h2
  unfold fec_report
  simp only [hd, h1, h2]

theorem fec_report_none {st : ParseState}
    (hd : rule_loop st.gates (dsu_init (dsu_size st.nodes)) = none) :
    fec_report st = none := by
  unfold fec_report
  simp only [hd]

theorem fec_main_spec {lns : List Line} {r : Report} (h : fec_main lns = some r) :
    ∃ st, fec_parse lns = some st ∧ NsInv st.nodes ∧ GatesOk st.nodes st.gates ∧
      rule_loop st.gates (dsu_init (dsu_size st.nodes)) = some r.dsu ∧
      r.nodes = st.nodes ∧ r.gates = st.gates ∧
      r.initial_faults = initial_faults st.nodes ∧
      r.kept = ((firsts (fault_root r.dsu) (reg_faults st.nodes) []).length : Int) ∧
      r.printed = firsts (fault_root r.dsu) (reg_faults st.nodes) [] := by
  obtain ⟨st, h1, h2, h3⟩ := fec_parse_spec lns
  unfold fec_main at h
  rw [h1] at h
  simp only at h
  cases hd : rule_loop st.gates (dsu_init (dsu_size st.nodes)) with
  | none => rw [fec_report_none hd] at h; simp at h
  | some d =>
    rw [fec_report_of_rules hd] at h
    simp only [Option.some.injEq] at h
    subst h
    exact ⟨st, h1, h2, h3, hd, rfl, rfl, rfl, rfl, rfl⟩

theorem fec_main_total {lns : List Line} {st : ParseState} (hp : fec_parse lns = some st)
    (hb : NoBadInverter st.gates) : ∃ r, fec_main lns = some r := by
  obtain ⟨st', h1, -, h3⟩ := fec_parse_spec lns
  rw [hp] at h1
  simp only [Option.some.injEq] at h1
  subst h1
  obtain ⟨d, hd⟩ := rule_loop_total_ok h3 hb
  have h4 := fec_report_of_rules hd
  have h5 : fec_main lns = fec_report st := by unfold fec_main; rw [hp]
  exact ⟨_, h5.trans h4⟩

theorem noBadInverter_of_main {lns : List Line} {st : ParseState} {r : Report}
    (hp : fec_parse lns = some st) (hr : fec_main lns = some r) : NoBadInverter st.gates := by
  obtain ⟨st', h3, -, -, hd, -⟩ := fec_main_spec hr
  rw [hp] at h3
  simp only [Option.some.injEq] at h3
  subst h3
  obtain ⟨-, -, hin, -⟩ := rule_loop_init hd
  intro g hg ht h12 hpos
  have hmem : (fault_idx g.in1 0, fault_idx g.out 1) ∈ all_unions st.gates := by
    rw [mem_all_unions]
    refine ⟨g, hg, ?_⟩
    unfold gate_unions
    rw [List.mem_append]
    right
    rw [if_pos (⟨ht, h12, hpos⟩ : g.t = GType.G_NAND ∧ g.in1 = g.in2 ∧ g.in1 > 0)]
    exact List.mem_cons_self _ _
  have h := (hin _ hmem).2.1
  rw [fault_idx_one] at h
  simp only at h
  omega

/-- C5 (representative count): the parsing pass always completes, and `main`
returns exactly when no NAND gate with tied positive inputs has an output
`≤ 0`; on every run that returns, `kept` equals the number of distinct `dsu_find`
roots among the faults of the registered nets, equals the number of printed
representatives, is at most `initial_faults = 2 × line_count`, and is at
least 1 when a net is registered. -/
theorem representative_count (lns : List Line) :
    (∃ st, fec_parse lns = some st ∧
      (NoBadInverter st.gates ↔ ∃ r, fec_main lns = some r)) ∧
    ∀ r, fec_main lns = some r →
      r.kept = ((((reg_faults r.nodes).map (fault_root r.dsu)).dedup.length : Nat) : Int) ∧
      r.kept = (r.printed.length : Int) ∧
      r.initial_faults = 2 * line_count r.nodes ∧
      r.kept ≤ r.initial_faults ∧
      ((∃ id, Registered r.nodes id) → 1 ≤ r.kept) := by
  constructor
  · obtain ⟨st, h1, -⟩ := fec_parse_spec lns
    exact ⟨st, h1, fun hb => fec_main_total h1 hb,
      fun ⟨_, hr⟩ => noBadInverter_of_main h1 hr⟩
  · intro r hr
    obtain ⟨st, -, -, -, -, h5, -, h7, h8, h9⟩ := fec_main_spec hr
    have hk : r.kept =
        ((((reg_faults r.nodes).map (fault_root r.dsu)).dedup.length : Nat) : Int) := by
      rw [h8, h5, firsts_length]
    have hle : (((reg_faults r.nodes).map (fault_root r.dsu)).dedup.length : Int) ≤
        r.initial_faults := by
      rw [h7, ← h5, ← reg_faults_length]
      have := (List.dedup_sublist ((reg_faults r.nodes).map (fault_root r.dsu))).length_le
      rw [List.length_map] at this
      exact_mod_cast this
    refine ⟨hk, by rw [h8, h9], ?_, by rw [hk]; exact hle, ?_⟩
    · rw [h7, h5]; unfold initial_faults; omega
    · rintro ⟨id, hid⟩
      rw [hk]
      have hmem : (id, (0 : Int)) ∈ reg_faults r.nodes := mem_reg_faults.2 ⟨hid, Or.inl rfl⟩
      have hmem2 : fault_root r.dsu (id, 0) ∈
          ((reg_faults r.nodes).map (fault_root r.dsu)).dedup :=
        List.mem_dedup.2 (List.mem_map.2 ⟨_, hmem, rfl⟩)
      have := List.length_pos_of_mem hmem2
      omega

set_option maxRecDepth 1000000 in
/-- `INPUT 1 2` / `AND 3 1 2` / `OUTPUT 3` gives `initial_faults = 6` and
`kept = 5`, with five printed representatives. -/
theorem representative_count_witness :
    ∃ r, fec_main netlist_and = some r ∧ r.initial_faults = 6 ∧ r.kept = 5 ∧
      r.printed.length = 5 := by
  obtain ⟨⟨st, h1, h2⟩, h3⟩ := representative_count netlist_and
  have hst : fec_parse netlist_and = some st → NoBadInverter st.gates := by
    intro h
    have e : (fec_parse netlist_and).map (fun st => st.gates) =
        some [⟨GType.G_AND, 3, 1, 2⟩] := by decide
    rw [h] at e
    have e2 : st.gates = [⟨GType.G_AND, 3, 1, 2⟩] := Option.some.inj e
    rw [e2]
    decide
  obtain ⟨r, hr⟩ := h2.1 (hst h1)
  obtain ⟨-, h5, -⟩ := h3 r hr
  have e : (fec_main netlist_and).map (fun r => (r.initial_faults, r.kept)) =
      some (6, 5) := by decide
  rw [hr] at e
  have e2 : (r.initial_faults, r.kept) = (6, 5) := Option.some.inj e
  have e3 : r.initial_faults = 6 := congrArg Prod.fst e2
  have e4 : r.kept = 5 := congrArg Prod.snd e2
  refine ⟨r, hr, e3, e4, ?_⟩
  rw [e4] at h5
  exact_mod_cast h5.symm

/-- C6 (strict collapse): when the gate list built from the netlist contains an
AND, OR, NAND or NOR gate with two distinct positive input nets, every run of
`main` that returns has `kept < initial_faults`; and `main` returns whenever no
NAND gate with tied positive inputs has an output `≤ 0`. -/
theorem strict_collapse (lns : List Line) (st : ParseState) (hp : fec_parse lns = some st)
    (g : Gate) (hg : g ∈ st.gates)
    (ht : g.t = GType.G_AND ∨ g.t = GType.G_OR ∨ g.t = GType.G_NAND ∨ g.t = GType.G_NOR)
    (h1 : 0 < g.in1) (h2 : 0 < g.in2) (hne : g.in1 ≠ g.in2) :
    (NoBadInverter st.gates → ∃ r, fec_main lns = some r) ∧
    ∀ r, fec_main lns = some r → r.kept < r.initial_faults := by
  refine ⟨fun hb => fec_main_total hp hb, ?_⟩
  intro r hr
  obtain ⟨st', h3, -, hok, hd, -, -, h7, h8, -⟩ := fec_main_spec hr
  rw [hp] at h3
  simp only [Option.some.injEq] at h3
  subst h3
  obtain ⟨hw, hn, -⟩ := rule_loop_init hd
  obtain ⟨-, hr1, hr2⟩ := hok g hg
  -- the polarity united by the symmetry rule for this gate
  obtain ⟨sa, hsa, hsame⟩ : ∃ sa : Int, (sa = 0 ∨ sa = 1) ∧
      dsu_same r.dsu (fault_idx g.in1 sa) (fault_idx g.in2 sa) = some true := by
    have hp' : g.in1 > 0 ∧ g.in2 > 0 := ⟨h1, h2⟩
    rcases ht with ht | ht | ht | ht
    · refine ⟨0, Or.inl rfl, rule_loop_same_of_mem hd hg ?_⟩
      unfold gate_unions; simp [ht, hp']
    · refine ⟨1, Or.inr rfl, rule_loop_same_of_mem hd hg ?_⟩
      unfold gate_unions; simp [ht, hp']
    · refine ⟨0, Or.inl rfl, rule_loop_same_of_mem hd hg ?_⟩
      unfold gate_unions; simp [ht, hp']
    · refine ⟨1, Or.inr rfl, rule_loop_same_of_mem hd hg ?_⟩
      unfold gate_unions; simp [ht, hp']
  have hm1 : (g.in1, sa) ∈ reg_faults st.nodes := mem_reg_faults.2 ⟨hr1 h1, hsa⟩
  have hm2 : (g.in2, sa) ∈ reg_faults st.nodes := mem_reg_faults.2 ⟨hr2 h2, hsa⟩
  have hin := reg_faults_inRange (s := st.nodes) hn
  rw [dsu_same_iff_root_of hw (hin _ hm1) (hin _ hm2)] at hsame
  have hnd : ¬ ((reg_faults st.nodes).map (fault_root r.dsu)).Nodup := by
    intro hnd
    have := List.inj_on_of_nodup_map hnd hm1 hm2 hsame
    exact hne (congrArg Prod.fst this)
  have hlt : ((reg_faults st.nodes).map (fault_root r.dsu)).dedup.length <
      ((reg_faults st.nodes).map (fault_root r.dsu)).length := by
    have hsub := List.dedup_sublist ((reg_faults st.nodes).map (fault_root r.dsu))
    rcases Nat.lt_or_ge ((reg_faults st.nodes).map (fault_root r.dsu)).dedup.length
        ((reg_faults st.nodes).map (fault_root r.dsu)).length with h | h
    · exact h
    · exfalso
      apply hnd
      have e := hsub.eq_of_length_le h
      rw [← e]
      exact List.nodup_dedup _
  rw [h8, h7, firsts_length, ← reg_faults_length]
  rw [List.length_map] at hlt
  exact_mod_cast hlt

set_option maxRecDepth 1000000 in
/-- `INPUT 1 2` / `AND 3 1 2` / `OUTPUT 3`: the AND gate has distinct inputs and
`kept = 5 < 6 = initial_faults`. -/
theorem strict_collapse_witness :
    ∃ r, fec_main netlist_and = some r ∧ r.kept < r.initial_faults := by
  have h := strict_collapse netlist_and _ rfl ⟨GType.G_AND, 3, 1, 2⟩
    (List.mem_singleton.2 rfl) (Or.inl rfl) (by decide) (by decide) (by decide)
  obtain ⟨r, hr⟩ := h.1 (by decide)
  exact ⟨r, hr, h.2 r hr⟩

/-! ## Termination of `dsu_find` and order independence -/

theorem OnPath.rank_mono {d : DSU} (hd : WF d) {x y : Int} (h : OnPath d x y)
    (hx : InRange d x) : InRange d y ∧ d.r x ≤ d.r y := by
  induction h with
  | here x => exact ⟨hx, le_refl _⟩
  | up x y hne _ ih =>
    obtain ⟨h1, h2⟩ := ih (hd.parent_in x hx)
    have := hd.rank_lt x hx hne
    exact ⟨h1, by omega⟩

/-- C20 (`dsu_find` terminates): in every state reachable from `dsu_init(n)` by
in-range `dsu_find` / `dsu_union` calls, every parent is in `[0, n)`, the rank
of every non-root is strictly below the rank of its parent, no parent chain
leads back to its start, and for every `x` in `[0, n)` the recursion of
`dsu_find` reaches a root within at most `n` nested calls, so `dsu_find(x)`
returns. -/
theorem dsu_find_terminates (n : Nat) (d : DSU) (hd : Reachable n d) :
    (∀ x, (0 ≤ x ∧ x < (n : Int)) →
      (0 ≤ d.p x ∧ d.p x < (n : Int)) ∧ (d.p x ≠ x → d.r x < d.r (d.p x))) ∧
    (∀ x, (0 ≤ x ∧ x < (n : Int)) → d.p x ≠ x → ¬ OnPath d (d.p x) x) ∧
    (∀ x, (0 ≤ x ∧ x < (n : Int)) →
      ∃ k ρ d', k ≤ n ∧ dsu_find_fuel k d x = some (ρ, d') ∧ d.p ρ = ρ ∧
        ∃ d'', dsu_find d x = some (ρ, d'')) := by
  obtain ⟨hw, hn⟩ := reachable_wf hd
  refine ⟨?_, ?_, ?_⟩
  · intro x hx
    have hx' := (inRange_iff hn x).2 hx
    exact ⟨(inRange_iff hn _).1 (hw.parent_in x hx'), hw.rank_lt x hx'⟩
  · intro x hx hne hp
    have hx' := (inRange_iff hn x).2 hx
    have h1 := hw.rank_lt x hx' hne
    have h2 := (OnPath.rank_mono hw hp (hw.parent_in x hx')).2
    omega
  · intro x hx
    have hx' := (inRange_iff hn x).2 hx
    obtain ⟨⟨ρ, d'⟩, hk⟩ := dsu_find_fuel_total d hw (above d x) x hx' (le_refl _)
    have hlt := above_lt_n d x hx'
    have hρ := (dsu_find_fuel_spec _ d x ρ d' hk).1
    obtain ⟨σ, d'', hf, hσ, -⟩ := dsu_find_spec hw hx'
    have e : σ = ρ := hσ.unique hρ
    subst e
    exact ⟨above d x + 1, σ, d', by omega, hk, hρ.is_root, d'', hf⟩

/-- After `dsu_union(0, 1)` and `dsu_union(1, 2)` on a fresh classifier of size
4, `dsu_find(2)` returns the root `0`. -/
theorem dsu_find_terminates_witness :
    ∃ d, union_all (dsu_init 4) [(0, 1), (1, 2)] = some d ∧
      ∃ d', dsu_find d 2 = some (0, d') := by
  refine ⟨_, rfl, ?_⟩
  have hr : Reachable 4 _ :=
    Reachable.union _ _ 1 2
      (Reachable.union (dsu_init 4) _ 0 1 Reachable.init (by decide) (by decide) rfl)
      (by decide) (by decide) rfl
  obtain ⟨-, -, h3⟩ := dsu_find_terminates 4 _ hr
  obtain ⟨k, ρ, d', -, -, -, d'', h4⟩ := h3 2 (by decide)
  have e : ρ = 0 := by
    have h := congrArg (Option.map Prod.fst) h4
    exact (Option.some.inj h).symm
  subst e
  exact ⟨d'', h4⟩

/-- C11 (order independence of collapsing): for every gate list `L` with
registered terminals and every permutation `L'` of `L`, the rule loop over `L`
and over `L'`, each from a fresh classifier of the same size, completes, and
both results answer every class test `dsu_find(x) == dsu_find(y)` alike. -/
theorem collapsing_order_independent (s : NodeSet) (gs gs' : List Gate)
    (hperm : gs.Perm gs') (hreg : GatesRegistered s gs) :
    ∃ d d', rule_loop gs (dsu_init (dsu_size s)) = some d ∧
      rule_loop gs' (dsu_init (dsu_size s)) = some d' ∧
      ∀ x y, dsu_same d' x y = dsu_same d x y := by
  have hreg' : GatesRegistered s gs' := fun g hg => hreg g (hperm.mem_iff.2 hg)
  obtain ⟨d, h1⟩ := rule_loop_total hreg
  obtain ⟨d', h2⟩ := rule_loop_total hreg'
  refine ⟨d, d', h1, h2, fun x y => ?_⟩
  apply rule_loop_same_classes h1 h2
  intro ab
  rw [mem_all_unions, mem_all_unions]
  simp only [hperm.mem_iff]

/-- The gates `AND 5 1 2`, `AND 6 2 3` in either order put `sa0_1` and `sa0_3`
in one class, although the class root is index 0 in one order and index 2 in
the other. -/
theorem collapsing_order_independent_witness :
    ∃ d d', rule_loop [⟨GType.G_AND, 5, 1, 2⟩, ⟨GType.G_AND, 6, 2, 3⟩]
        (dsu_init (dsu_size (registry_of [5, 1, 2, 6, 3]))) = some d ∧
      rule_loop [⟨GType.G_AND, 6, 2, 3⟩, ⟨GType.G_AND, 5, 1, 2⟩]
        (dsu_init (dsu_size (registry_of [5, 1, 2, 6, 3]))) = some d' ∧
      dsu_same d' 0 4 = dsu_same d 0 4 ∧ dsu_same d 0 4 = some true ∧
      root_of d 0 = 0 ∧ root_of d' 0 = 2 := by
  obtain ⟨d, d', h1, h2, h3⟩ := collapsing_order_independent (registry_of [5, 1, 2, 6, 3])
    [⟨GType.G_AND, 5, 1, 2⟩, ⟨GType.G_AND, 6, 2, 3⟩]
    [⟨GType.G_AND, 6, 2, 3⟩, ⟨GType.G_AND, 5, 1, 2⟩] (List.Perm.swap _ _ _) (by decide)
  have e1 : (rule_loop [⟨GType.G_AND, 5, 1, 2⟩, ⟨GType.G_AND, 6, 2, 3⟩]
      (dsu_init (dsu_size (registry_of [5, 1, 2, 6, 3])))).map
        (fun d => (dsu_same d 0 4, root_of d 0)) = some (some true, 0) := by decide
  have e2 : (rule_loop [⟨GType.G_AND, 6, 2, 3⟩, ⟨GType.G_AND, 5, 1, 2⟩]
      (dsu_init (dsu_size (registry_of [5, 1, 2, 6, 3])))).map
        (fun d => root_of d 0) = some 2 := by decide
  rw [h1] at e1
  rw [h2] at e2
  have e3 : (dsu_same d 0 4, root_of d 0) = (some true, 0) := Option.some.inj e1
  exact ⟨d, d', h1, h2, h3 0 4, congrArg Prod.fst e3, congrArg Prod.snd e3,
    Option.some.inj e2⟩

/-! ## The registry contract and the classifier capacity -/

theorem ns_double_shape (need : Nat) : ∀ (fuel nc nc' : Nat), ns_double fuel nc need = some nc' →
    (∃ k, nc' = nc * 2 ^ k) ∧ (nc' = nc ∨ nc' ≤ 2 * need) := by
  intro fuel
  induction fuel with
  | zero => intro nc nc' h; simp [ns_double] at h
  | succ f ih =>
    intro nc nc' h
    unfold ns_double at h
    by_cases hle : nc ≤ need
    · rw [if_pos hle] at h
      obtain ⟨⟨k, hk⟩, h2⟩ := ih (nc * 2) nc' h
      refine ⟨⟨k + 1, by rw [hk, pow_succ]; ring⟩, Or.inr ?_⟩
      rcases h2 with h2 | h2
      · omega
      · exact h2
    · rw [if_neg hle] at h
      simp only [Option.some.injEq] at h
      exact ⟨⟨0, by simp [h]⟩, Or.inl h.symm⟩

/-- What `ns_add` does to an arbitrary non-empty registry for `id > 0`. -/
theorem ns_add_raw {s : NodeSet} (hs : 0 < s.cap) {id : Int} (hid : 0 < id) :
    ∃ s', ns_add s id = some s' ∧ id + 1 < (s'.cap : Int) ∧ s.cap ≤ s'.cap ∧
      (∃ k, s'.cap = s.cap * 2 ^ k) ∧ (s'.cap = s.cap ∨ (s'.cap : Int) ≤ 2 * (id + 1)) ∧
      ∀ j, s'.bits j =
        if j = id then 1 else if (s.cap : Int) ≤ j ∧ j < (s'.cap : Int) then 0 else s.bits j := by
  unfold ns_add
  rw [if_neg (by omega)]
  obtain ⟨s1, h1, h2, h3, h4⟩ := ns_ensure_spec hs (id.toNat + 1)
  have hshape : (∃ k, s1.cap = s.cap * 2 ^ k) ∧
      (s1.cap = s.cap ∨ s1.cap ≤ 2 * (id.toNat + 1)) := by
    unfold ns_ensure at h1
    by_cases hlt : id.toNat + 1 < s.cap
    · rw [if_pos hlt] at h1
      simp only [Option.some.injEq] at h1
      rw [← h1]
      exact ⟨⟨0, by simp⟩, Or.inl rfl⟩
    · rw [if_neg hlt] at h1
      split at h1
      · simp at h1
      · rename_i nc hnc
        simp only [Option.some.injEq] at h1
        rw [← h1]
        exact ns_double_shape _ _ _ _ hnc
  rw [h1]
  refine ⟨_, rfl, by show id + 1 < (s1.cap : Int); omega, h3, hshape.1, ?_, ?_⟩
  · show s1.cap = s.cap ∨ (s1.cap : Int) ≤ 2 * (id + 1)
    rcases hshape.2 with h | h
    · exact Or.inl h
    · right; omega
  · intro j
    show upd s1.bits id 1 j = _
    by_cases hj : j = id
    · rw [hj, upd_same, if_pos rfl]
    · rw [upd_other _ _ _ _ hj, if_neg hj, h4]

theorem ns_add_all_cap_pos (init : Nat) (ids : List Int) :
    ∃ s, ns_add_all (ns_init init) ids = some s ∧ NsInv s ∧
      ∀ j, s.bits j = 0 ∨ s.bits j = 1 := by
  have key : ∀ (ids : List Int) (s : NodeSet), NsInv s → (∀ j, s.bits j = 0 ∨ s.bits j = 1) →
      ∃ s', ns_add_all s ids = some s' ∧ NsInv s' ∧ ∀ j, s'.bits j = 0 ∨ s'.bits j = 1 := by
    intro ids
    induction ids with
    | nil => intro s hs hb; exact ⟨s, rfl, hs, hb⟩
    | cons id ids ih =>
      intro s hs hb
      obtain ⟨s1, h1, h2, -⟩ := ns_add_spec hs id
      have hb1 : ∀ j, s1.bits j = 0 ∨ s1.bits j = 1 := by
        by_cases hid : 0 < id
        · obtain ⟨s1', h1', -, -, -, -, h6⟩ := ns_add_raw hs.1 hid
          rw [h1] at h1'
          simp only [Option.some.injEq] at h1'
          subst h1'
          intro j
          rw [h6]
          split
          · exact Or.inr rfl
          · split
            · exact Or.inl rfl
            · exact hb j
        · have : ns_add s id = some s := by unfold ns_add; rw [if_pos (by omega)]
          rw [h1] at this
          simp only [Option.some.injEq] at this
          rw [this]; exact hb
      obtain ⟨s', h3, h4⟩ := ih s1 h2 hb1
      exact ⟨s', by simp [ns_add_all, h1, h3], h4⟩
  exact key ids _ (ns_init_inv init) (fun _ => Or.inl rfl)

/-- C16 (net registry register/exists contract): on a non-empty registry,
`ns_add(s, id)` with `id ≤ 0` changes nothing; with `id > 0` it returns with
`id < cap` and `bits[id] = 1`, every old slot other than `id` unchanged and
every new slot other than `id` zero (the capacity only grows, by doubling),
and adding `id` again changes nothing. After `ns_init` and any sequence of
`ns_add` calls, for every slot `j < cap`, `bits[j] = 1` iff `j > 0` and `j` was
added. -/
theorem ns_add_contract (s : NodeSet) (hs : 0 < s.cap) (id : Int) :
    (id ≤ 0 → ns_add s id = some s) ∧
    (0 < id → ∃ s', ns_add s id = some s' ∧ id < (s'.cap : Int) ∧ s'.bits id = 1 ∧
      s.cap ≤ s'.cap ∧ (∃ k, s'.cap = s.cap * 2 ^ k) ∧
      (∀ j, (0 ≤ j ∧ j < (s.cap : Int)) → j ≠ id → s'.bits j = s.bits j) ∧
      (∀ j, ((s.cap : Int) ≤ j ∧ j < (s'.cap : Int)) → j ≠ id → s'.bits j = 0) ∧
      ns_add s' id = some s') ∧
    (∀ (init : Nat) (ids : List Int), ∃ t, ns_add_all (ns_init init) ids = some t ∧
      2 ≤ t.cap ∧
      ∀ j, (0 ≤ j ∧ j < (t.cap : Int)) → (t.bits j = 1 ↔ (0 < j ∧ j ∈ ids))) := by
  refine ⟨?_, ?_, ?_⟩
  · intro h
    unfold ns_add
    rw [if_pos h]
  · intro hid
    obtain ⟨s', h1, h2, h3, h4, -, h6⟩ := ns_add_raw hs hid
    refine ⟨s', h1, by omega, by rw [h6, if_pos rfl], h3, h4, ?_, ?_, ?_⟩
    · intro j hj hne
      rw [h6, if_neg hne, if_neg]
      omega
    · intro j hj hne
      rw [h6, if_neg hne, if_pos hj]
    · obtain ⟨s'', h7, -, -, -, h10, h11⟩ := ns_add_raw (s := s') (by omega) hid
      rw [h7]
      have hcap : s''.cap = s'.cap := by
        rcases h10 with h | h
        · exact h
        · have : ns_add s' id = some { s' with bits := upd s'.bits id 1 } := by
            unfold ns_add ns_ensure
            rw [if_neg (by omega), if_pos (by omega)]
          rw [h7] at this
          simp only [Option.some.injEq] at this
          rw [this]
      have hbits : s''.bits = s'.bits := by
        funext j
        rw [h11]
        by_cases hj : j = id
        · rw [if_pos hj, hj, h6, if_pos rfl]
        · rw [if_neg hj, if_neg]
          rw [hcap]; omega
      cases s''
      cases s'
      simp only at hcap hbits
      rw [hcap, hbits]
  · intro init ids
    obtain ⟨t, h1, h2, h3⟩ := ns_add_all_cap_pos init ids
    obtain ⟨t', h1', -, h4, h5⟩ := ns_add_all_spec ids _ (ns_init_inv init)
    rw [h1] at h1'
    simp only [Option.some.injEq] at h1'
    subst h1'
    refine ⟨t, h1, ?_, ?_⟩
    · have : 2 ≤ (ns_init init).cap := by
        show 2 ≤ (if init < 2 then 2 else init)
        split <;> omega
      omega
    · intro j _
      have hb := h5 j
      have hz : (ns_init init).bits j = 0 := rfl
      constructor
      · intro e
        rcases (hb.1 (by rw [e]; decide)) with h | h
        · exact absurd hz h
        · exact h
      · intro h
        have := hb.2 (Or.inr h)
        rcases h3 j with h0 | h1
        · exact absurd h0 this
        · exact h1

/-- Adding net 5 to the two-slot registry of `ns_init(2)` doubles the capacity
twice, to 8, sets slot 5 and leaves slot 4 zero. -/
theorem ns_add_contract_witness :
    ∃ s', ns_add (ns_init 2) 5 = some s' ∧ s'.cap = 8 ∧ s'.bits 5 = 1 ∧ s'.bits 4 = 0 ∧
      ns_add s' 5 = some s' := by
  obtain ⟨-, h, -⟩ := ns_add_contract (ns_init 2) (by decide) 5
  obtain ⟨s', h1, -, h3, -, -, -, -, h8⟩ := h (by decide)
  have e : (ns_add (ns_init 2) 5).map (fun s => (s.cap, s.bits 4)) = some (8, 0) := by decide
  rw [h1] at e
  have e2 : (s'.cap, s'.bits 4) = (8, 0) := Option.some.inj e
  exact ⟨s', h1, congrArg Prod.fst e2, h3, congrArg Prod.snd e2, h8⟩

/-! ## The parsing pass of `FEC.c` as a sequence of registrations -/

theorem ns_add_all_append : ∀ (ids jds : List Int) (s : NodeSet),
    ns_add_all s (ids ++ jds) =
      match ns_add_all s ids with
      | none => none
      | some s1 => ns_add_all s1 jds := by
  intro ids
  induction ids with
  | nil => intro jds s; rfl
  | cons id ids ih =>
    intro jds s
    simp only [List.cons_append, ns_add_all]
    cases ns_add s id with
    | none => rfl
    | some s1 => exact ih jds s1

theorem gate_operands_some {toks : List (Option Int)} {o i1 i2 : Int}
    (h : gate_operands toks = some (o, i1, i2)) :
    ∃ rest, toks = some o :: some i1 :: some i2 :: rest := by
  unfold gate_operands at h
  split at h
  · simp only [Option.some.injEq, Prod.mk.injEq] at h
    obtain ⟨rfl, rfl, rfl⟩ := h
    exact ⟨_, rfl⟩
  · simp at h

/-- One line of `FEC.c` registers `fec_line_ids`, appends `fec_line_gates`, and
records its line number iff it is a malformed gate line. -/
theorem fec_line_eq (st : ParseState) (ln : Line) :
    fec_line st ln =
      match ns_add_all st.nodes (fec_line_ids ln) with
      | none => none
      | some ns =>
        some { nodes := ns, gates := st.gates ++ fec_line_gates ln,
               diag := st.diag ++ (if malformed_gate ln then [st.lineno + 1] else []),
               lineno := st.lineno + 1 } := by
  cases ln with
  | blank => simp [fec_line, fec_line_ids, fec_line_gates, malformed_gate, ns_add_all]
  | decl k toks =>
    simp only [fec_line, fec_line_ids, fec_line_gates, malformed_gate, if_false,
      List.append_nil]
  | word t toks =>
    by_cases ht : t ≠ GType.G_UNKNOWN
    · cases hg : gate_operands toks with
      | none =>
        have hm : malformed_gate (Line.word t toks) := ⟨ht, hg⟩
        have hf : fec_line st (Line.word t toks) =
            some { st with diag := st.diag ++ [st.lineno + 1], lineno := st.lineno + 1 } := by
          unfold fec_line
          simp only [ht, if_true, ne_eq, not_false_eq_true]
          split
          · rename_i o i1 i2 rest
            simp [gate_operands] at hg
          · rfl
        rw [hf]
        simp [fec_line_ids, fec_line_gates, ht, hg, hm, ns_add_all]
      | some ops =>
        obtain ⟨o, i1, i2⟩ := ops
        obtain ⟨rest, rfl⟩ := gate_operands_some hg
        have hm : ¬ malformed_gate (Line.word t (some o :: some i1 :: some i2 :: rest)) := by
          rintro ⟨-, h⟩
          rw [hg] at h
          simp at h
        simp only [fec_line, fec_line_ids, fec_line_gates, ht, hg, hm, if_true, if_false,
          ne_eq, not_false_eq_true, List.append_nil]
    · have hm : ¬ malformed_gate (Line.word t toks) := fun h => ht h.1
      simp [fec_line, fec_line_ids, fec_line_gates, ht, hm, ns_add_all]

theorem fec_lines_eq : ∀ (lns : List Line) (st : ParseState),
    fec_lines lns st =
      match ns_add_all st.nodes (fec_ids lns) with
      | none => none
      | some ns =>
        some { nodes := ns, gates := st.gates ++ fec_gates lns,
               diag := st.diag ++ malformed_lines st.lineno lns,
               lineno := st.lineno + lns.length } := by
  intro lns
  induction lns with
  | nil => intro st; simp [fec_lines, fec_ids, fec_gates, malformed_lines, ns_add_all]
  | cons ln lns ih =>
    intro st
    simp only [fec_lines, fec_ids, fec_gates, malformed_lines]
    rw [fec_line_eq, ns_add_all_append]
    cases ns_add_all st.nodes (fec_line_ids ln) with
    | none => rfl
    | some ns =>
      simp only
      rw [ih]
      simp only
      cases ns_add_all ns (fec_ids lns) with
      | none => rfl
      | some ns2 =>
        simp only [List.append_assoc, List.length_cons, Option.some.injEq,
          ParseState.mk.injEq, true_and]
        omega

/-- The parsing pass of `FEC.c` in closed form. -/
theorem fec_parse_eq (lns : List Line) :
    fec_parse lns =
      match ns_add_all (ns_init 1024) (fec_ids lns) with
      | none => none
      | some ns =>
        some { nodes := ns, gates := fec_gates lns, diag := malformed_lines 0 lns,
               lineno := lns.length } := by
  unfold fec_parse
  rw [fec_lines_eq]
  cases ns_add_all (ns_init 1024) (fec_ids lns) with
  | none => rfl
  | some ns => simp

/-! ## Classifier indices and capacity -/

set_option maxRecDepth 1000000 in
/-- C12, at the failing input `NAND 0 5 5`: the gate is appended with output id
0, the classifier has 2046 elements, and the inverter rule calls
`dsu_union(fault_idx(5,0), fault_idx(0,1)) = dsu_union(8, -1)`; the index `-1`
is outside `[0, 2046)`, so the call, the rule loop and `main` have no defined
result. -/
theorem classifier_index_out_of_range :
    (fec_parse netlist_bad_inverter).map (fun st => (st.gates, dsu_size st.nodes)) =
      some ([⟨GType.G_NAND, 0, 5, 5⟩], 2046) ∧
    gate_unions ⟨GType.G_NAND, 0, 5, 5⟩ = [(8, 8), (8, -1), (9, -2)] ∧
    fault_idx 5 0 = 8 ∧ fault_idx 0 1 = -1 ∧
    (dsu_union (dsu_init 2046) 8 (-1)).isNone = true ∧
    (rule_loop [⟨GType.G_NAND, 0, 5, 5⟩] (dsu_init 2046)).isNone = true ∧
    (fec_main netlist_bad_inverter).isNone = true := by
  refine ⟨by decide, by decide, by decide, by decide, by decide, by decide, by decide⟩

theorem capInv_init : CapInv (ns_init 1024) :=
  ⟨⟨0, rfl⟩, Or.inl rfl⟩

theorem ns_add_capInv {s s' : NodeSet} (hs : NsInv s) (hc : CapInv s) {id : Int}
    (h : ns_add s id = some s') : CapInv s' := by
  by_cases hid : 0 < id
  · obtain ⟨s1, h1, -, -, ⟨k, hk⟩, h5, h6⟩ := ns_add_raw hs.1 hid
    rw [h] at h1
    simp only [Option.some.injEq] at h1
    subst h1
    obtain ⟨⟨k0, hk0⟩, ht⟩ := hc
    refine ⟨⟨k0 + k, by rw [hk, hk0, pow_add, mul_assoc]⟩, ?_⟩
    rcases h5 with h5 | h5
    · rcases ht with ht | ⟨j, hj1, hj2⟩
      · exact Or.inl (h5.trans ht)
      · right
        refine ⟨j, ?_, by rw [h5]; exact hj2⟩
        rw [h6]
        split
        · decide
        · rw [if_neg]
          · exact hj1
          · have := hs.2 j hj1
            omega
    · right
      exact ⟨id, by rw [h6, if_pos rfl]; decide, h5⟩
  · have : ns_add s id = some s := by unfold ns_add; rw [if_pos (by omega)]
    rw [h] at this
    simp only [Option.some.injEq] at this
    rw [this]; exact hc

theorem ns_add_all_capInv : ∀ (ids : List Int) (s s' : NodeSet), NsInv s → CapInv s →
    ns_add_all s ids = some s' → CapInv s' := by
  intro ids
  induction ids with
  | nil =>
    intro s s' _ hc h
    simp only [ns_add_all, Option.some.injEq] at h
    rw [← h]; exact hc
  | cons id ids ih =>
    intro s s' hs hc h
    obtain ⟨s1, h1, h2, -⟩ := ns_add_spec hs id
    simp only [ns_add_all, h1] at h
    exact ih s1 s' h2 (ns_add_capInv hs hc h1) h

/-- The registry and gate list after the parsing pass of `FEC.c`, in closed
form, with the registry invariants. -/
theorem fec_parse_closed (lns : List Line) :
    ∃ st, fec_parse lns = some st ∧
      ns_add_all (ns_init 1024) (fec_ids lns) = some st.nodes ∧
      st.gates = fec_gates lns ∧ st.diag = malformed_lines 0 lns ∧
      st.lineno = lns.length ∧ NsInv st.nodes ∧ CapInv st.nodes ∧
      ∀ j, st.nodes.bits j ≠ 0 ↔ (0 < j ∧ j ∈ fec_ids lns) := by
  obtain ⟨ns, h1, h2, -, h4⟩ := ns_add_all_spec (fec_ids lns) _ (ns_init_inv 1024)
  have hc := ns_add_all_capInv _ _ _ (ns_init_inv 1024) capInv_init h1
  refine ⟨ParseState.mk ns (fec_gates lns) (malformed_lines 0 lns) lns.length,
    ?_, h1, rfl, rfl, rfl, h2, hc, ?_⟩
  · rw [fec_parse_eq, h1]
  · intro j
    rw [h4]
    constructor
    · rintro (h | h)
      · exact absurd rfl h
      · exact h
    · exact Or.inr

/-- C13 as stated fails: on the empty netlist no net is registered, yet
`max_id` is 1023 (not 0) and the classifier gets 2046 elements (not 2); after
`INPUT 5` the largest registered id is 5, yet `max_id` is still 1023 and the
classifier still has 2046 elements (not 10). -/
theorem classifier_capacity_counterexample :
    (∃ st, fec_parse [] = some st ∧ (∀ id, ¬ Registered st.nodes id) ∧
      max_id st.nodes = 1023 ∧ max_id st.nodes ≠ 0 ∧
      dsu_size st.nodes = 2046 ∧ dsu_size st.nodes ≠ 2) ∧
    (∃ st, fec_parse [Line.decl Kw.INPUT [some 5]] = some st ∧ Registered st.nodes 5 ∧
      (∀ id, Registered st.nodes id → id ≤ 5) ∧
      max_id st.nodes = 1023 ∧ max_id st.nodes ≠ 5 ∧
      dsu_size st.nodes = 2046 ∧ dsu_size st.nodes ≠ 2 * 5) := by
  constructor
  · exact ⟨_, rfl, fun id h => h.2.2 rfl, by decide, by decide, by decide, by decide⟩
  · obtain ⟨st, h1, -, -, -, -, -, -, h8⟩ := fec_parse_closed [Line.decl Kw.INPUT [some 5]]
    have e : (fec_parse [Line.decl Kw.INPUT [some 5]]).map
        (fun st => (st.nodes.cap, st.nodes.bits 5)) = some (1024, 1) := by decide
    rw [h1] at e
    have e2 : (st.nodes.cap, st.nodes.bits 5) = (1024, 1) := Option.some.inj e
    have hcap : st.nodes.cap = 1024 := congrArg Prod.fst e2
    have hb : st.nodes.bits 5 = 1 := congrArg Prod.snd e2
    refine ⟨st, h1, ⟨by decide, by rw [hcap]; decide, by rw [hb]; decide⟩, ?_, ?_, ?_, ?_, ?_⟩
    · intro id hid
      have := ((h8 id).1 hid.2.2).2
      simp [fec_ids, fec_line_ids] at this
      omega
    · unfold max_id; rw [hcap]; rfl
    · unfold max_id; rw [hcap]; decide
    · unfold dsu_size max_id; rw [hcap]; rfl
    · unfold dsu_size max_id; rw [hcap]; decide

/-- C13, amended: after the parsing pass `max_id` is `cap - 1`, where the
registry capacity `cap` is 1024 doubled some number of times, exceeds every
registered id, and is still 1024 unless some registered id `j` has
`cap ≤ 2·(j+1)`; the classifier is initialised with exactly `2 × (cap - 1)`
elements, which is at least 2046 and at least twice every registered id. -/
theorem classifier_capacity (lns : List Line) :
    ∃ st, fec_parse lns = some st ∧
      max_id st.nodes = (st.nodes.cap : Int) - 1 ∧
      (∃ k, st.nodes.cap = 1024 * 2 ^ k) ∧
      (∀ id, Registered st.nodes id → id ≤ max_id st.nodes) ∧
      (st.nodes.cap = 1024 ∨
        ∃ j, Registered st.nodes j ∧ (st.nodes.cap : Int) ≤ 2 * (j + 1)) ∧
      (dsu_size st.nodes : Int) = 2 * max_id st.nodes ∧ 2046 ≤ dsu_size st.nodes ∧
      (∀ id, Registered st.nodes id → 2 * id ≤ (dsu_size st.nodes : Int)) ∧
      (∀ r, fec_main lns = some r → r.dsu.n = dsu_size st.nodes) := by
  obtain ⟨st, h1, -, -, -, -, h6, ⟨⟨k, hk⟩, ht⟩, -⟩ := fec_parse_closed lns
  have hcap : 1024 ≤ st.nodes.cap := by
    rw [hk]
    have : 1 ≤ 2 ^ k := Nat.one_le_two_pow
    omega
  have hsz : (dsu_size st.nodes : Int) = 2 * max_id st.nodes := by
    unfold dsu_size max_id
    split <;> omega
  have hreg : ∀ id, Registered st.nodes id → id ≤ max_id st.nodes := by
    intro id hid
    have := hid.2.1
    unfold max_id; omega
  refine ⟨st, h1, rfl, ⟨k, hk⟩, hreg, ?_, hsz, ?_, ?_, ?_⟩
  · rcases ht with ht | ⟨j, hj1, hj2⟩
    · exact Or.inl ht
    · have := h6.2 j hj1
      exact Or.inr ⟨j, ⟨this.1, this.2, hj1⟩, hj2⟩
  · have : max_id st.nodes = (st.nodes.cap : Int) - 1 := rfl
    omega
  · intro id hid
    have := hreg id hid
    omega
  · intro r hr
    obtain ⟨st', h2, -, -, hd, -⟩ := fec_main_spec hr
    rw [h1] at h2
    simp only [Option.some.injEq] at h2
    subst h2
    exact (rule_loop_init hd).2.1

/-! ## The fanout map -/

theorem fan_contains_iff (l : List Int) (v : Int) : fan_contains l v = true ↔ v ∈ l := by
  induction l with
  | nil => simp [fan_contains]
  | cons b bs ih =>
    unfold fan_contains
    by_cases h : b = v
    · simp [h]
    · rw [if_neg h, ih, List.mem_cons]
      constructor
      · exact Or.inr
      · rintro (e | e)
        · exact absurd e.symm h
        · exact e

theorem fan_ensure_spec (m : FanMap) (need : Nat) :
    ∃ m', fan_ensure m need = some m' ∧ need < m'.cap ∧ m.cap ≤ m'.cap ∧
      ∀ i, m'.lists i = if (m.cap : Int) ≤ i ∧ i < (m'.cap : Int) then [] else m.lists i := by
  unfold fan_ensure
  by_cases h : need < m.cap
  · rw [if_pos h]
    refine ⟨m, rfl, h, le_refl _, ?_⟩
    intro i
    rw [if_neg]
    omega
  · rw [if_neg h]
    have hstart : 0 < (if m.cap ≠ 0 then m.cap else 1024) := by split <;> omega
    obtain ⟨nc, h1, h2, h3⟩ := ns_double_spec need (need + 1) _ hstart (by omega) (by omega)
    rw [h1]
    refine ⟨_, rfl, h2, ?_, fun i => rfl⟩
    show m.cap ≤ nc
    split at h3 <;> omega

theorem fan_add_edge_noop (m : FanMap) (hm : FanInv m) (stem branch : Int)
    (h : stem ≤ 0 ∨ branch ≤ 0 ∨ branch ∈ m.lists stem) :
    fan_add_edge m stem branch = some m := by
  unfold fan_add_edge
  by_cases h0 : stem ≤ 0 ∨ branch ≤ 0
  · rw [if_pos h0]
  · rw [if_neg h0]
    have hb : branch ∈ m.lists stem := by
      rcases h with h | h | h
      · exact absurd (Or.inl h) h0
      · exact absurd (Or.inr h) h0
      · exact h
    have hne : m.lists stem ≠ [] := List.ne_nil_of_mem hb
    have hc := (hm stem hne).1
    have he : fan_ensure m (stem.toNat + 1) = some m := by
      unfold fan_ensure
      rw [if_pos (by omega)]
    rw [he]
    simp only
    rw [if_pos ((fan_contains_iff _ _).2 hb)]

theorem fan_add_edge_new (m : FanMap) (hm : FanInv m) (stem branch : Int)
    (hs : 0 < stem) (hb : 0 < branch) (hn : branch ∉ m.lists stem) :
    ∃ m', fan_add_edge m stem branch = some m' ∧ FanInv m' ∧ m.cap ≤ m'.cap ∧
      m'.lists stem = m.lists stem ++ [branch] ∧ ∀ s, s ≠ stem → m'.lists s = m.lists s := by
  unfold fan_add_edge
  rw [if_neg (by omega)]
  obtain ⟨m1, h1, h2, h3, h4⟩ := fan_ensure_spec m (stem.toNat + 1)
  have hl : ∀ i, m1.lists i = m.lists i := by
    intro i
    rw [h4]
    split
    · rename_i hi
      by_contra hne
      have := (hm i (fun e => hne e.symm)).1
      omega
    · rfl
  rw [h1]
  simp only
  have hc : ¬ fan_contains (m1.lists stem) branch = true := by
    rw [fan_contains_iff, hl]; exact hn
  rw [if_neg hc]
  refine ⟨_, rfl, ?_, h3, ?_, ?_⟩
  · intro i hi
    by_cases his : i = stem
    · subst his
      refine ⟨⟨hs, by show i + 1 < (m1.cap : Int); omega⟩, ?_⟩
      intro b hbm
      have hbm' : b ∈ m.lists i ++ [branch] := by
        have : upd m1.lists i (m1.lists i ++ [branch]) i = m.lists i ++ [branch] := by
          rw [upd_same, hl]
        rw [← this]; exact hbm
      rcases List.mem_append.1 hbm' with h | h
      · exact (hm i (List.ne_nil_of_mem h)).2 b h
      · rw [List.mem_singleton.1 h]; exact hb
    · have e : upd m1.lists stem (m1.lists stem ++ [branch]) i = m.lists i := by
        rw [upd_other _ _ _ _ his, hl]
      have hi' : m.lists i ≠ [] := by rw [← e]; exact hi
      obtain ⟨h5, h6⟩ := hm i hi'
      refine ⟨⟨h5.1, by show i + 1 < (m1.cap : Int); omega⟩, ?_⟩
      intro b hbm
      exact h6 b (by rw [← e]; exact hbm)
  · show upd m1.lists stem (m1.lists stem ++ [branch]) stem = _
    rw [upd_same, hl]
  · intro s hne
    show upd m1.lists stem (m1.lists stem ++ [branch]) s = _
    rw [upd_other _ _ _ _ hne, hl]

theorem fan_init_inv : FanInv fan_init := fun _ h => absurd rfl h

theorem stem_calls_cons (e : Int × Int) (calls : List (Int × Int)) (s : Int) :
    stem_calls (e :: calls) s =
      if e.1 = s ∧ 0 < e.1 ∧ 0 < e.2 then e.2 :: stem_calls calls s else stem_calls calls s := by
  unfold stem_calls
  by_cases h : e.1 = s ∧ 0 < e.1 ∧ 0 < e.2
  · rw [if_pos h, List.filter_cons, if_pos (by simpa using h), List.map_cons]
  · rw [if_neg h, List.filter_cons, if_neg (by simpa using h)]

theorem fan_add_all_spec : ∀ (calls : List (Int × Int)) (m : FanMap), FanInv m →
    ∃ m', fan_add_all m calls = some m' ∧ FanInv m' ∧ m.cap ≤ m'.cap ∧
      ∀ s, m'.lists s = absorb (m.lists s) (stem_calls calls s) := by
  intro calls
  induction calls with
  | nil => intro m hm; exact ⟨m, rfl, hm, le_refl _, fun s => rfl⟩
  | cons e calls ih =>
    intro m hm
    by_cases h : e.1 ≤ 0 ∨ e.2 ≤ 0 ∨ e.2 ∈ m.lists e.1
    · have h1 := fan_add_edge_noop m hm e.1 e.2 h
      obtain ⟨m', h2, h3, h4, h5⟩ := ih m hm
      refine ⟨m', by simp [fan_add_all, h1, h2], h3, h4, ?_⟩
      intro s
      rw [h5, stem_calls_cons]
      by_cases hs : e.1 = s ∧ 0 < e.1 ∧ 0 < e.2
      · rw [if_pos hs]
        have hmem : e.2 ∈ m.lists s := by
          rcases h with h | h | h
          · omega
          · omega
          · rw [← hs.1]; exact h
        simp only [absorb, hmem, if_true]
      · rw [if_neg hs]
    · have hs0 : 0 < e.1 := by omega
      have hb0 : 0 < e.2 := by omega
      have hn : e.2 ∉ m.lists e.1 := fun hmem => h (Or.inr (Or.inr hmem))
      obtain ⟨m1, h1, h2, h3, h4, h5⟩ := fan_add_edge_new m hm e.1 e.2 hs0 hb0 hn
      obtain ⟨m', h6, h7, h8, h9⟩ := ih m1 h2
      refine ⟨m', by simp [fan_add_all, h1, h6], h7, by omega, ?_⟩
      intro s
      rw [h9, stem_calls_cons]
      by_cases hs : e.1 = s
      · have hc : e.1 = s ∧ 0 < e.1 ∧ 0 < e.2 := ⟨hs, hs0, hb0⟩
        rw [if_pos hc]
        subst hs
        simp only [absorb, hn, if_false]
        rw [h4]
      · have hc : ¬ (e.1 = s ∧ 0 < e.1 ∧ 0 < e.2) := fun hc => hs hc.1
        rw [if_neg hc, h5 s (fun e' => hs e'.symm)]

theorem absorb_eq : ∀ (bs acc : List Int),
    absorb acc bs = acc ++ (keep_first bs).filter (fun c => decide (c ∉ acc)) := by
  intro bs
  induction bs with
  | nil => intro acc; simp [absorb, keep_first]
  | cons b bs ih =>
    intro acc
    unfold absorb keep_first
    rw [ih]
    by_cases hb : b ∈ acc
    · rw [if_pos hb, List.filter_cons, if_neg (by simpa using hb), List.filter_filter]
      congr 1
      apply List.filter_congr
      intro c _
      by_cases hc : c ∈ acc
      · simp [hc]
      · have : c ≠ b := fun e => hc (e ▸ hb)
        simp [hc, this]
    · rw [if_neg hb, List.filter_cons, if_pos (by simpa using hb), List.filter_filter,
        List.append_assoc, List.singleton_append]
      congr 2
      apply List.filter_congr
      intro c _
      simp only [List.mem_append, List.mem_singleton, not_or, Bool.decide_and,
        Bool.and_comm]

theorem absorb_nil (bs : List Int) : absorb [] bs = keep_first bs := by
  rw [absorb_eq]
  simp

theorem mem_keep_first {bs : List Int} {b : Int} : b ∈ keep_first bs ↔ b ∈ bs := by
  induction bs with
  | nil => simp [keep_first]
  | cons c bs ih =>
    unfold keep_first
    rw [List.mem_cons, List.mem_cons, List.mem_filter, ih]
    by_cases h : b = c
    · simp [h]
    · simp [h]

theorem keep_first_nodup (bs : List Int) : (keep_first bs).Nodup := by
  induction bs with
  | nil => exact List.nodup_nil
  | cons c bs ih =>
    unfold keep_first
    rw [List.nodup_cons]
    refine ⟨?_, ih.filter _⟩
    intro h
    rw [List.mem_filter] at h
    simp at h

theorem fan_add_all_init (calls : List (Int × Int)) :
    ∃ m, fan_add_all fan_init calls = some m ∧ FanInv m ∧
      ∀ s, m.lists s = stem_branches calls s := by
  obtain ⟨m, h1, h2, -, h4⟩ := fan_add_all_spec calls fan_init fan_init_inv
  refine ⟨m, h1, h2, ?_⟩
  intro s
  rw [h4]
  exact absorb_nil _

/-- C17 (`fan_add_edge` contract): on the map left by any sequence of
`fan_add_edge` calls, `fan_add_edge(stem, branch)` changes nothing when
`stem ≤ 0`, `branch ≤ 0` or `branch` is already in the list of `stem`;
otherwise it appends `branch` at the end of the list of `stem` and changes no
other list. Consequently the list of each stem has no duplicates and is the
sequence of positive branches added for that stem, de-duplicated keeping first
occurrences in call order. -/
theorem fan_add_edge_contract (calls : List (Int × Int)) :
    ∃ m, fan_add_all fan_init calls = some m ∧
      (∀ s, m.lists s = stem_branches calls s) ∧ (∀ s, (m.lists s).Nodup) ∧
      (∀ stem branch, (stem ≤ 0 ∨ branch ≤ 0 ∨ branch ∈ m.lists stem) →
        fan_add_edge m stem branch = some m) ∧
      (∀ stem branch, 0 < stem → 0 < branch → branch ∉ m.lists stem →
        ∃ m', fan_add_edge m stem branch = some m' ∧
          m'.lists stem = m.lists stem ++ [branch] ∧
          ∀ s, s ≠ stem → m'.lists s = m.lists s) := by
  obtain ⟨m, h1, h2, h3⟩ := fan_add_all_init calls
  refine ⟨m, h1, h3, ?_, ?_, ?_⟩
  · intro s
    rw [h3]
    exact keep_first_nodup _
  · intro stem branch h
    exact fan_add_edge_noop m h2 stem branch h
  · intro stem branch hs hb hn
    obtain ⟨m', h4, -, -, h7, h8⟩ := fan_add_edge_new m h2 stem branch hs hb hn
    exact ⟨m', h4, h7, h8⟩

/-- The calls `(1,2), (1,3), (1,2), (0,7), (2,3)` leave `[2, 3]` for stem 1 and
`[3]` for stem 2; adding `(1,3)` again changes nothing, adding `(1,4)` appends. -/
theorem fan_add_edge_contract_witness :
    ∃ m, fan_add_all fan_init [(1, 2), (1, 3), (1, 2), (0, 7), (2, 3)] = some m ∧
      m.lists 1 = [2, 3] ∧ m.lists 2 = [3] ∧ m.lists 0 = [] ∧
      fan_add_edge m 1 3 = some m ∧
      ∃ m', fan_add_edge m 1 4 = some m' ∧ m'.lists 1 = [2, 3, 4] := by
  obtain ⟨m, h1, h2, -, h4, h5⟩ :=
    fan_add_edge_contract [(1, 2), (1, 3), (1, 2), (0, 7), (2, 3)]
  have e1 : m.lists 1 = [2, 3] := by rw [h2]; decide
  have e2 : m.lists 2 = [3] := by rw [h2]; decide
  have e0 : m.lists 0 = [] := by rw [h2]; decide
  obtain ⟨m', h6, h7, -⟩ := h5 1 4 (by decide) (by decide) (by rw [e1]; decide)
  refine ⟨m, h1, e1, e2, e0, h4 1 3 (Or.inr (Or.inr (by rw [e1]; decide))), m', h6, ?_⟩
  rw [h7, e1]
  rfl

/-! ## The parsing pass of `fault_universe.c` as registrations and edges -/

theorem fan_add_edge_total (m : FanMap) (stem branch : Int) :
    ∃ m', fan_add_edge m stem branch = some m' := by
  unfold fan_add_edge
  split
  · exact ⟨m, rfl⟩
  · obtain ⟨m1, h1, -⟩ := fan_ensure_spec m (stem.toNat + 1)
    rw [h1]
    simp only
    split
    · exact ⟨_, rfl⟩
    · exact ⟨_, rfl⟩

theorem fan_add_all_total : ∀ (es : List (Int × Int)) (m : FanMap),
    ∃ m', fan_add_all m es = some m' := by
  intro es
  induction es with
  | nil => intro m; exact ⟨m, rfl⟩
  | cons e es ih =>
    intro m
    obtain ⟨m1, h1⟩ := fan_add_edge_total m e.1 e.2
    obtain ⟨m', h2⟩ := ih m1
    exact ⟨m', by simp [fan_add_all, h1, h2]⟩

theorem fan_add_all_append : ∀ (es fs : List (Int × Int)) (m : FanMap),
    fan_add_all m (es ++ fs) =
      match fan_add_all m es with
      | none => none
      | some m1 => fan_add_all m1 fs := by
  intro es
  induction es with
  | nil => intro fs m; rfl
  | cons e es ih =>
    intro fs m
    simp only [List.cons_append, fan_add_all]
    cases fan_add_edge m e.1 e.2 with
    | none => rfl
    | some m1 => exact ih fs m1

theorem ns_add_all_total {s : NodeSet} (hs : NsInv s) (ids : List Int) :
    ∃ s', ns_add_all s ids = some s' ∧ NsInv s' := by
  obtain ⟨s', h1, h2, -⟩ := ns_add_all_spec ids s hs
  exact ⟨s', h1, h2⟩

theorem fanout_branches_closed (stem : Int) : ∀ (toks : List (Option Int)) (ns : NodeSet)
    (fm : FanMap), NsInv ns →
    ∃ ns' fm', ns_add_all ns (toks.filterMap id) = some ns' ∧
      fan_add_all fm ((toks.filterMap id).map (fun br => (stem, br))) = some fm' ∧
      fanout_branches stem toks (ns, fm) = some (ns', fm') := by
  intro toks
  induction toks with
  | nil => intro ns fm _; exact ⟨ns, fm, rfl, rfl, rfl⟩
  | cons t ts ih =>
    intro ns fm hs
    cases t with
    | none =>
      obtain ⟨ns', fm', h1, h2, h3⟩ := ih ns fm hs
      exact ⟨ns', fm', by simpa using h1, by simpa using h2, by simp [fanout_branches, h3]⟩
    | some br =>
      obtain ⟨ns1, h1, h2, -⟩ := ns_add_spec hs br
      obtain ⟨fm1, h3⟩ := fan_add_edge_total fm stem br
      obtain ⟨ns', fm', h4, h5, h6⟩ := ih ns1 fm1 h2
      refine ⟨ns', fm', ?_, ?_, ?_⟩
      · simp [ns_add_all, h1, h4]
      · simp [fan_add_all, h3, h5]
      · simp [fanout_branches, h1, h3, h6]

/-- One line of `fault_universe.c` registers `fu_line_ids`, records
`fu_line_edges`, and notes its line number iff it is a malformed gate line. -/
theorem fu_line_closed (st : FuState) (hs : NsInv st.nodes) (ln : Line) :
    ∃ ns fm, ns_add_all st.nodes (fu_line_ids ln) = some ns ∧ NsInv ns ∧
      fan_add_all st.fan (fu_line_edges ln) = some fm ∧
      fu_line st ln = some
        { nodes := ns, fan := fm,
          diag := st.diag ++ (if malformed_gate ln then [st.lineno + 1] else []),
          lineno := st.lineno + 1 } := by
  cases ln with
  | blank =>
    exact ⟨st.nodes, st.fan, rfl, hs, rfl, by simp [fu_line, malformed_gate]⟩
  | word t toks =>
    by_cases ht : t ≠ GType.G_UNKNOWN
    · cases hg : gate_operands toks with
      | none =>
        have hm : malformed_gate (Line.word t toks) := ⟨ht, hg⟩
        refine ⟨st.nodes, st.fan, by simp [fu_line_ids, ht, hg, ns_add_all], hs,
          by simp [fu_line_edges, ht, hg, fan_add_all], ?_⟩
        unfold fu_line
        simp only [ht, if_true, ne_eq, not_false_eq_true, hm]
        split
        · rename_i o i1 i2 rest
          simp [gate_operands] at hg
        · rfl
      | some ops =>
        obtain ⟨o, i1, i2⟩ := ops
        obtain ⟨rest, rfl⟩ := gate_operands_some hg
        have hm : ¬ malformed_gate (Line.word t (some o :: some i1 :: some i2 :: rest)) := by
          rintro ⟨-, h⟩
          rw [hg] at h
          simp at h
        obtain ⟨ns, h1, h2⟩ := ns_add_all_total hs [o, i1, i2]
        obtain ⟨fm1, h3⟩ := fan_add_edge_total st.fan i1 o
        obtain ⟨fm2, h4⟩ := fan_add_edge_total fm1 i2 o
        refine ⟨ns, fm2, by simp only [fu_line_ids, ht, hg, if_true, ne_eq,
          not_false_eq_true]; exact h1, h2, ?_, ?_⟩
        · simp only [fu_line_edges, ht, hg, if_true, ne_eq, not_false_eq_true, fan_add_all,
            h3, h4]
        · simp only [fu_line, ht, if_true, ne_eq, not_false_eq_true, h1, h3, h4, hm,
            if_false, List.append_nil]
    · have hm : ¬ malformed_gate (Line.word t toks) := fun h => ht h.1
      exact ⟨st.nodes, st.fan, by simp [fu_line_ids, ht, ns_add_all], hs,
        by simp [fu_line_edges, ht, fan_add_all], by simp [fu_line, ht, hm]⟩
  | decl k toks =>
    cases k with
    | FANOUT =>
      cases toks with
      | nil => exact ⟨st.nodes, st.fan, rfl, hs, rfl, by simp [fu_line, malformed_gate]⟩
      | cons t rest =>
        cases t with
        | none => exact ⟨st.nodes, st.fan, rfl, hs, rfl, by simp [fu_line, malformed_gate]⟩
        | some stem =>
          obtain ⟨ns, h1, h2, -⟩ := ns_add_spec hs stem
          obtain ⟨ns', fm', h3, h4, h5⟩ := fanout_branches_closed stem rest ns st.fan h2
          have h6 : NsInv ns' := by
            obtain ⟨ns'', h7, h8⟩ := ns_add_all_total h2 (rest.filterMap id)
            rw [h3] at h7
            simp only [Option.some.injEq] at h7
            rw [h7]; exact h8
          refine ⟨ns', fm', ?_, h6, h4, ?_⟩
          · simp only [fu_line_ids, ns_add_all, h1, h3]
          · simp [fu_line, h1, h5, malformed_gate]
    | INPUT =>
      obtain ⟨ns, h1, h2⟩ := ns_add_all_total hs (toks.filterMap id)
      exact ⟨ns, st.fan, h1, h2, rfl, by simp [fu_line, h1, malformed_gate]⟩
    | OUTPUT =>
      obtain ⟨ns, h1, h2⟩ := ns_add_all_total hs (toks.filterMap id)
      exact ⟨ns, st.fan, h1, h2, rfl, by simp [fu_line, h1, malformed_gate]⟩

theorem fu_lines_closed : ∀ (lns : List Line) (st : FuState), NsInv st.nodes →
    ∃ ns fm, ns_add_all st.nodes (fu_ids lns) = some ns ∧ NsInv ns ∧
      fan_add_all st.fan (fu_edges lns) = some fm ∧
      fu_lines lns st = some
        { nodes := ns, fan := fm, diag := st.diag ++ malformed_lines st.lineno lns,
          lineno := st.lineno + lns.length } := by
  intro lns
  induction lns with
  | nil =>
    intro st hs
    exact ⟨st.nodes, st.fan, rfl, hs, rfl, by simp [fu_lines, malformed_lines]⟩
  | cons ln lns ih =>
    intro st hs
    obtain ⟨ns1, fm1, h1, h2, h3, h4⟩ := fu_line_closed st hs ln
    obtain ⟨ns, fm, h5, h6, h7, h8⟩ := ih (FuState.mk ns1 fm1
      (st.diag ++ (if malformed_gate ln then [st.lineno + 1] else [])) (st.lineno + 1)) h2
    simp only at h5 h7 h8
    refine ⟨ns, fm, ?_, h6, ?_, ?_⟩
    · simp only [fu_ids]
      rw [ns_add_all_append, h1]
      exact h5
    · simp only [fu_edges]
      rw [fan_add_all_append, h3]
      exact h7
    · simp only [fu_lines, h4, h8, malformed_lines, List.append_assoc, List.length_cons,
        Option.some.injEq, FuState.mk.injEq, true_and]
      omega

/-- The state after the parsing pass of `fault_universe.c`, in closed form,
with the registry and fanout-map invariants. -/
theorem fu_parse_closed (lns : List Line) :
    ∃ st, fu_parse lns = some st ∧
      ns_add_all (ns_init 4096) (fu_ids lns) = some st.nodes ∧
      fan_add_all fan_init (fu_edges lns) = some st.fan ∧
      st.diag = malformed_lines 0 lns ∧ st.lineno = lns.length ∧
      NsInv st.nodes ∧ FanInv st.fan ∧
      (∀ j, st.nodes.bits j ≠ 0 ↔ (0 < j ∧ j ∈ fu_ids lns)) ∧
      (∀ s, st.fan.lists s = stem_branches (fu_edges lns) s) := by
  obtain ⟨ns, fm, h1, h2, h3, h4⟩ :=
    fu_lines_closed lns { nodes := ns_init 4096, fan := fan_init, diag := [], lineno := 0 }
      (ns_init_inv 4096)
  simp only at h1 h3 h4
  obtain ⟨ns', h5, -, -, h8⟩ := ns_add_all_spec (fu_ids lns) _ (ns_init_inv 4096)
  rw [h1] at h5
  simp only [Option.some.injEq] at h5
  subst h5
  obtain ⟨fm', h9, h10, h11⟩ := fan_add_all_init (fu_edges lns)
  rw [h3] at h9
  simp only [Option.some.injEq] at h9
  subst h9
  refine ⟨FuState.mk ns fm (malformed_lines 0 lns) lns.length, ?_, h1, h3, rfl, rfl, h2, h10,
    ?_, h11⟩
  · unfold fu_parse
    rw [h4]
    simp
  · intro j
    rw [h8]
    constructor
    · rintro (h | h)
      · exact absurd rfl h
      · exact h
    · exact Or.inr

/-! ## The fanout report -/

theorem mem_report_loop (m : FanMap) : ∀ (ids : List Int) (stem : Int) (bs : List Int),
    (stem, bs) ∈ report_loop m ids ↔ stem ∈ ids ∧ bs = m.lists stem ∧ bs ≠ [] := by
  intro ids
  induction ids with
  | nil => intro stem bs; simp [report_loop]
  | cons i ids ih =>
    intro stem bs
    unfold report_loop
    by_cases h : m.lists i = []
    · rw [if_pos h, ih, List.mem_cons]
      constructor
      · rintro ⟨h1, h2, h3⟩; exact ⟨Or.inr h1, h2, h3⟩
      · rintro ⟨h1 | h1, h2, h3⟩
        · subst h1; rw [h2] at h3; exact absurd h h3
        · exact ⟨h1, h2, h3⟩
    · rw [if_neg h, List.mem_cons, ih, List.mem_cons, Prod.mk.injEq]
      constructor
      · rintro (⟨h1, h2⟩ | ⟨h1, h2, h3⟩)
        · subst h1; subst h2; exact ⟨Or.inl rfl, rfl, h⟩
        · exact ⟨Or.inr h1, h2, h3⟩
      · rintro ⟨h1 | h1, h2, h3⟩
        · exact Or.inl ⟨h1, by rw [h2, h1]⟩
        · exact Or.inr ⟨h1, h2, h3⟩

theorem report_loop_sorted (m : FanMap) : ∀ (ids : List Int),
    ids.Pairwise (fun a b => a < b) →
    (report_loop m ids).Pairwise (fun a b => a.1 < b.1) := by
  intro ids
  induction ids with
  | nil => intro _; exact List.Pairwise.nil
  | cons i ids ih =>
    intro h
    rw [List.pairwise_cons] at h
    unfold report_loop
    split
    · exact ih h.2
    · rw [List.pairwise_cons]
      refine ⟨?_, ih h.2⟩
      rintro ⟨stem, bs⟩ hmem
      exact h.1 stem ((mem_report_loop m ids stem bs).1 hmem).1

theorem stem_branches_ne_nil (calls : List (Int × Int)) (s : Int) :
    stem_branches calls s ≠ [] ↔ ∃ b, (s, b) ∈ calls ∧ 0 < s ∧ 0 < b := by
  constructor
  · intro h
    obtain ⟨b, hb⟩ := List.exists_mem_of_ne_nil _ h
    unfold stem_branches at hb
    rw [mem_keep_first] at hb
    unfold stem_calls at hb
    obtain ⟨e, he, rfl⟩ := List.mem_map.1 hb
    rw [List.mem_filter] at he
    simp only [decide_eq_true_eq] at he
    obtain ⟨h1, h2, h3, h4⟩ := he
    refine ⟨e.2, ?_, by rw [← h2]; exact h3, h4⟩
    rw [← h2]
    exact h1
  · rintro ⟨b, h1, h2, h3⟩
    have hb : b ∈ stem_branches calls s := by
      unfold stem_branches
      rw [mem_keep_first]
      unfold stem_calls
      exact List.mem_map.2 ⟨(s, b), List.mem_filter.2 ⟨h1, by simp [h2, h3]⟩, rfl⟩
    exact List.ne_nil_of_mem hb

/-- C18 (fanout report of `fault_universe.c`): `main` always returns; the map it
reports is the one left by the calls `fan_add_edge(in1, out)`,
`fan_add_edge(in2, out)` of each well-formed gate line and
`fan_add_edge(stem, branch)` of each `FANOUT` line, in file order; the report
has a line for a stem iff that stem has a recorded edge (both ids positive),
the line carries the branches of the stem in first-seen order without
duplicates, and the lines are in strictly ascending stem order. -/
theorem fanout_report (quiet : Bool) (lns : List Line) :
    ∃ r, fu_main quiet lns = some r ∧
      fan_add_all fan_init (fu_edges lns) = some r.fan ∧
      r.fanout.Pairwise (fun a b => a.1 < b.1) ∧
      (∀ stem bs, (stem, bs) ∈ r.fanout ↔
        (bs = stem_branches (fu_edges lns) stem ∧ bs ≠ [])) ∧
      (∀ stem, (∃ bs, (stem, bs) ∈ r.fanout) ↔
        ∃ b, (stem, b) ∈ fu_edges lns ∧ 0 < stem ∧ 0 < b) := by
  obtain ⟨st, h1, -, h3, -, -, -, h7, -, h9⟩ := fu_parse_closed lns
  have hmem : ∀ stem bs,
      (stem, bs) ∈ report_loop st.fan (loop_ids ((st.fan.cap : Int) - 1)) ↔
        (bs = stem_branches (fu_edges lns) stem ∧ bs ≠ []) := by
    intro stem bs
    rw [mem_report_loop, h9, mem_loop_ids]
    constructor
    · rintro ⟨-, h, h'⟩; exact ⟨h, h'⟩
    · rintro ⟨h, h'⟩
      have hne : st.fan.lists stem ≠ [] := by rw [h9, ← h]; exact h'
      have := (h7 stem hne).1
      exact ⟨by omega, h, h'⟩
  refine ⟨_, by unfold fu_main; rw [h1], h3, report_loop_sorted _ _ (loop_ids_sorted _),
    hmem, ?_⟩
  intro stem
  rw [← stem_branches_ne_nil]
  constructor
  · rintro ⟨bs, hbs⟩
    obtain ⟨h, h'⟩ := (hmem stem bs).1 hbs
    rw [← h]; exact h'
  · intro h
    exact ⟨_, (hmem stem _).2 ⟨rfl, h⟩⟩

set_option maxRecDepth 1000000 in
/-- `INPUT 1` / `AND 2 1 1` / `OR 3 2 1` lists stem 1 with branches 2 then 3, and
stem 2 with branch 3. -/
theorem fanout_report_witness :
    ∃ r, fu_main true netlist_fanout = some r ∧ r.fanout = [(1, [2, 3]), (2, [3])] := by
  obtain ⟨r, h1, -⟩ := fanout_report true netlist_fanout
  have e : (fu_main true netlist_fanout).map (fun r => r.fanout) =
      some [(1, [2, 3]), (2, [3])] := by decide
  rw [h1] at e
  exact ⟨r, h1, Option.some.inj e⟩

/-! ## Positivity, coverage and malformed gate lines -/

theorem mem_fec_ids {lns : List Line} {v : Int} :
    v ∈ fec_ids lns ↔ ∃ ln ∈ lns, v ∈ fec_line_ids ln := by
  induction lns with
  | nil => simp [fec_ids]
  | cons ln lns ih => simp [fec_ids, ih]

theorem mem_fu_ids {lns : List Line} {v : Int} :
    v ∈ fu_ids lns ↔ ∃ ln ∈ lns, v ∈ fu_line_ids ln := by
  induction lns with
  | nil => simp [fu_ids]
  | cons ln lns ih => simp [fu_ids, ih]

theorem mem_fec_gates {lns : List Line} {g : Gate} :
    g ∈ fec_gates lns ↔ ∃ ln ∈ lns, g ∈ fec_line_gates ln := by
  induction lns with
  | nil => simp [fec_gates]
  | cons ln lns ih => simp [fec_gates, ih]

theorem mem_filterMap_id {toks : List (Option Int)} {v : Int} :
    v ∈ toks.filterMap id ↔ some v ∈ toks := by
  simp [List.mem_filterMap]

theorem mem_fec_line_ids {ln : Line} {v : Int} : v ∈ fec_line_ids ln ↔ line_operand ln v := by
  cases ln with
  | blank => simp [fec_line_ids, line_operand]
  | decl k toks => simp [fec_line_ids, line_operand]
  | word t toks =>
    by_cases ht : t ≠ GType.G_UNKNOWN
    · cases hg : gate_operands toks with
      | none => simp [fec_line_ids, line_operand, ht, hg]
      | some ops =>
        obtain ⟨o, i1, i2⟩ := ops
        simp [fec_line_ids, line_operand, ht, hg]
        constructor
        · intro h; exact ⟨o, i1, i2, ⟨rfl, rfl, rfl⟩, h⟩
        · rintro ⟨_, _, _, ⟨rfl, rfl, rfl⟩, h⟩; exact h
    · simp [fec_line_ids, line_operand, ht]

theorem mem_fu_line_ids {ln : Line} {v : Int} :
    v ∈ fu_line_ids ln ↔ (line_operand ln v ∧ ¬ fanout_without_stem ln) := by
  cases ln with
  | blank => simp [fu_line_ids, line_operand]
  | decl k toks =>
    cases k with
    | FANOUT =>
      cases toks with
      | nil => simp [fu_line_ids, line_operand, fanout_without_stem]
      | cons t rest =>
        cases t with
        | none => simp [fu_line_ids, line_operand, fanout_without_stem]
        | some stem =>
          simp only [fu_line_ids, line_operand, fanout_without_stem, List.mem_cons,
            mem_filterMap_id, Option.some.injEq, not_false_eq_true, and_true]
    | INPUT => simp [fu_line_ids, line_operand, fanout_without_stem]
    | OUTPUT => simp [fu_line_ids, line_operand, fanout_without_stem]
  | word t toks =>
    by_cases ht : t ≠ GType.G_UNKNOWN
    · cases hg : gate_operands toks with
      | none => simp [fu_line_ids, line_operand, fanout_without_stem, ht, hg]
      | some ops =>
        obtain ⟨o, i1, i2⟩ := ops
        simp [fu_line_ids, line_operand, fanout_without_stem, ht, hg]
        constructor
        · intro h; exact ⟨o, i1, i2, ⟨rfl, rfl, rfl⟩, h⟩
        · rintro ⟨_, _, _, ⟨rfl, rfl, rfl⟩, h⟩; exact h
    · simp [fu_line_ids, line_operand, fanout_without_stem, ht]

/-- C14 as stated fails for the gate list: `FEC.c` appends the gate of the line
`AND 0 1 -2` with `out = 0` and `in2 = -2`. -/
theorem id_positivity_counterexample :
    ∃ st, fec_parse [Line.word GType.G_AND [some 0, some 1, some (-2)]] = some st ∧
      st.gates = [⟨GType.G_AND, 0, 1, -2⟩] ∧
      ∃ g ∈ st.gates, g.out ≤ 0 ∧ g.in2 ≤ 0 := by
  obtain ⟨st, h1, -, h3, -⟩ :=
    fec_parse_closed [Line.word GType.G_AND [some 0, some 1, some (-2)]]
  have hg : st.gates = [⟨GType.G_AND, 0, 1, -2⟩] := by rw [h3]; decide
  refine ⟨st, h1, hg, ⟨GType.G_AND, 0, 1, -2⟩, ?_, by decide, by decide⟩
  rw [hg]
  exact List.mem_singleton.2 rfl

/-- C14, amended: in both programs a set registry slot has a positive index,
and in `fault_universe.c` every stem with a non-empty branch list and every
stored branch is positive; the gate list of `FEC.c` holds, in file order, the
operands of every well-formed gate line exactly as parsed (whatever their
sign). -/
theorem id_positivity (lns : List Line) :
    (∃ st, fec_parse lns = some st ∧ (∀ j, st.nodes.bits j ≠ 0 → 0 < j) ∧
      st.gates = fec_gates lns ∧
      ∀ g, g ∈ st.gates ↔ ∃ toks, Line.word g.t toks ∈ lns ∧ g.t ≠ GType.G_UNKNOWN ∧
        gate_operands toks = some (g.out, g.in1, g.in2)) ∧
    (∃ st, fu_parse lns = some st ∧ (∀ j, st.nodes.bits j ≠ 0 → 0 < j) ∧
      (∀ stem, st.fan.lists stem ≠ [] → 0 < stem) ∧
      (∀ stem b, b ∈ st.fan.lists stem → 0 < stem ∧ 0 < b)) := by
  constructor
  · obtain ⟨st, h1, -, h3, -, -, h6, -⟩ := fec_parse_closed lns
    refine ⟨st, h1, fun j hj => (h6.2 j hj).1, h3, ?_⟩
    intro g
    rw [h3, mem_fec_gates]
    constructor
    · rintro ⟨ln, hln, hg⟩
      cases ln with
      | blank => simp [fec_line_gates] at hg
      | decl k toks => simp [fec_line_gates] at hg
      | word t toks =>
        simp only [fec_line_gates] at hg
        by_cases ht : t ≠ GType.G_UNKNOWN
        · rw [if_pos ht] at hg
          cases hops : gate_operands toks with
          | none => rw [hops] at hg; simp at hg
          | some ops =>
            obtain ⟨o, i1, i2⟩ := ops
            rw [hops] at hg
            simp only [List.mem_singleton] at hg
            subst hg
            exact ⟨toks, hln, ht, hops⟩
        · rw [if_neg ht] at hg
          simp at hg
    · rintro ⟨toks, hln, ht, hops⟩
      refine ⟨_, hln, ?_⟩
      simp only [fec_line_gates]
      rw [if_pos ht, hops]
      exact List.mem_singleton.2 rfl
  · obtain ⟨st, h1, -, -, -, -, h6, h7, -⟩ := fu_parse_closed lns
    refine ⟨st, h1, fun j hj => (h6.2 j hj).1, fun stem h => (h7 stem h).1.1, ?_⟩
    intro stem b hb
    have hne : st.fan.lists stem ≠ [] := List.ne_nil_of_mem hb
    exact ⟨(h7 stem hne).1.1, (h7 stem hne).2 b hb⟩

/-- C15 as stated fails in `fault_universe.c`: on the line `FANOUT x 3 4`, whose
stem token is not an integer, the operand 3 is not registered (`FEC.c` does
register it). -/
theorem registry_coverage_counterexample :
    line_operand (Line.decl Kw.FANOUT [none, some 3, some 4]) 3 ∧
    (∃ st, fu_parse [Line.decl Kw.FANOUT [none, some 3, some 4]] = some st ∧
      ¬ Registered st.nodes 3) ∧
    (∃ st, fec_parse [Line.decl Kw.FANOUT [none, some 3, some 4]] = some st ∧
      Registered st.nodes 3) := by
  refine ⟨by simp [line_operand], ?_, ?_⟩
  · obtain ⟨st, h1, -, -, -, -, -, -, h8, -⟩ :=
      fu_parse_closed [Line.decl Kw.FANOUT [none, some 3, some 4]]
    refine ⟨st, h1, ?_⟩
    intro h
    have := ((h8 3).1 h.2.2).2
    simp [fu_ids, fu_line_ids] at this
  · obtain ⟨st, h1, -, -, -, -, h6, -, h8⟩ :=
      fec_parse_closed [Line.decl Kw.FANOUT [none, some 3, some 4]]
    have hb : st.nodes.bits 3 ≠ 0 := (h8 3).2 ⟨by decide, by simp [fec_ids, fec_line_ids]⟩
    exact ⟨st, h1, (h6.2 3 hb).1, (h6.2 3 hb).2, hb⟩

/-- C15, amended: after the parsing pass of `FEC.c` every positive operand of
every line is registered; after the parsing pass of `fault_universe.c` every
positive operand of every line other than a `FANOUT` line without an integer
stem is registered, and nothing else is (such a `FANOUT` line registers
nothing). -/
theorem registry_coverage (lns : List Line) :
    (∃ st, fec_parse lns = some st ∧
      (∀ ln ∈ lns, ∀ v, 0 < v → line_operand ln v → Registered st.nodes v) ∧
      (∀ j, st.nodes.bits j ≠ 0 → ∃ ln ∈ lns, line_operand ln j)) ∧
    (∃ st, fu_parse lns = some st ∧
      (∀ ln ∈ lns, ¬ fanout_without_stem ln → ∀ v, 0 < v → line_operand ln v →
        Registered st.nodes v) ∧
      (∀ j, st.nodes.bits j ≠ 0 →
        ∃ ln ∈ lns, ¬ fanout_without_stem ln ∧ line_operand ln j)) := by
  constructor
  · obtain ⟨st, h1, -, -, -, -, h6, -, h8⟩ := fec_parse_closed lns
    refine ⟨st, h1, ?_, ?_⟩
    · intro ln hln v hv hop
      have hb : st.nodes.bits v ≠ 0 :=
        (h8 v).2 ⟨hv, mem_fec_ids.2 ⟨ln, hln, mem_fec_line_ids.2 hop⟩⟩
      exact ⟨hv, (h6.2 v hb).2, hb⟩
    · intro j hj
      obtain ⟨ln, hln, hmem⟩ := mem_fec_ids.1 ((h8 j).1 hj).2
      exact ⟨ln, hln, mem_fec_line_ids.1 hmem⟩
  · obtain ⟨st, h1, -, -, -, -, h6, -, h8, -⟩ := fu_parse_closed lns
    refine ⟨st, h1, ?_, ?_⟩
    · intro ln hln hns v hv hop
      have hb : st.nodes.bits v ≠ 0 :=
        (h8 v).2 ⟨hv, mem_fu_ids.2 ⟨ln, hln, mem_fu_line_ids.2 ⟨hop, hns⟩⟩⟩
      exact ⟨hv, (h6.2 v hb).2, hb⟩
    · intro j hj
      obtain ⟨ln, hln, hmem⟩ := mem_fu_ids.1 ((h8 j).1 hj).2
      have := mem_fu_line_ids.1 hmem
      exact ⟨ln, hln, this.2, this.1⟩

theorem fec_ids_append (a b : List Line) : fec_ids (a ++ b) = fec_ids a ++ fec_ids b := by
  induction a with
  | nil => rfl
  | cons ln a ih => simp [fec_ids, ih]

theorem fec_gates_append (a b : List Line) :
    fec_gates (a ++ b) = fec_gates a ++ fec_gates b := by
  induction a with
  | nil => rfl
  | cons ln a ih => simp [fec_gates, ih]

theorem fu_ids_append (a b : List Line) : fu_ids (a ++ b) = fu_ids a ++ fu_ids b := by
  induction a with
  | nil => rfl
  | cons ln a ih => simp [fu_ids, ih]

theorem fu_edges_append (a b : List Line) : fu_edges (a ++ b) = fu_edges a ++ fu_edges b := by
  induction a with
  | nil => rfl
  | cons ln a ih => simp [fu_edges, ih]

theorem malformed_lines_append : ∀ (a b : List Line) (n : Nat),
    malformed_lines n (a ++ b) = malformed_lines n a ++ malformed_lines (n + a.length) b := by
  intro a
  induction a with
  | nil => intro b n; simp [malformed_lines]
  | cons ln a ih =>
    intro b n
    have e : n + 1 + a.length = n + (a.length + 1) := by omega
    show (if malformed_gate ln then [n + 1] else []) ++ malformed_lines (n + 1) (a ++ b) = _
    rw [ih b (n + 1), e]
    simp only [malformed_lines, List.append_assoc, List.length_cons]

theorem malformed_lines_shift : ∀ (lns : List Line) (n : Nat),
    malformed_lines (n + 1) lns = (malformed_lines n lns).map (fun k => k + 1) := by
  intro lns
  induction lns with
  | nil => intro n; rfl
  | cons ln lns ih =>
    intro n
    simp only [malformed_lines, List.map_append, ih]
    split <;> rfl

theorem malformed_gate_effect {bad : Line} (h : malformed_gate bad) :
    fec_line_ids bad = [] ∧ fec_line_gates bad = [] ∧ fu_line_ids bad = [] ∧
      fu_line_edges bad = [] := by
  cases bad with
  | blank => exact absurd h (by simp [malformed_gate])
  | decl k toks => exact absurd h (by simp [malformed_gate])
  | word t toks =>
    obtain ⟨ht, hg⟩ := h
    simp [fec_line_ids, fec_line_gates, fu_line_ids, fu_line_edges, ht, hg]

/-- C19 (malformed gate lines are atomic and non-fatal): for a gate line whose
operand list is malformed, placed anywhere in a netlist, both programs finish
the parsing pass; the registry, the gate list (`FEC.c`) and the fanout map
(`fault_universe.c`) are the same as if the line were absent; the line gets
exactly one diagnostic, with its own line number, and the diagnostics of the
other lines are those of the netlist without the line (later line numbers one
higher). On any state the line only appends its line number to the
diagnostics and advances `lineno`. -/
theorem malformed_gate_atomic (pre post : List Line) (bad : Line) (hbad : malformed_gate bad) :
    (∃ st st0, fec_parse (pre ++ bad :: post) = some st ∧ fec_parse (pre ++ post) = some st0 ∧
      st.nodes = st0.nodes ∧ st.gates = st0.gates ∧
      st.diag = malformed_lines 0 pre ++
        (pre.length + 1) :: (malformed_lines pre.length post).map (fun k => k + 1) ∧
      st0.diag = malformed_lines 0 pre ++ malformed_lines pre.length post) ∧
    (∃ st st0, fu_parse (pre ++ bad :: post) = some st ∧ fu_parse (pre ++ post) = some st0 ∧
      st.nodes = st0.nodes ∧ st.fan = st0.fan ∧
      st.diag = malformed_lines 0 pre ++
        (pre.length + 1) :: (malformed_lines pre.length post).map (fun k => k + 1) ∧
      st0.diag = malformed_lines 0 pre ++ malformed_lines pre.length post) ∧
    (∀ st : ParseState, fec_line st bad = some
      { st with diag := st.diag ++ [st.lineno + 1], lineno := st.lineno + 1 }) ∧
    (∀ st : FuState, fu_line st bad = some
      { st with diag := st.diag ++ [st.lineno + 1], lineno := st.lineno + 1 }) := by
  obtain ⟨e1, e2, e3, e4⟩ := malformed_gate_effect hbad
  have hd : malformed_lines 0 (pre ++ bad :: post) = malformed_lines 0 pre ++
      (pre.length + 1) :: (malformed_lines pre.length post).map (fun k => k + 1) := by
    rw [malformed_lines_append]
    simp only [malformed_lines, hbad, if_true, Nat.zero_add, List.singleton_append,
      malformed_lines_shift]
  have hd0 : malformed_lines 0 (pre ++ post) =
      malformed_lines 0 pre ++ malformed_lines pre.length post := by
    rw [malformed_lines_append, Nat.zero_add]
  refine ⟨?_, ?_, ?_, ?_⟩
  · obtain ⟨st, h1, h2, h3, h4, -⟩ := fec_parse_closed (pre ++ bad :: post)
    obtain ⟨st0, k1, k2, k3, k4, -⟩ := fec_parse_closed (pre ++ post)
    have hids : fec_ids (pre ++ bad :: post) = fec_ids (pre ++ post) := by
      rw [fec_ids_append, fec_ids_append]
      simp [fec_ids, e1]
    have hgs : fec_gates (pre ++ bad :: post) = fec_gates (pre ++ post) := by
      rw [fec_gates_append, fec_gates_append]
      simp [fec_gates, e2]
    refine ⟨st, st0, h1, k1, ?_, by rw [h3, k3, hgs], by rw [h4, hd], by rw [k4, hd0]⟩
    rw [hids, k2] at h2
    exact (Option.some.inj h2).symm
  · obtain ⟨st, h1, h2, h3, h4, -⟩ := fu_parse_closed (pre ++ bad :: post)
    obtain ⟨st0, k1, k2, k3, k4, -⟩ := fu_parse_closed (pre ++ post)
    have hids : fu_ids (pre ++ bad :: post) = fu_ids (pre ++ post) := by
      rw [fu_ids_append, fu_ids_append]
      simp [fu_ids, e3]
    have hes : fu_edges (pre ++ bad :: post) = fu_edges (pre ++ post) := by
      rw [fu_edges_append, fu_edges_append]
      simp [fu_edges, e4]
    refine ⟨st, st0, h1, k1, ?_, ?_, by rw [h4, hd], by rw [k4, hd0]⟩
    · rw [hids, k2] at h2
      exact (Option.some.inj h2).symm
    · rw [hes, k3] at h3
      exact (Option.some.inj h3).symm
  · intro st
    rw [fec_line_eq, e1, e2]
    simp [ns_add_all, hbad]
  · intro st
    cases bad with
    | blank => exact absurd hbad (by simp [malformed_gate])
    | decl k toks => exact absurd hbad (by simp [malformed_gate])
    | word t toks =>
      obtain ⟨ht, hg⟩ := hbad
      unfold fu_line
      simp only [ht, if_true, ne_eq, not_false_eq_true]
      split
      · rename_i o i1 i2 rest
        simp [gate_operands] at hg
      · rfl

set_option maxRecDepth 1000000 in
/-- `AND 3 1` followed by `INPUT 7`: one diagnostic (line 1), no gate, nets 3
and 1 not registered, and net 7 of the following line registered. -/
theorem malformed_gate_atomic_witness :
    malformed_gate (Line.word GType.G_AND [some 3, some 1]) ∧
    ∃ st, fec_parse netlist_malformed = some st ∧ st.diag = [1] ∧ st.gates = [] ∧
      st.nodes.bits 3 = 0 ∧ st.nodes.bits 1 = 0 ∧ st.nodes.bits 7 = 1 := by
  have hbad : malformed_gate (Line.word GType.G_AND [some 3, some 1]) := by decide
  obtain ⟨⟨st, st0, h1, -, -, -, h5, -⟩, -⟩ :=
    malformed_gate_atomic [] [Line.decl Kw.INPUT [some 7]] _ hbad
  have e : (fec_parse netlist_malformed).map
      (fun st => (st.gates, st.nodes.bits 3, st.nodes.bits 1, st.nodes.bits 7)) =
      some ([], 0, 0, 1) := by decide
  have h1' : fec_parse netlist_malformed = some st := h1
  rw [h1'] at e
  have e2 := Option.some.inj e
  simp only [Prod.mk.injEq] at e2
  refine ⟨hbad, st, h1', ?_, e2.1, e2.2.1, e2.2.2.1, e2.2.2.2⟩
  rw [h5]
  rfl

end FEC
